import Mathlib

/-!
# markovian-word-gen: weighted sampler and character model

A shallow embedding of `sampler.go`, `wordgenerator.go` and the generation loop
of the request handler in `main.go`.

Modelling conventions.

* A Go run either returns or panics.  Every operation returns `Except Fault _`;
  `Fault.indexOutOfRange` is the runtime panic of an out-of-range slice access,
  `Fault.intnNonPositive` the panic of `rand.Intn` on an argument `<= 0`.
  `Fault.outOfFuel` is the only artefact of the embedding: recursive and looping
  code is written by structural recursion on a fuel counter, and the theorems
  show that the fuel supplied is always enough.
* Go `int` values (weights, cumulative frequencies, draws, `maxLength`) are
  integers, and the two additions of the program, `prev + freq` and
  `s.cumFreq[i] += freq`, wrap around at 64 bits: `Sampler.Add64` is `Add` with
  `wrapInt` applied to every sum.  `Sampler.Add` is the same code with the sums
  taken in the integers; a run of `Add64` is the run of `Add` with its `cumFreq`
  entries wrapped (`reached64_wrapped`), and the two agree when the weights sum
  to at most `MaxInt64` (`reached64_exact`).  `Build` calls `Add` with weight 1
  only, at most three times per byte of a word, so that its sums stay below
  three times the number of bytes of the vocabulary; it is stated over `Add`.  Slice indices
  and lengths are natural numbers.
* A Go `map[K]V` is a partial function `K → Option V`.
* A Go `string` is its sequence of bytes; `len`, slicing and indexing are
  byte operations, as in Go.  A `rune` is an integer; where the range of Go's
  `int32` matters (the UTF-8 encoding of a rune) it is a hypothesis, `isInt32`.
* `*rand.Rand` is a stream of raw draws with a cursor; `Intn n` reduces the
  next raw draw modulo `n` and advances the cursor, so every sequence of
  outcomes `r_i ∈ [0, n_i)` is produced by some stream.
* `time.Now()` (the seed in `NewSampler`) and `strings.ToLower` belong to the
  Go runtime and library: the freshly seeded generator and the lower-casing
  function are parameters.
-/

namespace MarkovWordGen

/-- Abnormal ends of a run. -/
inductive Fault where
  | indexOutOfRange
  | intnNonPositive
  | outOfFuel
  deriving DecidableEq, Repr

/-- One byte of a Go string. -/
abbrev Byte := Fin 256

/-- Go strings are byte sequences. -/
abbrev GoString := List Byte

/-- Go `rune` (an integer code point). -/
abbrev Rune := Int

/-- Sequential loop over a list in a state that may panic: the body of a Go
`for` loop run once per element, stopping at the first panic. -/
def forEachM {σ α : Type} (body : σ → α → Except Fault σ) : List α → σ → Except Fault σ
  | [], s => .ok s
  | a :: rest, s =>
    match body s a with
    | .error e => .error e
    | .ok s' => forEachM body rest s'

/-! ## math/rand -/

/-- State of a `*rand.Rand`: the stream of raw draws and the cursor into it. -/
structure Rand where
  draws : Nat → Nat
  pos : Nat

/-- `(*rand.Rand).Intn`: panics when `n <= 0`, otherwise returns a value in
`[0, n)` and advances the source. -/
def Rand.Intn (g : Rand) (n : Int) : Except Fault (Int × Rand) :=
  if n ≤ 0 then .error .intnNonPositive
  else .ok ((g.draws g.pos : Int) % n, { draws := g.draws, pos := g.pos + 1 })

/-! ## sampler.go -/

/-- `type Sampler[T comparable] struct`. -/
structure Sampler (T : Type) where
  itemToIdxMap : T → Option Nat
  items : List T
  cumFreq : List Int
  random : Rand

/-- `NewSampler(cap)`: empty map, `items` of length 0, `cumFreq` of length `cap`
filled with zeros, and a freshly seeded random source. -/
def NewSampler {T : Type} (cap : Nat) (random : Rand) : Sampler T :=
  { itemToIdxMap := fun _ => none
    items := []
    cumFreq := List.replicate cap 0
    random := random }

/-- The loop `for i := idx; i < len(s.items); i++ { s.cumFreq[i] += freq }`,
with `n` the number of iterations left and `i` the loop variable, the sums taken
in the integers (`addLoop64` below is the loop on 64-bit integers). -/
def addLoop (freq : Int) : Nat → Nat → List Int → Except Fault (List Int)
  | 0, _, cum => .ok cum
  | n + 1, i, cum =>
    match cum[i]? with
    | none => .error .indexOutOfRange
    | some c => addLoop freq n (i + 1) (cum.set i (c + freq))

/-- `(*Sampler).Add` with the sums `prev + freq` and `s.cumFreq[i] += freq` taken
in the integers: what `Add` does as long as no sum leaves the range of `int`
(`Add64` below is `Add` on 64-bit integers). -/
def Sampler.Add {T : Type} [DecidableEq T] (s : Sampler T) (item : T) (freq : Int) :
    Except Fault (Sampler T) :=
  match s.itemToIdxMap item with
  | none =>
    let idx := s.items.length
    let prev? : Option Int := if idx > 0 then s.cumFreq[idx - 1]? else some 0
    match prev? with
    | none => .error .indexOutOfRange
    | some prev =>
      if idx < s.cumFreq.length then
        .ok { itemToIdxMap := Function.update s.itemToIdxMap item (some idx)
              items := s.items ++ [item]
              cumFreq := s.cumFreq.set idx (prev + freq)
              random := s.random }
      else .error .indexOutOfRange
  | some idx =>
    match addLoop freq (s.items.length - idx) idx s.cumFreq with
    | .error e => .error e
    | .ok cum => .ok { s with cumFreq := cum }

/-- `(*Sampler).bsearch` by recursion on fuel. -/
def bsearchFuel (cumFreq : List Int) : Nat → Nat → Nat → Int → Except Fault Nat
  | 0, _, _, _ => .error .outOfFuel
  | fuel + 1, l, r, target =>
    if l = r then .ok l
    else
      let m := l + (r - l) / 2
      match cumFreq[m]? with
      | none => .error .indexOutOfRange
      | some c =>
        if c > target then bsearchFuel cumFreq fuel l m target
        else bsearchFuel cumFreq fuel (m + 1) r target

/-- `(*Sampler).bsearch(l, r, target)`; the interval shrinks at every call, so
`r - l + 1` calls are enough. -/
def Sampler.bsearch {T : Type} (s : Sampler T) (l r : Nat) (target : Int) : Except Fault Nat :=
  bsearchFuel s.cumFreq (r - l + 1) l r target

/-- `(*Sampler).Sample`: the sampled item (`none` for Go's `nil`) and the
sampler with its random source advanced. -/
def Sampler.Sample {T : Type} (s : Sampler T) : Except Fault (Option T × Sampler T) :=
  if s.items.length = 0 then .ok (none, s)
  else
    match s.cumFreq[s.items.length - 1]? with
    | none => .error .indexOutOfRange
    | some total =>
      match s.random.Intn total with
      | .error e => .error e
      | .ok (rng, random') =>
        match s.bsearch 0 (s.items.length - 1) rng with
        | .error e => .error e
        | .ok rngIdx =>
          match s.items[rngIdx]? with
          | none => .error .indexOutOfRange
          | some item => .ok (some item, { s with random := random' })

/-- A sequence of `Add` calls, in order, the sums taken in the integers. -/
def addAll {T : Type} [DecidableEq T] (s : Sampler T) (calls : List (T × Int)) :
    Except Fault (Sampler T) :=
  forEachM (fun s c => s.Add c.1 c.2) calls s

/-- The value a Go `int` (64 bits, two's complement) holds after an arithmetic
operation whose exact result is `x`. -/
def wrapInt (x : Int) : Int :=
  (x + 9223372036854775808) % 18446744073709551616 - 9223372036854775808

/-- The loop `for i := idx; i < len(s.items); i++ { s.cumFreq[i] += freq }` on
Go's 64-bit `int`: every sum wraps around. -/
def addLoop64 (freq : Int) : Nat → Nat → List Int → Except Fault (List Int)
  | 0, _, cum => .ok cum
  | n + 1, i, cum =>
    match cum[i]? with
    | none => .error .indexOutOfRange
    | some c => addLoop64 freq n (i + 1) (cum.set i (wrapInt (c + freq)))

/-- `(*Sampler).Add` on Go's 64-bit `int`: `prev + freq` and `s.cumFreq[i] += freq`
wrap around. -/
def Sampler.Add64 {T : Type} [DecidableEq T] (s : Sampler T) (item : T) (freq : Int) :
    Except Fault (Sampler T) :=
  match s.itemToIdxMap item with
  | none =>
    let idx := s.items.length
    let prev? : Option Int := if idx > 0 then s.cumFreq[idx - 1]? else some 0
    match prev? with
    | none => .error .indexOutOfRange
    | some prev =>
      if idx < s.cumFreq.length then
        .ok { itemToIdxMap := Function.update s.itemToIdxMap item (some idx)
              items := s.items ++ [item]
              cumFreq := s.cumFreq.set idx (wrapInt (prev + freq))
              random := s.random }
      else .error .indexOutOfRange
  | some idx =>
    match addLoop64 freq (s.items.length - idx) idx s.cumFreq with
    | .error e => .error e
    | .ok cum => .ok { s with cumFreq := cum }

/-- A sequence of `Add` calls on Go's 64-bit `int`, in order. -/
def addAll64 {T : Type} [DecidableEq T] (s : Sampler T) (calls : List (T × Int)) :
    Except Fault (Sampler T) :=
  forEachM (fun s c => s.Add64 c.1 c.2) calls s

/-! ## wordgenerator.go -/

/-- `type WordGenerator struct`. -/
structure WordGenerator where
  charDist : GoString → Option (Sampler Rune)
  contextLength : Nat

/-- `NewWordGenerator()`. -/
def NewWordGenerator : WordGenerator :=
  { charDist := fun _ => none
    contextLength := 3 }

/-- `wg.hasContext(ctx)`. -/
def WordGenerator.hasContext (wg : WordGenerator) (ctx : GoString) : Bool :=
  (wg.charDist ctx).isSome

/-- The sampler `addWord` works on for `ctx`: `wg.charDist[ctx]` if it exists,
else a `NewSampler[rune](29)`.  `seed ctx` is the random source `NewSampler`
creates for the sampler of `ctx`. -/
def WordGenerator.samplerFor (seed : GoString → Rand) (wg : WordGenerator) (ctx : GoString) :
    Sampler Rune :=
  match wg.charDist ctx with
  | some sampler => sampler
  | none => NewSampler 29 (seed ctx)

/-- Body of the inner loop of `addWord` for one pair `(i, j)`: fetch or create
the sampler of `word[i:j]` and add `rune(word[j])` with weight 1. -/
def addWordAt (seed : GoString → Rand) (word : GoString) (i : Nat) (wg : WordGenerator)
    (j : Nat) : Except Fault WordGenerator :=
  let ctx : GoString := (word.drop i).take (j - i)
  let sampler : Sampler Rune := wg.samplerFor seed ctx
  match word[j]? with
  | none => .error .indexOutOfRange
  | some b =>
    match sampler.Add (b.val : Int) 1 with
    | .error e => .error e
    | .ok sampler' =>
      .ok { wg with charDist := Function.update wg.charDist ctx (some sampler') }

/-- Values of `j` visited by `for j := i + 1; j <= i+contextLength && j < len(word); j++`. -/
def innerRange (contextLength len i : Nat) : List Nat :=
  (List.range' (i + 1) contextLength).takeWhile (fun j => decide (j < len))

/-- `(*WordGenerator).addWord`. -/
def WordGenerator.addWord (seed : GoString → Rand) (wg : WordGenerator) (word : GoString) :
    Except Fault WordGenerator :=
  forEachM
    (fun wg i => forEachM (addWordAt seed word i) (innerRange wg.contextLength word.length i) wg)
    (List.range (word.length - 1)) wg

/-- The pre-processing of `Build`: `"^" + strings.ToLower(word) + "$"`. -/
def processWord (toLower : GoString → GoString) (word : GoString) : GoString :=
  [94] ++ toLower word ++ [36]

/-- `(*WordGenerator).Build`. -/
def WordGenerator.Build (toLower : GoString → GoString) (seed : GoString → Rand)
    (wg : WordGenerator) (words : List GoString) : Except Fault WordGenerator :=
  forEachM (WordGenerator.addWord seed) (words.map (processWord toLower)) wg

/-- `utf8.AppendRune`, the bytes `strings.Builder.WriteRune` appends. -/
def utf8AppendRune (r : Rune) : GoString :=
  let i : Nat := (r % 4294967296).toNat
  if i ≤ 127 then [Fin.ofNat i]
  else if i ≤ 2047 then [Fin.ofNat (192 + i / 64), Fin.ofNat (128 + i % 64)]
  else if 1114111 < i ∨ (55296 ≤ i ∧ i ≤ 57343) then [239, 191, 189]
  else if i ≤ 65535 then
    [Fin.ofNat (224 + i / 4096), Fin.ofNat (128 + i / 64 % 64), Fin.ofNat (128 + i % 64)]
  else
    [Fin.ofNat (240 + i / 262144), Fin.ofNat (128 + i / 4096 % 64),
     Fin.ofNat (128 + i / 64 % 64), Fin.ofNat (128 + i % 64)]

/-- The loop `for !wg.hasContext(ctx) { if len(ctx) <= 1 { break }; ctx = ctx[1:] }`. -/
def WordGenerator.backoff (wg : WordGenerator) : GoString → GoString
  | [] => []
  | b :: rest =>
    if wg.hasContext (b :: rest) then b :: rest
    else if (b :: rest).length ≤ 1 then b :: rest
    else WordGenerator.backoff wg rest

/-- The main loop of `Generate`, one unit of fuel per evaluation of the loop
condition.  The state is the builder's content, `nextChar`, and the generator
(whose samplers' random sources advance). -/
def generateLoop (maxLength : Int) :
    Nat → WordGenerator → GoString → Rune → Except Fault (GoString × WordGenerator)
  | 0, _, _, _ => .error .outOfFuel
  | fuel + 1, wg, result, nextChar =>
    if nextChar ≠ 36 ∧ (result.length : Int) < maxLength then
      let ctx0 : GoString :=
        if result.length < wg.contextLength then result
        else result.drop (result.length - wg.contextLength)
      let ctx := wg.backoff ctx0
      match wg.charDist ctx with
      | none => .ok (result, wg)
      | some sampler =>
        match sampler.Sample with
        | .error e => .error e
        | .ok (none, _) => .ok (result, wg)
        | .ok (some c, sampler') =>
          generateLoop maxLength fuel
            { wg with charDist := Function.update wg.charDist ctx (some sampler') }
            (result ++ utf8AppendRune c) c
    else .ok (result, wg)

/-- `(*WordGenerator).Generate(maxLength)`: the returned string and the
generator afterwards.  The builder starts at one byte and grows at every
iteration, so `maxLength + 1` evaluations of the loop condition are enough. -/
def WordGenerator.Generate (wg : WordGenerator) (maxLength : Int) :
    Except Fault (GoString × WordGenerator) :=
  generateLoop maxLength (maxLength.toNat + 1) wg [94] 94

/-! ## Notions used to state the properties -/

/-- Total weight passed to `Add` for item `x` by a sequence of calls. -/
def weightAdded {T : Type} [DecidableEq T] (calls : List (T × Int)) (x : T) : Int :=
  ((calls.filter (fun c => decide (c.1 = x))).map Prod.snd).sum

/-- The entry `s.cumFreq[i]`, for an index `i` in range. -/
def Sampler.cum {T : Type} (s : Sampler T) (i : Nat) : Int :=
  s.cumFreq.getD i 0

/-- Lower end of the slice owned by index `i`: `cumFreq[i-1]`, and 0 for `i = 0`. -/
def Sampler.cumBefore {T : Type} (s : Sampler T) (i : Nat) : Int :=
  if i = 0 then 0 else s.cum (i - 1)

/-- The sampler `s` with a random source whose next raw draw is `r`. -/
def Sampler.withDraw {T : Type} (s : Sampler T) (r : Nat) : Sampler T :=
  { s with random := { draws := fun _ => r, pos := 0 } }

/-- What `Sample` returns when `r` is the random draw (`none` if it returns
`nil` or panics). -/
def Sampler.sampleAt {T : Type} (s : Sampler T) (r : Nat) : Option T :=
  match (s.withDraw r).Sample with
  | .ok (some x, _) => some x
  | _ => none

/-- Weight currently held by item `x`: the width of its slice of `cumFreq`,
and 0 for an item that is not registered. -/
def Sampler.weightOf {T : Type} (s : Sampler T) (x : T) : Int :=
  match s.itemToIdxMap x with
  | none => 0
  | some i => s.cum i - s.cumBefore i

/-- Weight of rune `c` in the sampler registered for `ctx` (0 when no sampler
is registered for `ctx`). -/
def WordGenerator.weight (wg : WordGenerator) (ctx : GoString) (c : Rune) : Int :=
  match wg.charDist ctx with
  | none => 0
  | some s => s.weightOf c

/-- Number of pairs `(i, j)` of one word with `i < j`, `j - i <= 3`, `j < len(word)`,
`word[i:j] = ctx` and `rune(word[j]) = c`. -/
def countPairs (word ctx : GoString) (c : Rune) : Nat :=
  ((List.range word.length).map (fun i =>
    ((List.range word.length).filter (fun j =>
      decide (i < j ∧ j - i ≤ 3 ∧ j < word.length ∧ (word.drop i).take (j - i) = ctx ∧
        (word[j]?).map (fun b => (b.val : Int)) = some c))).length)).sum

/-- Number of triples `(word, i, j)`, `word` running through the normalized
vocabulary (one entry per vocabulary entry), counted by `countPairs`. -/
def countTriples (toLower : GoString → GoString) (words : List GoString) (ctx : GoString)
    (c : Rune) : Nat :=
  ((words.map (processWord toLower)).map (fun word => countPairs word ctx c)).sum

/-- The byte values that follow `ctx` somewhere in the normalized vocabulary. -/
def successors (toLower : GoString → GoString) (words : List GoString) (ctx : GoString) :
    List Nat :=
  (List.range 256).filter (fun c => decide (0 < countTriples toLower words ctx (c : Int)))

/-- The byte values that occur in the normalized vocabulary. -/
def alphabet (toLower : GoString → GoString) (words : List GoString) : List Nat :=
  (((words.map (processWord toLower)).flatten).map (fun b => b.val)).dedup

/-- A vocabulary of thirty one-letter words: `a` to `z` and `0` to `3`. -/
def thirtyWords : List GoString :=
  (List.range 26).map (fun n => [Fin.ofNat (97 + n)]) ++
    (List.range 4).map (fun n => [Fin.ofNat (48 + n)])

/-- Number of characters of a UTF-8 string: its bytes other than the
continuation bytes `10xxxxxx`. -/
def charCount (s : GoString) : Nat :=
  (s.filter (fun b => decide (b.val / 64 ≠ 2))).length

/-- The UTF-8 text of a sequence of runes, as `WriteRune` writes it. -/
def encodeRunes : List Rune → GoString
  | [] => []
  | r :: rest => utf8AppendRune r ++ encodeRunes rest

/-- The bytes of a string literal (UTF-8). -/
def str (s : String) : GoString :=
  encodeRunes (s.toList.map (fun ch => (ch.toNat : Int)))

/-- The branch of `strings.ToLower` taken on ASCII input: `A`..`Z` become
`a`..`z`, every other byte is kept. -/
def asciiToLower (s : GoString) : GoString :=
  s.map (fun b => if 65 ≤ b.val ∧ b.val ≤ 90 then b + 32 else b)

/-- A random source that always draws 0. -/
def zeroRand : Rand := { draws := fun _ => 0, pos := 0 }

/-- Consistency of the three containers of a sampler: `cumFreq` has a slot for
every item, the items are distinct, and the map sends each item to its position. -/
structure Sampler.WF {T : Type} (s : Sampler T) : Prop where
  len_le : s.items.length ≤ s.cumFreq.length
  nodup : s.items.Nodup
  map_iff : ∀ x i, s.itemToIdxMap x = some i ↔ s.items[i]? = some x

/-- The sampler `s` holds the weights `W`: unregistered items have weight 0 and
`cumFreq[i]` is the sum of the weights of `items[0..i]`. -/
structure Sampler.Tracks {T : Type} (s : Sampler T) (W : T → Int) : Prop where
  wf : s.WF
  zero_of_not_mem : ∀ x, x ∉ s.items → W x = 0
  prefixSum : ∀ i, i < s.items.length → s.cum i = ((s.items.take (i + 1)).map W).sum

/-- Contribution of the pair `(i, j)` of `word` to the count of the key
`(ctx, c)`: 1 when `word[i:j] = ctx` and `rune(word[j]) = c`, else 0. -/
def pairHit (word : GoString) (i j : Nat) (k : GoString × Rune) : Int :=
  if (word.drop i).take (j - i) = k.1 ∧ (word[j]?).map (fun b => (b.val : Int)) = some k.2
  then 1 else 0

/-- Contribution of the pairs `(i, j)` the inner loop of `addWord` visits for `i`. -/
def rowHit (word : GoString) (i : Nat) (k : GoString × Rune) : Int :=
  ((innerRange 3 word.length i).map (fun j => pairHit word i j k)).sum

/-- Contribution of one call of `addWord`. -/
def wordHit (word : GoString) (k : GoString × Rune) : Int :=
  ((List.range (word.length - 1)).map (fun i => rowHit word i k)).sum

/-- Contribution of one call of `Build`. -/
def vocabHit (toLower : GoString → GoString) (words : List GoString) (k : GoString × Rune) :
    Int :=
  ((words.map (processWord toLower)).map (fun word => wordHit word k)).sum

/-- The generator `wg` holds the counts `N`: a context with no sampler has
count 0 for every rune, and the sampler of a registered context has capacity
29, at least one item, positive weight for every item, and tracks `N`. -/
def Holds (wg : WordGenerator) (N : GoString × Rune → Int) : Prop :=
  wg.contextLength = 3 ∧
    ∀ ctx, match wg.charDist ctx with
      | none => ∀ c, N (ctx, c) = 0
      | some s =>
        s.Tracks (fun c => N (ctx, c)) ∧ s.cumFreq.length = 29 ∧ s.items ≠ [] ∧
          ∀ c, c ∈ s.items → 0 < N (ctx, c)

/-- The counts `N` fit the capacity of the samplers: no context has more than
29 runes of positive count. -/
def Fits (N : GoString × Rune → Int) : Prop :=
  ∀ (ctx : GoString) (l : List Rune), l.Nodup → (∀ c, c ∈ l → 0 < N (ctx, c)) → l.length ≤ 29

/-- A sampler from which `Sample` can draw: it has an item, a `cumFreq` slot for
every item, and a positive total. -/
def Sampler.Drawable {T : Type} (s : Sampler T) : Prop :=
  0 < s.items.length ∧ s.items.length ≤ s.cumFreq.length ∧ 0 < s.cum (s.items.length - 1)

/-- Every registered sampler of the generator can be drawn from. -/
def WordGenerator.AllDrawable (wg : WordGenerator) : Prop :=
  ∀ ctx s, wg.charDist ctx = some s → s.Drawable

/-- Every item of every registered sampler satisfies `A`. -/
def WordGenerator.ItemsIn (wg : WordGenerator) (A : Rune → Prop) : Prop :=
  ∀ ctx s, wg.charDist ctx = some s → ∀ c, c ∈ s.items → A c

/-! ## main.go -/

/-- The loop of `generateWordsHandler`,
`for i := 0; i < req.Count; i++ { generatedWords[i] = generator.Generate(req.MaxLength) }`:
`count` calls of `Generate` on the same generator, in order. -/
def generateWords (maxLength : Int) :
    Nat → WordGenerator → Except Fault (List GoString × WordGenerator)
  | 0, wg => .ok ([], wg)
  | count + 1, wg =>
    match wg.Generate maxLength with
    | .error e => .error e
    | .ok (word, wg') =>
      match generateWords maxLength count wg' with
      | .error e => .error e
      | .ok (rest, wg'') => .ok (word :: rest, wg'')

/-- The work of `generateWordsHandler` on a decoded request: a fresh generator,
`Build` on the words of the request, then `count` calls of `Generate`.  The
result is the list `generatedWords` of the response. -/
def generateWordsHandler (toLower : GoString → GoString) (seed : GoString → Rand)
    (words : List GoString) (count : Nat) (maxLength : Int) : Except Fault (List GoString) :=
  match NewWordGenerator.Build toLower seed words with
  | .error e => .error e
  | .ok wg =>
    match generateWords maxLength count wg with
    | .error e => .error e
    | .ok (out, _) => .ok out

/-! ## Notions used to state the properties of `Generate` and `bsearch` -/

/-- The context `Generate` starts an iteration with: the whole result while it
is shorter than `contextLength`, else its last `contextLength` bytes. -/
def WordGenerator.candidate (wg : WordGenerator) (result : GoString) : GoString :=
  if result.length < wg.contextLength then result
  else result.drop (result.length - wg.contextLength)

/-- The generator after an iteration of `Generate` that drew from the sampler of
`ctx`: that sampler is replaced by `sampler'`, the same sampler with its random
source advanced. -/
def WordGenerator.withSampler (wg : WordGenerator) (ctx : GoString)
    (sampler' : Sampler Rune) : WordGenerator :=
  { wg with charDist := Function.update wg.charDist ctx (some sampler') }

/-- The states of the loop of `wg0.Generate(maxLength)`: `GenReaches maxLength wg0 k wg
result nextChar` says that after `k` iterations the generator is `wg`, the
builder holds `result` and the last character sampled is `nextChar`. -/
inductive GenReaches (maxLength : Int) (wg0 : WordGenerator) :
    Nat → WordGenerator → GoString → Rune → Prop where
  | start : GenReaches maxLength wg0 0 wg0 [94] 94
  | step {k : Nat} {wg : WordGenerator} {result : GoString} {nextChar : Rune}
      {sampler sampler' : Sampler Rune} {c : Rune} :
      GenReaches maxLength wg0 k wg result nextChar →
      (nextChar ≠ 36 ∧ (result.length : Int) < maxLength) →
      wg.charDist (wg.backoff (wg.candidate result)) = some sampler →
      sampler.Sample = .ok (some c, sampler') →
      GenReaches maxLength wg0 (k + 1)
        (wg.withSampler (wg.backoff (wg.candidate result)) sampler')
        (result ++ utf8AppendRune c) c

/-- `(*Sampler).bsearch` with a log: next to the result, the indices at which
`cumFreq` is read, in the order of the reads. -/
def bsearchTrace (cumFreq : List Int) : Nat → Nat → Nat → Int → Except Fault Nat × List Nat
  | 0, _, _, _ => (.error .outOfFuel, [])
  | fuel + 1, l, r, target =>
    if l = r then (.ok l, [])
    else
      let m := l + (r - l) / 2
      match cumFreq[m]? with
      | none => (.error .indexOutOfRange, [m])
      | some c =>
        if c > target then
          ((bsearchTrace cumFreq fuel l m target).1, m :: (bsearchTrace cumFreq fuel l m target).2)
        else
          ((bsearchTrace cumFreq fuel (m + 1) r target).1,
            m :: (bsearchTrace cumFreq fuel (m + 1) r target).2)

/-- The context-to-sampler mapping of a generator without the random sources:
for each registered context the items in order and `cumFreq`. -/
def WordGenerator.table (wg : WordGenerator) (ctx : GoString) : Option (List Rune × List Int) :=
  (wg.charDist ctx).map (fun s => (s.items, s.cumFreq))

/-- An ASCII letter. -/
def isLetter (b : Byte) : Bool :=
  decide ((65 ≤ b.val ∧ b.val ≤ 90) ∨ (97 ≤ b.val ∧ b.val ≤ 122))

/-- An ASCII letter or one of the markers `^` and `$`. -/
def isLetterOrMarker (b : Byte) : Bool :=
  isLetter b || decide (b.val = 94) || decide (b.val = 36)

/-- The normalized vocabulary: `"^" + strings.ToLower(word) + "$"` for each word. -/
def normalized (toLower : GoString → GoString) (words : List GoString) : List GoString :=
  words.map (processWord toLower)

/-- The string `s` occurs in some word of the normalized vocabulary. -/
def Observed (toLower : GoString → GoString) (words : List GoString) (s : GoString) : Prop :=
  ∃ word, word ∈ normalized toLower words ∧ s <:+: word

/-- The result after the draws of a trace: the start followed by the UTF-8
text of the characters drawn. -/
def traceResult (start : GoString) (steps : List (GoString × Rune)) : GoString :=
  start ++ encodeRunes (steps.map Prod.snd)

/-- A trace of `Generate` from the result `start`: each entry `(ctx, c)` is a
step that drew `c` for the context `ctx`; `ctx` is a non-empty suffix of the
result before the step, and `P ctx c` holds. -/
def TraceOK (P : GoString → Rune → Prop) : GoString → List (GoString × Rune) → Prop
  | _, [] => True
  | start, (ctx, c) :: rest =>
    ctx ≠ [] ∧ ctx <:+ start ∧ P ctx c ∧ TraceOK P (start ++ utf8AppendRune c) rest

/-- Two random sources that produce the same draws from their cursors on. -/
def Rand.Same (g g' : Rand) : Prop :=
  ∀ k, g.draws (g.pos + k) = g'.draws (g'.pos + k)

/-- Two samplers with the same map, items and `cumFreq`, and random sources
that produce the same draws. -/
def Sampler.Same {T : Type} (s s' : Sampler T) : Prop :=
  s.itemToIdxMap = s'.itemToIdxMap ∧ s.items = s'.items ∧ s.cumFreq = s'.cumFreq ∧
    s.random.Same s'.random

/-- Two generators with the same model and the same draws to come. -/
def WordGenerator.Same (wg wg' : WordGenerator) : Prop :=
  wg.contextLength = wg'.contextLength ∧
    ∀ ctx, match wg.charDist ctx, wg'.charDist ctx with
      | none, none => True
      | some s, some s' => s.Same s'
      | _, _ => False

/-- Two runs that end alike: the same panic, or results related by `R`. -/
def SameOutcome {α : Type} (R : α → α → Prop) : Except Fault α → Except Fault α → Prop
  | .error e, .error e' => e = e'
  | .ok a, .ok b => R a b
  | _, _ => False

/-- A rune in the range of Go's `rune` type (`int32`). -/
def isInt32 (r : Rune) : Prop :=
  -2147483648 ≤ r ∧ r < 2147483648

/-- A hand-made model with one registered context: `^`, followed by `x` with
weight 1. -/
def caretModel : WordGenerator :=
  { charDist := fun ctx =>
      if ctx = [94] then
        some { itemToIdxMap := fun c => if c = 120 then some 0 else none
               items := [120]
               cumFreq := [1]
               random := zeroRand }
      else none
    contextLength := 3 }

/-- A value in the range of Go's 64-bit `int`. -/
def isInt64 (x : Int) : Prop :=
  -9223372036854775808 ≤ x ∧ x ≤ 9223372036854775807

/-- Sum of the absolute values of the weights passed by a sequence of `Add`
calls. -/
def absSum {T : Type} (calls : List (T × Int)) : Int :=
  ((calls.map (fun c => (c.2.natAbs : Int)))).sum

/-- The sampler whose `cumFreq` entries are those of `s` taken as 64-bit values. -/
def Sampler.wrapped {T : Type} (s : Sampler T) : Sampler T :=
  { s with cumFreq := s.cumFreq.map wrapInt }

/-! ## Lemmas on the sampler -/

theorem addLoop_ok (freq : Int) : ∀ (n i : Nat) (cum : List Int), i + n ≤ cum.length →
    ∃ cum', addLoop freq n i cum = .ok cum' ∧ cum'.length = cum.length ∧
      ∀ j, cum'[j]? = (cum[j]?).map (fun v => if i ≤ j ∧ j < i + n then v + freq else v) := by
  intro n
  induction n with
  | zero =>
    intro i cum _
    refine ⟨cum, rfl, rfl, ?_⟩
    intro j
    have : ¬ (i ≤ j ∧ j < i) := by omega
    cases cum[j]? <;> simp [this]
  | succ n ih =>
    intro i cum h
    have hi : i < cum.length := by omega
    obtain ⟨cum', h1, h2, h3⟩ := ih (i + 1) (cum.set i (cum[i] + freq)) (by simp; omega)
    refine ⟨cum', ?_, ?_, ?_⟩
    · simp [addLoop, List.getElem?_eq_getElem hi, h1]
    · simpa using h2
    · intro j
      rw [h3 j, List.getElem?_set]
      by_cases hij : i = j
      · subst hij
        simp [hi]
      · simp only [hij, if_false]
        cases hj : cum[j]? with
        | none => simp
        | some v =>
          simp only [Option.map_some']
          by_cases hc : i + 1 ≤ j ∧ j < i + 1 + n
          · have hc' : i ≤ j ∧ j < i + (n + 1) := by omega
            simp [hc, hc']
          · have hc' : ¬ (i ≤ j ∧ j < i + (n + 1)) := by omega
            simp [hc, hc']

theorem cum_eq_of_getElem? {T : Type} (s : Sampler T) (i : Nat) (c : Int) (h : s.cumFreq[i]? = some c) :
    s.cum i = c := by
  simp [Sampler.cum, List.getD_eq_getElem?_getD, h]

theorem getElem?_cum {T : Type} (s : Sampler T) (i : Nat) (h : i < s.cumFreq.length) :
    s.cumFreq[i]? = some (s.cum i) := by
  simp [Sampler.cum, List.getD_eq_getElem?_getD, List.getElem?_eq_getElem h]

theorem Add_new {T : Type} [DecidableEq T] (s : Sampler T) (x : T) (w : Int) (hx : s.itemToIdxMap x = none)
    (hcap : s.items.length < s.cumFreq.length) :
    s.Add x w = .ok
      { itemToIdxMap := Function.update s.itemToIdxMap x (some s.items.length)
        items := s.items ++ [x]
        cumFreq := s.cumFreq.set s.items.length (s.cumBefore s.items.length + w)
        random := s.random } := by
  unfold Sampler.Add
  simp only [hx]
  by_cases h0 : s.items.length = 0
  · have hc : 0 < s.cumFreq.length := by omega
    have e : (0 : Nat) > 0 ↔ False := by simp
    simp only [h0, Sampler.cumBefore, e, if_false, if_true, hc]
  · have h1 : s.items.length - 1 < s.cumFreq.length := by omega
    have hpos : s.items.length > 0 := by omega
    simp [hpos, Sampler.cumBefore, h0, hcap, getElem?_cum s _ h1]

theorem Add_new_full {T : Type} [DecidableEq T] (s : Sampler T) (x : T) (w : Int)
    (hx : s.itemToIdxMap x = none) (hcap : s.cumFreq.length ≤ s.items.length) :
    s.Add x w = .error .indexOutOfRange := by
  unfold Sampler.Add
  simp only [hx]
  have : ¬ s.items.length < s.cumFreq.length := by omega
  split <;> simp [this]

theorem Add_existing {T : Type} [DecidableEq T] (s : Sampler T) (x : T) (w : Int) (k : Nat)
    (hx : s.itemToIdxMap x = some k) (hk : k ≤ s.items.length) (hlen : s.items.length ≤ s.cumFreq.length) :
    ∃ cum', s.Add x w = .ok { s with cumFreq := cum' } ∧ cum'.length = s.cumFreq.length ∧
      ∀ j, cum'[j]? = (s.cumFreq[j]?).map
        (fun v => if k ≤ j ∧ j < s.items.length then v + w else v) := by
  obtain ⟨cum', h1, h2, h3⟩ := addLoop_ok w (s.items.length - k) k s.cumFreq (by omega)
  refine ⟨cum', ?_, h2, ?_⟩
  · unfold Sampler.Add
    simp [hx, h1]
  · intro j
    rw [h3 j]
    have : k + (s.items.length - k) = s.items.length := by omega
    rw [this]


theorem sum_map_bump {T : Type} [DecidableEq T] (W : T → Int) (x : T) (w : Int) :
    ∀ l : List T, l.Nodup →
      (l.map (fun y => if y = x then W y + w else W y)).sum =
        (l.map W).sum + (if x ∈ l then w else 0) := by
  intro l
  induction l with
  | nil => intro _; simp
  | cons a l ih =>
    intro hnd
    have hnd' := List.nodup_cons.mp hnd
    simp only [List.map_cons, List.sum_cons, ih hnd'.2]
    by_cases hax : a = x
    · subst hax
      have : a ∉ l := hnd'.1
      simp [this]
      ring
    · have hxa : ¬ x = a := fun h => hax h.symm
      simp [hax, hxa]
      ring

theorem mem_take_iff_of_nodup {T : Type} (l : List T) (hnd : l.Nodup) (k : Nat) (x : T)
    (hk : l[k]? = some x) (n : Nat) : x ∈ l.take n ↔ k < n := by
  have hklt : k < l.length := by
    by_contra h
    have : l[k]? = none := by simp; omega
    rw [this] at hk; cases hk
  have hkx : l[k] = x := by
    rw [List.getElem?_eq_getElem hklt] at hk
    exact Option.some.inj hk
  constructor
  · intro h
    obtain ⟨j, hj, hjx⟩ := List.getElem_of_mem h
    have hj' : j < n ∧ j < l.length := by simpa using hj
    rw [List.getElem_take] at hjx
    have : j = k := by
      apply (List.Nodup.getElem_inj_iff hnd).mp
      rw [hjx, hkx]
    omega
  · intro h
    have : (l.take n)[k]? = some x := by
      rw [List.getElem?_take_of_lt h]; exact hk
    exact List.getElem?_mem this


theorem WF_not_mem_of_none {T : Type} (s : Sampler T) (hwf : s.WF) (x : T)
    (hx : s.itemToIdxMap x = none) : x ∉ s.items := by
  intro hmem
  obtain ⟨i, hi⟩ := List.getElem?_of_mem hmem
  have := (hwf.map_iff x i).mpr hi
  rw [hx] at this; cases this

theorem WF_lt_of_some {T : Type} (s : Sampler T) (hwf : s.WF) (x : T) (k : Nat)
    (hx : s.itemToIdxMap x = some k) : k < s.items.length ∧ s.items[k]? = some x := by
  have h := (hwf.map_iff x k).mp hx
  refine ⟨?_, h⟩
  by_contra hk
  have : s.items[k]? = none := by simp; omega
  rw [this] at h; cases h

/-- The two ways an `Add` on a consistent sampler can return. -/
theorem Add_cases {T : Type} [DecidableEq T] (s s' : Sampler T) (x : T) (w : Int) (hwf : s.WF)
    (h : s.Add x w = .ok s') :
    (s.itemToIdxMap x = none ∧ x ∉ s.items ∧ s.items.length < s.cumFreq.length ∧
      s' = { itemToIdxMap := Function.update s.itemToIdxMap x (some s.items.length)
             items := s.items ++ [x]
             cumFreq := s.cumFreq.set s.items.length (s.cumBefore s.items.length + w)
             random := s.random }) ∨
    (∃ k, s.itemToIdxMap x = some k ∧ k < s.items.length ∧ s.items[k]? = some x ∧
      s'.items = s.items ∧ s'.itemToIdxMap = s.itemToIdxMap ∧ s'.random = s.random ∧
      s'.cumFreq.length = s.cumFreq.length ∧
      ∀ j, s'.cumFreq[j]? = (s.cumFreq[j]?).map
        (fun v => if k ≤ j ∧ j < s.items.length then v + w else v)) := by
  cases hx : s.itemToIdxMap x with
  | none =>
    left
    refine ⟨rfl, WF_not_mem_of_none s hwf x hx, ?_⟩
    by_cases hcap : s.items.length < s.cumFreq.length
    · refine ⟨hcap, ?_⟩
      rw [Add_new s x w hx hcap] at h
      exact (Except.ok.inj h).symm
    · rw [Add_new_full s x w hx (by omega)] at h
      cases h
  | some k =>
    right
    obtain ⟨hk, hkx⟩ := WF_lt_of_some s hwf x k hx
    obtain ⟨cum', h1, h2, h3⟩ := Add_existing s x w k hx (by omega) hwf.len_le
    rw [h1] at h
    have hs' : s' = { s with cumFreq := cum' } := (Except.ok.inj h).symm
    subst hs'
    exact ⟨k, rfl, hk, hkx, rfl, rfl, rfl, h2, h3⟩

theorem Add_wf {T : Type} [DecidableEq T] (s s' : Sampler T) (x : T) (w : Int) (hwf : s.WF)
    (h : s.Add x w = .ok s') : s'.WF := by
  rcases Add_cases s s' x w hwf h with ⟨hx, hnm, hcap, rfl⟩ | ⟨k, hx, hk, hkx, hi, hm, _, hl, _⟩
  · refine ⟨?_, ?_, ?_⟩
    · simp; omega
    · simp only
      rw [List.nodup_append]
      refine ⟨hwf.nodup, by simp, ?_⟩
      intro a ha hb
      simp at hb
      subst hb; exact hnm ha
    · intro y i
      simp only
      by_cases hyx : y = x
      · subst hyx
        simp only [Function.update_same]
        constructor
        · intro hi
          have : i = s.items.length := (Option.some.inj hi).symm
          subst this
          simp
        · intro hi
          by_cases hlt : i < s.items.length
          · rw [List.getElem?_append_left hlt] at hi
            exact absurd (List.getElem?_mem hi) hnm
          · by_cases heq : i = s.items.length
            · rw [heq]
            · have : (s.items ++ [y])[i]? = none := by simp; omega
              rw [this] at hi; cases hi
      · rw [Function.update_noteq hyx, hwf.map_iff y i]
        by_cases hlt : i < s.items.length
        · rw [List.getElem?_append_left hlt]
        · have h1 : s.items[i]? = none := by simp; omega
          rw [h1]
          by_cases heq : i = s.items.length
          · subst heq
            simp
            exact fun h => hyx h.symm
          · have : (s.items ++ [x])[i]? = none := by simp; omega
            rw [this]
  · refine ⟨?_, ?_, ?_⟩
    · rw [hi, hl]; exact hwf.len_le
    · rw [hi]; exact hwf.nodup
    · intro y i
      rw [hm, hi]; exact hwf.map_iff y i

theorem cum_set_self {T : Type} (s : Sampler T) (i : Nat) (v : Int) (cum : List Int)
    (h : cum = s.cumFreq.set i v) (hi : i < s.cumFreq.length) (m : T → Option Nat) (it : List T)
    (g : Rand) : (Sampler.mk m it cum g).cum i = v := by
  subst h
  simp [Sampler.cum, List.getD_eq_getElem?_getD, List.getElem?_set, hi]

theorem cum_of_map {T : Type} (s s' : Sampler T) (j : Nat) (hj : j < s.cumFreq.length)
    (f : Int → Int) (h : s'.cumFreq[j]? = (s.cumFreq[j]?).map f) : s'.cum j = f (s.cum j) := by
  rw [getElem?_cum s j hj] at h
  exact cum_eq_of_getElem? s' j _ h

theorem Add_tracks {T : Type} [DecidableEq T] (s s' : Sampler T) (W : T → Int) (x : T) (w : Int)
    (ht : s.Tracks W) (h : s.Add x w = .ok s') :
    s'.Tracks (fun y => if y = x then W y + w else W y) := by
  have hwf' := Add_wf s s' x w ht.wf h
  refine ⟨hwf', ?_, ?_⟩
  · intro y hy
    rcases Add_cases s s' x w ht.wf h with ⟨_, _, _, rfl⟩ | ⟨k, _, _, hkx, hi, _, _, _, _⟩
    · have hyx : y ≠ x := by
        intro e; apply hy; simp [e]
      have hys : y ∉ s.items := by
        intro e; apply hy; simp [e]
      simp [hyx, ht.zero_of_not_mem y hys]
    · rw [hi] at hy
      have hyx : y ≠ x := by
        intro e; apply hy; rw [e]; exact List.getElem?_mem hkx
      simp [hyx, ht.zero_of_not_mem y hy]
  · intro i hi
    rcases Add_cases s s' x w ht.wf h with ⟨_, hnm, hcap, rfl⟩ | ⟨k, _, hk, hkx, hit, _, _, hl, hc⟩
    · simp only [List.length_append, List.length_singleton] at hi
      by_cases hlt : i < s.items.length
      · have h1 : (Sampler.mk (Function.update s.itemToIdxMap x (some s.items.length))
            (s.items ++ [x]) (s.cumFreq.set s.items.length (s.cumBefore s.items.length + w))
            s.random).cum i = s.cum i := by
          simp only [Sampler.cum, List.getD_eq_getElem?_getD, List.getElem?_set]
          have : ¬ s.items.length = i := by omega
          simp [this]
        rw [h1, ht.prefixSum i hlt]
        simp only
        rw [List.take_append_of_le_length (by omega)]
        congr 1
        apply List.map_congr_left
        intro a ha
        have hax : a ≠ x := by
          intro e; apply hnm; rw [← e]; exact List.mem_of_mem_take ha
        simp [hax]
      · have hieq : i = s.items.length := by omega
        subst hieq
        rw [cum_set_self s _ _ _ rfl hcap]
        simp only
        rw [List.take_of_length_le (by simp)]
        simp only [List.map_append, List.sum_append, List.map_cons, List.map_nil, List.sum_cons,
          List.sum_nil, if_true, add_zero, ht.zero_of_not_mem x hnm, zero_add]
        congr 1
        have hmap : s.items.map (fun y => if y = x then W y + w else W y) = s.items.map W := by
          apply List.map_congr_left
          intro a ha
          have hax : a ≠ x := by
            intro e; apply hnm; rw [← e]; exact ha
          simp [hax]
        rw [hmap]
        unfold Sampler.cumBefore
        by_cases h0 : s.items.length = 0
        · have : s.items = [] := List.length_eq_zero.mp h0
          simp [h0, this]
        · simp only [h0, if_false]
          rw [ht.prefixSum _ (by omega)]
          have : s.items.length - 1 + 1 = s.items.length := by omega
          rw [this, List.take_length]
    · rw [hit] at hi ⊢
      have hj : i < s.cumFreq.length := lt_of_lt_of_le hi ht.wf.len_le
      rw [cum_of_map s s' i hj _ (hc i), ht.prefixSum i hi,
        sum_map_bump W x w _ (List.Nodup.sublist (List.take_sublist _ _) ht.wf.nodup)]
      have hmem := mem_take_iff_of_nodup s.items ht.wf.nodup k x hkx (i + 1)
      by_cases hki : k ≤ i
      · have : x ∈ s.items.take (i + 1) := hmem.mpr (by omega)
        simp [hki, hi, this]
      · have : x ∉ s.items.take (i + 1) := fun e => hki (by have := hmem.mp e; omega)
        simp [hki, this]

theorem weightAdded_nil {T : Type} [DecidableEq T] (y : T) :
    weightAdded ([] : List (T × Int)) y = 0 := by
  simp [weightAdded]

theorem weightAdded_cons {T : Type} [DecidableEq T] (c : T × Int) (rest : List (T × Int)) (y : T) :
    weightAdded (c :: rest) y = (if c.1 = y then c.2 else 0) + weightAdded rest y := by
  unfold weightAdded
  by_cases h : c.1 = y
  · simp [List.filter_cons, h]
  · simp [List.filter_cons, h]

theorem NewSampler_tracks {T : Type} (cap : Nat) (g : Rand) :
    (NewSampler cap g : Sampler T).Tracks (fun _ => 0) := by
  refine ⟨⟨?_, ?_, ?_⟩, ?_, ?_⟩
  · simp [NewSampler]
  · simp [NewSampler]
  · intro x i; simp [NewSampler]
  · intro x _; rfl
  · intro i hi; simp [NewSampler] at hi

theorem Add_frame {T : Type} [DecidableEq T] (s s' : Sampler T) (x : T) (w : Int) (hwf : s.WF)
    (h : s.Add x w = .ok s') :
    s'.cumFreq.length = s.cumFreq.length ∧ s'.random = s.random ∧
      (∀ y, y ∈ s'.items ↔ y ∈ s.items ∨ y = x) ∧
      s'.items = (if x ∈ s.items then s.items else s.items ++ [x]) := by
  rcases Add_cases s s' x w hwf h with ⟨_, hnm, _, rfl⟩ | ⟨k, _, _, hkx, hi, _, hr, hl, _⟩
  · refine ⟨by simp, rfl, ?_, by simp [hnm]⟩
    intro y; simp
  · have hx : x ∈ s.items := List.getElem?_mem hkx
    refine ⟨hl, hr, ?_, by simp [hx, hi]⟩
    intro y
    rw [hi]
    constructor
    · intro h; exact Or.inl h
    · rintro (h | h)
      · exact h
      · rw [h]; exact hx

theorem Add_total {T : Type} [DecidableEq T] (s s' : Sampler T) (W : T → Int) (x : T) (w : Int)
    (ht : s.Tracks W) (h : s.Add x w = .ok s') :
    (s'.items.map (fun y => if y = x then W y + w else W y)).sum = (s.items.map W).sum + w := by
  have hf := (Add_frame s s' x w ht.wf h).2.2.2
  by_cases hx : x ∈ s.items
  · rw [hf, if_pos hx, sum_map_bump W x w _ ht.wf.nodup, if_pos hx]
  · rw [hf, if_neg hx, List.map_append, List.sum_append, sum_map_bump W x w _ ht.wf.nodup,
      if_neg hx]
    simp [ht.zero_of_not_mem x hx]

theorem addAll_tracks {T : Type} [DecidableEq T] :
    ∀ (calls : List (T × Int)) (s s' : Sampler T) (W : T → Int), s.Tracks W →
      addAll s calls = .ok s' →
      s'.Tracks (fun y => W y + weightAdded calls y) ∧
        s'.cumFreq.length = s.cumFreq.length ∧ s'.random = s.random ∧
        (∀ y, y ∈ s'.items ↔ y ∈ s.items ∨ y ∈ calls.map Prod.fst) ∧
        (s'.items.map (fun y => W y + weightAdded calls y)).sum =
          (s.items.map W).sum + (calls.map Prod.snd).sum := by
  intro calls
  induction calls with
  | nil =>
    intro s s' W ht h
    have : s' = s := (Except.ok.inj h).symm
    subst this
    have hfun : (fun y => W y + weightAdded ([] : List (T × Int)) y) = W := by
      funext y; rw [weightAdded_nil, add_zero]
    rw [hfun]
    exact ⟨ht, rfl, rfl, by simp, by simp⟩
  | cons c rest ih =>
    intro s s' W ht h
    unfold addAll at h
    simp only [forEachM] at h
    cases h1 : s.Add c.1 c.2 with
    | error e => rw [h1] at h; cases h
    | ok s1 =>
      rw [h1] at h
      have ht1 := Add_tracks s s1 W c.1 c.2 ht h1
      have hf1 := Add_frame s s1 c.1 c.2 ht.wf h1
      have hs1 := Add_total s s1 W c.1 c.2 ht h1
      obtain ⟨a1, a2, a3, a4, a5⟩ := ih s1 s' _ ht1 h
      have hfun : (fun y => (if y = c.1 then W y + c.2 else W y) + weightAdded rest y) =
          (fun y => W y + weightAdded (c :: rest) y) := by
        funext y
        rw [weightAdded_cons]
        by_cases hy : y = c.1
        · subst hy; simp; ring
        · have : ¬ c.1 = y := fun e => hy e.symm
          simp [hy, this]
      rw [hfun] at a1 a5
      refine ⟨a1, by rw [a2, hf1.1], by rw [a3, hf1.2.1], ?_, ?_⟩
      · intro y
        rw [a4 y, hf1.2.2.1 y]
        simp only [List.map_cons, List.mem_cons]
        tauto
      · rw [a5, hs1]
        simp only [List.map_cons, List.sum_cons]
        ring

theorem Tracks_slice {T : Type} (s : Sampler T) (W : T → Int) (ht : s.Tracks W) (i : Nat) (x : T)
    (hx : s.items[i]? = some x) : s.cum i - s.cumBefore i = W x := by
  have hi : i < s.items.length := by
    by_contra h
    have : s.items[i]? = none := by simp; omega
    rw [this] at hx; cases hx
  rw [ht.prefixSum i hi, List.take_succ, hx]
  unfold Sampler.cumBefore
  by_cases h0 : i = 0
  · subst h0; simp
  · simp only [h0, if_false]
    rw [ht.prefixSum (i - 1) (by omega)]
    have : i - 1 + 1 = i := by omega
    rw [this]
    simp

theorem bsearchFuel_ok (cum : List Int) (target : Int) :
    ∀ (fuel l r : Nat), l ≤ r → r ≤ cum.length → r - l < fuel →
      ∃ idx, bsearchFuel cum fuel l r target = .ok idx ∧ l ≤ idx ∧ idx ≤ r ∧
        (idx < r → target < cum.getD idx 0) ∧ (l < idx → cum.getD (idx - 1) 0 ≤ target) := by
  intro fuel
  induction fuel with
  | zero => intro l r _ _ h; omega
  | succ fuel ih =>
    intro l r hlr hr hf
    unfold bsearchFuel
    by_cases heq : l = r
    · subst heq
      exact ⟨l, by simp, le_refl _, le_refl _, fun h => absurd h (lt_irrefl _),
        fun h => absurd h (lt_irrefl _)⟩
    · simp only [heq, if_false]
      have hm1 : l ≤ l + (r - l) / 2 := by omega
      have hm2 : l + (r - l) / 2 < r := by omega
      have hmlen : l + (r - l) / 2 < cum.length := by omega
      have hget : cum.getD (l + (r - l) / 2) 0 = cum[l + (r - l) / 2] := by
        simp [List.getD_eq_getElem?_getD, List.getElem?_eq_getElem hmlen]
      simp only [List.getElem?_eq_getElem hmlen]
      by_cases hc : cum[l + (r - l) / 2] > target
      · simp only [hc, if_true]
        obtain ⟨idx, h1, h2, h3, h4, h5⟩ := ih l (l + (r - l) / 2) hm1 (by omega) (by omega)
        refine ⟨idx, h1, h2, by omega, ?_, h5⟩
        intro _
        by_cases hlt : idx < l + (r - l) / 2
        · exact h4 hlt
        · have : idx = l + (r - l) / 2 := by omega
          rw [this, hget]; exact hc
      · simp only [hc, if_false]
        obtain ⟨idx, h1, h2, h3, h4, h5⟩ := ih (l + (r - l) / 2 + 1) r (by omega) hr (by omega)
        refine ⟨idx, h1, by omega, h3, h4, ?_⟩
        intro _
        by_cases hlt : l + (r - l) / 2 + 1 < idx
        · exact h5 hlt
        · have : idx - 1 = l + (r - l) / 2 := by omega
          rw [this, hget]; exact not_lt.mp hc

theorem bsearchFuel_fuel (cum : List Int) (target : Int) :
    ∀ (fuel fuel' l r : Nat), l ≤ r → r - l < fuel → r - l < fuel' →
      bsearchFuel cum fuel l r target = bsearchFuel cum fuel' l r target := by
  intro fuel
  induction fuel with
  | zero => intro fuel' l r _ h; omega
  | succ fuel ih =>
    intro fuel' l r hlr hf hf'
    cases fuel' with
    | zero => omega
    | succ fuel' =>
      unfold bsearchFuel
      by_cases heq : l = r
      · simp [heq]
      · simp only [heq, if_false]
        cases cum[l + (r - l) / 2]? with
        | none => rfl
        | some c =>
          simp only
          by_cases hc : c > target
          · simp only [hc, if_true]
            exact ih fuel' l _ (by omega) (by omega) (by omega)
          · simp only [hc, if_false]
            exact ih fuel' _ r (by omega) (by omega) (by omega)

/-- Non-decreasing cumulative frequencies over the first `n` slots. -/
theorem bsearch_smallest {T : Type} (s : Sampler T) (n : Nat) (target : Int) (hn : 0 < n)
    (hlen : n ≤ s.cumFreq.length) (hmono : ∀ i j, i ≤ j → j < n → s.cum i ≤ s.cum j)
    (htop : target < s.cum (n - 1)) :
    ∃ idx, s.bsearch 0 (n - 1) target = .ok idx ∧ idx < n ∧ target < s.cum idx ∧
      ∀ j, j < idx → s.cum j ≤ target := by
  obtain ⟨idx, h1, _, h3, h4, h5⟩ :=
    bsearchFuel_ok s.cumFreq target (n - 1 - 0 + 1) 0 (n - 1) (Nat.zero_le _) (by omega) (by omega)
  refine ⟨idx, h1, by omega, ?_, ?_⟩
  · by_cases hlt : idx < n - 1
    · exact h4 hlt
    · have : idx = n - 1 := by omega
      rw [this]; exact htop
  · intro j hj
    have hpos : 0 < idx := by omega
    exact le_trans (hmono j (idx - 1) (by omega) (by omega)) (h5 hpos)

theorem Sample_ok {T : Type} (s : Sampler T) (idx : Nat) (hn : 0 < s.items.length)
    (hlen : s.items.length ≤ s.cumFreq.length) (htot : 0 < s.cum (s.items.length - 1))
    (hb : s.bsearch 0 (s.items.length - 1)
      ((s.random.draws s.random.pos : Int) % s.cum (s.items.length - 1)) = .ok idx)
    (hidx : idx < s.items.length) :
    s.Sample = .ok (some s.items[idx],
      { s with random := { draws := s.random.draws, pos := s.random.pos + 1 } }) := by
  unfold Sampler.Sample
  have h0 : ¬ s.items.length = 0 := by omega
  have hnot : ¬ s.cum (s.items.length - 1) ≤ 0 := by omega
  simp only [h0, if_false, getElem?_cum s (s.items.length - 1) (by omega), Rand.Intn, hnot, hb,
    List.getElem?_eq_getElem hidx]

theorem cumBefore_succ {T : Type} (s : Sampler T) (i : Nat) : s.cumBefore (i + 1) = s.cum i := by
  simp [Sampler.cumBefore]

theorem cumBefore_le {T : Type} (s : Sampler T) (target : Int) (h0 : 0 ≤ target)
    (idx : Nat) (hbelow : ∀ j, j < idx → s.cum j ≤ target) :
    s.cumBefore idx ≤ target := by
  cases idx with
  | zero => simpa [Sampler.cumBefore] using h0
  | succ i => rw [cumBefore_succ]; exact hbelow i (Nat.lt_succ_self i)

theorem owner_unique {T : Type} (s : Sampler T) (n : Nat)
    (hmono : ∀ i j, i ≤ j → j < n → s.cum i ≤ s.cum j) (target : Int) (h0 : 0 ≤ target)
    (idx : Nat) (hidx : idx < n) (habove : target < s.cum idx)
    (hbelow : ∀ j, j < idx → s.cum j ≤ target) (k : Nat) (hk : k < n) :
    (s.cumBefore k ≤ target ∧ target < s.cum k) ↔ k = idx := by
  constructor
  · rintro ⟨h1, h2⟩
    by_contra hne
    rcases Nat.lt_or_gt_of_ne hne with hlt | hgt
    · have := hbelow k hlt
      omega
    · cases k with
      | zero => omega
      | succ k' =>
        rw [cumBefore_succ] at h1
        have := hmono idx k' (by omega) (by omega)
        omega
  · intro h
    subst h
    exact ⟨cumBefore_le s target h0 k hbelow, habove⟩

theorem Tracks_cum_mono {T : Type} (s : Sampler T) (W : T → Int) (ht : s.Tracks W)
    (hpos : ∀ x, x ∈ s.items → 0 < W x) :
    (∀ i, i < s.items.length → s.cumBefore i < s.cum i) ∧
    (∀ i, i < s.items.length → 0 < s.cum i) ∧
    (∀ i j, i ≤ j → j < s.items.length → s.cum i ≤ s.cum j) ∧
    (∀ i j, i < j → j < s.items.length → s.cum i < s.cum j) := by
  have hstep : ∀ i, i < s.items.length → s.cumBefore i < s.cum i := by
    intro i hi
    have h1 := Tracks_slice s W ht i s.items[i] (List.getElem?_eq_getElem hi)
    have h2 := hpos s.items[i] (List.getElem_mem hi)
    omega
  have hmono : ∀ j, j < s.items.length → ∀ i, i ≤ j → s.cum i ≤ s.cum j := by
    intro j
    induction j with
    | zero => intro _ i hi; have : i = 0 := by omega
              rw [this]
    | succ j ih =>
      intro hj i hi
      by_cases hij : i = j + 1
      · rw [hij]
      · have h1 := ih (by omega) i (by omega)
        have h2 := hstep (j + 1) hj
        rw [cumBefore_succ] at h2
        omega
  refine ⟨hstep, ?_, fun i j hij hj => hmono j hj i hij, ?_⟩
  · intro i hi
    have h1 := hmono i hi 0 (Nat.zero_le _)
    have h2 := hstep 0 (by omega)
    simp only [Sampler.cumBefore, if_true] at h2
    omega
  · intro i j hij hj
    cases j with
    | zero => omega
    | succ j' =>
      have h1 := hmono j' (by omega) i (by omega)
      have h2 := hstep (j' + 1) hj
      rw [cumBefore_succ] at h2
      omega

theorem weightAdded_pos {T : Type} [DecidableEq T] (calls : List (T × Int))
    (hpos : ∀ c, c ∈ calls → 0 < c.2) (x : T) (hx : x ∈ calls.map Prod.fst) :
    0 < weightAdded calls x := by
  induction calls with
  | nil => simp at hx
  | cons c rest ih =>
    rw [weightAdded_cons]
    have hc : 0 < c.2 := hpos c (List.mem_cons_self _ _)
    have hrest : ∀ c', c' ∈ rest → 0 < c'.2 := fun c' h => hpos c' (List.mem_cons_of_mem _ h)
    have hnn : 0 ≤ weightAdded rest x := by
      by_cases hm : x ∈ rest.map Prod.fst
      · exact le_of_lt (ih hrest hm)
      · have : rest.filter (fun c => decide (c.1 = x)) = [] := by
          rw [List.filter_eq_nil_iff]
          intro a ha hax
          apply hm
          simp only [decide_eq_true_eq] at hax
          rw [← hax]
          exact List.mem_map_of_mem _ ha
        simp [weightAdded, this]
    by_cases hcx : c.1 = x
    · simp only [hcx, if_true]; omega
    · simp only [hcx, if_false, zero_add]
      apply ih hrest
      simp only [List.map_cons, List.mem_cons] at hx
      rcases hx with h | h
      · exact absurd h.symm hcx
      · exact h

theorem Add_padding {T : Type} [DecidableEq T] (s s' : Sampler T) (x : T) (w : Int) (hwf : s.WF)
    (hpad : ∀ i, s.items.length ≤ i → s.cum i = 0) (h : s.Add x w = .ok s') :
    ∀ i, s'.items.length ≤ i → s'.cum i = 0 := by
  intro i hi
  rcases Add_cases s s' x w hwf h with ⟨_, _, hcap, rfl⟩ | ⟨k, _, hk, _, hit, _, _, hl, hc⟩
  · simp only [List.length_append, List.length_singleton] at hi
    have hne : ¬ s.items.length = i := by omega
    have := hpad i (by omega)
    simp only [Sampler.cum, List.getD_eq_getElem?_getD, List.getElem?_set, hne, if_false] at this ⊢
    exact this
  · rw [hit] at hi
    have h0 := hpad i hi
    have hc' := hc i
    have hcond : ¬ (k ≤ i ∧ i < s.items.length) := by omega
    simp only [hcond, if_false] at hc'
    simp only [Sampler.cum, List.getD_eq_getElem?_getD] at h0 ⊢
    rw [hc']
    cases hci : s.cumFreq[i]? with
    | none => rfl
    | some v => rw [hci] at h0; simpa using h0

theorem addAll_padding {T : Type} [DecidableEq T] :
    ∀ (calls : List (T × Int)) (s s' : Sampler T), s.WF →
      (∀ i, s.items.length ≤ i → s.cum i = 0) → addAll s calls = .ok s' →
      ∀ i, s'.items.length ≤ i → s'.cum i = 0 := by
  intro calls
  induction calls with
  | nil =>
    intro s s' _ hpad h
    have : s' = s := (Except.ok.inj h).symm
    subst this
    exact hpad
  | cons c rest ih =>
    intro s s' hwf hpad h
    unfold addAll at h
    simp only [forEachM] at h
    cases h1 : s.Add c.1 c.2 with
    | error e => rw [h1] at h; cases h
    | ok s1 =>
      rw [h1] at h
      exact ih s1 s' (Add_wf s s1 c.1 c.2 hwf h1) (Add_padding s s1 c.1 c.2 hwf hpad h1) h

theorem reached_padding {T : Type} [DecidableEq T] (cap : Nat) (g : Rand)
    (calls : List (T × Int)) (s : Sampler T) (h : addAll (NewSampler cap g) calls = .ok s) :
    ∀ i, s.items.length ≤ i → s.cum i = 0 := by
  apply addAll_padding calls (NewSampler cap g) s (NewSampler_tracks cap g).wf _ h
  intro i _
  simp only [NewSampler, Sampler.cum, List.getD_eq_getElem?_getD]
  cases hci : (List.replicate cap (0 : Int))[i]? with
  | none => rfl
  | some v =>
    have := List.getElem?_mem hci
    rw [List.mem_replicate] at this
    simp [this.2]

/-- What a sampler reached from `NewSampler` by `Add` calls looks like. -/
theorem reached_tracks {T : Type} [DecidableEq T] (cap : Nat) (g : Rand)
    (calls : List (T × Int)) (s : Sampler T) (h : addAll (NewSampler cap g) calls = .ok s) :
    s.Tracks (weightAdded calls) ∧ s.cumFreq.length = cap ∧ s.random = g ∧
      (∀ y, y ∈ s.items ↔ y ∈ calls.map Prod.fst) ∧
      (s.items.map (weightAdded calls)).sum = (calls.map Prod.snd).sum := by
  obtain ⟨a1, a2, a3, a4, a5⟩ :=
    addAll_tracks calls (NewSampler cap g) s (fun _ => 0) (NewSampler_tracks cap g) h
  have hfun : (fun y => (0 : Int) + weightAdded calls y) = weightAdded calls := by
    funext y; rw [zero_add]
  rw [hfun] at a1 a5
  refine ⟨a1, ?_, ?_, ?_, ?_⟩
  · rw [a2]; simp [NewSampler]
  · rw [a3]; rfl
  · intro y; rw [a4 y]; simp [NewSampler]
  · rw [a5]; simp [NewSampler]

/-- Outcome of `Sample` on a sampler with non-decreasing positive cumulative
frequencies: the item owning the slice that contains the draw. -/
theorem Sample_owner {T : Type} (s : Sampler T) (hn : 0 < s.items.length)
    (hlen : s.items.length ≤ s.cumFreq.length)
    (hmono : ∀ i j, i ≤ j → j < s.items.length → s.cum i ≤ s.cum j)
    (htot : 0 < s.cum (s.items.length - 1)) (g : Rand) :
    ∃ idx, s.bsearch 0 (s.items.length - 1)
          ((g.draws g.pos : Int) % s.cum (s.items.length - 1)) = .ok idx ∧
      idx < s.items.length ∧
      (g.draws g.pos : Int) % s.cum (s.items.length - 1) < s.cum idx ∧
      (∀ j, j < idx → s.cum j ≤ (g.draws g.pos : Int) % s.cum (s.items.length - 1)) ∧
      ({ s with random := g } : Sampler T).Sample =
        .ok (s.items[idx]?, { s with random := { draws := g.draws, pos := g.pos + 1 } }) := by
  have hlt : (g.draws g.pos : Int) % s.cum (s.items.length - 1) < s.cum (s.items.length - 1) :=
    Int.emod_lt_of_pos _ htot
  obtain ⟨idx, h1, h2, h3, h4⟩ := bsearch_smallest s s.items.length _ hn hlen hmono hlt
  refine ⟨idx, h1, h2, h3, h4, ?_⟩
  have := Sample_ok ({ s with random := g } : Sampler T) idx hn hlen htot h1 h2
  rw [this, List.getElem?_eq_getElem h2]

theorem exists_ok_of_toBool {α : Type} (x : Except Fault α) (h : x.toBool = true) :
    ∃ a, x = .ok a := by
  cases x with
  | error e => simp [Except.toBool] at h
  | ok a => exact ⟨a, rfl⟩

/-- C2: on a non-empty sampler whose `cumFreq` is non-decreasing over its `n`
registered items, for every target in `[0, cumFreq[n-1])`, `bsearch(0, n-1, target)`
returns (with any fuel of at least `n`) the smallest index `idx` with
`cumFreq[idx] > target`; it is the only index with
`cumFreq[idx-1] <= target < cumFreq[idx]` (`cumFreq[-1]` read as 0); it is 0 when
`n = 1`; and `Sample` returns the item at that index whenever its draw is `target`. -/
theorem bsearch_finds_owner {T : Type} (s : Sampler T) (target : Int)
    (hn : 0 < s.items.length) (hlen : s.items.length ≤ s.cumFreq.length)
    (hmono : ∀ i j, i ≤ j → j < s.items.length → s.cum i ≤ s.cum j)
    (h0 : 0 ≤ target) (htop : target < s.cum (s.items.length - 1)) :
    ∃ idx, s.bsearch 0 (s.items.length - 1) target = .ok idx ∧
      (∀ fuel, s.items.length ≤ fuel →
        bsearchFuel s.cumFreq fuel 0 (s.items.length - 1) target = .ok idx) ∧
      idx < s.items.length ∧ target < s.cum idx ∧
      (∀ j, j < s.items.length → target < s.cum j → idx ≤ j) ∧
      (∀ k, k < s.items.length → ((s.cumBefore k ≤ target ∧ target < s.cum k) ↔ k = idx)) ∧
      (s.items.length = 1 → idx = 0) ∧
      (∀ g : Rand, (g.draws g.pos : Int) % s.cum (s.items.length - 1) = target →
        ({ s with random := g } : Sampler T).Sample =
          .ok (s.items[idx]?, { s with random := { draws := g.draws, pos := g.pos + 1 } })) := by
  obtain ⟨idx, h1, h2, h3, h4⟩ := bsearch_smallest s s.items.length target hn hlen hmono htop
  refine ⟨idx, h1, ?_, h2, h3, ?_, ?_, by omega, ?_⟩
  · intro fuel hfuel
    rw [← h1]
    exact bsearchFuel_fuel s.cumFreq target fuel _ 0 _ (Nat.zero_le _) (by omega) (by omega)
  · intro j _ hj
    by_contra hlt
    have := h4 j (by omega)
    omega
  · intro k hk
    exact owner_unique s s.items.length hmono target h0 idx h2 h3 h4 k hk
  · intro g hg
    have htot : 0 < s.cum (s.items.length - 1) := by omega
    obtain ⟨idx', b1, _, _, _, b5⟩ := Sample_owner s hn hlen hmono htot g
    rw [hg, h1] at b1
    have : idx = idx' := Except.ok.inj b1
    rw [this]; exact b5

/-- On `cumFreq = [2, 5, 9]` the target 5 belongs to index 2. -/
theorem bsearch_finds_owner_witness :
    ∃ idx, (Sampler.mk (fun _ => none) [10, 20, 30] [2, 5, 9, 0] zeroRand :
        Sampler Nat).bsearch 0 2 5 = .ok idx ∧ idx = 2 := by
  obtain ⟨idx, h1, _, _, _, _, h6, _⟩ :=
    bsearch_finds_owner (Sampler.mk (fun _ => none) [10, 20, 30] [2, 5, 9, 0] zeroRand :
      Sampler Nat) 5 (by decide) (by decide)
      (by
        intro i j hij hj
        have hj' : j < 3 := hj
        interval_cases j <;> interval_cases i <;> decide)
      (by decide) (by decide)
  exact ⟨idx, h1, ((h6 2 (by decide)).mp (by decide)).symm⟩

/-- C8: `Sample` on a sampler to which no item was ever added returns `nil`
(`none`), whatever the state of the random source, and returns the sampler
unchanged: no random draw is consumed. -/
theorem sample_empty_is_none {T : Type} (cap : Nat) (g : Rand) :
    (NewSampler cap g : Sampler T).Sample = .ok (none, NewSampler cap g) ∧
      ∀ s : Sampler T, s.items.length = 0 → s.Sample = .ok (none, s) := by
  constructor
  · rfl
  · intro s hs
    simp [Sampler.Sample, hs]

theorem sampleAt_owner {T : Type} (s : Sampler T) (hn : 0 < s.items.length)
    (hlen : s.items.length ≤ s.cumFreq.length)
    (hmono : ∀ i j, i ≤ j → j < s.items.length → s.cum i ≤ s.cum j)
    (r : Nat) (hr : (r : Int) < s.cum (s.items.length - 1)) :
    ∃ idx, idx < s.items.length ∧ (r : Int) < s.cum idx ∧ (∀ j, j < idx → s.cum j ≤ (r : Int)) ∧
      s.sampleAt r = s.items[idx]? := by
  have htot : 0 < s.cum (s.items.length - 1) := by omega
  obtain ⟨idx, _, h2, h3, h4, h5⟩ :=
    Sample_owner s hn hlen hmono htot { draws := fun _ => r, pos := 0 }
  have hmod : (r : Int) % s.cum (s.items.length - 1) = r :=
    Int.emod_eq_of_lt (by omega) hr
  simp only [hmod] at h3 h4
  refine ⟨idx, h2, h3, h4, ?_⟩
  unfold Sampler.sampleAt Sampler.withDraw
  rw [h5, List.getElem?_eq_getElem h2]

theorem Sample_eq_sampleAt {T : Type} (s : Sampler T) (hn : 0 < s.items.length)
    (hlen : s.items.length ≤ s.cumFreq.length)
    (hmono : ∀ i j, i ≤ j → j < s.items.length → s.cum i ≤ s.cum j)
    (htot : 0 < s.cum (s.items.length - 1)) (g : Rand) :
    ({ s with random := g } : Sampler T).Sample =
      .ok (s.sampleAt ((g.draws g.pos : Int) % s.cum (s.items.length - 1)).toNat,
        { s with random := { draws := g.draws, pos := g.pos + 1 } }) := by
  obtain ⟨idx, _, h2, h3, h4, h5⟩ := Sample_owner s hn hlen hmono htot g
  have hnn : 0 ≤ (g.draws g.pos : Int) % s.cum (s.items.length - 1) :=
    Int.emod_nonneg _ (by omega)
  have hlt : (g.draws g.pos : Int) % s.cum (s.items.length - 1) < s.cum (s.items.length - 1) :=
    Int.emod_lt_of_pos _ htot
  have hcast : ((((g.draws g.pos : Int) % s.cum (s.items.length - 1)).toNat : Nat) : Int) =
      (g.draws g.pos : Int) % s.cum (s.items.length - 1) := Int.toNat_of_nonneg hnn
  obtain ⟨idx', a1, a2, a3, a4⟩ := sampleAt_owner s hn hlen hmono
    ((g.draws g.pos : Int) % s.cum (s.items.length - 1)).toNat (by rw [hcast]; exact hlt)
  rw [hcast] at a2 a3
  have hk := (owner_unique s s.items.length hmono _ hnn idx h2 h3 h4 idx' a1).mp
    ⟨cumBefore_le s _ hnn idx' a3, a2⟩
  rw [h5, a4, hk]

/-! ### 64-bit arithmetic: `Add64` is `Add` followed by wrap-around -/

theorem wrapInt_of_isInt64 (x : Int) (h : isInt64 x) : wrapInt x = x := by
  unfold isInt64 at h
  unfold wrapInt
  omega

theorem wrapInt_add_wrapInt (a w : Int) : wrapInt (wrapInt a + w) = wrapInt (a + w) := by
  unfold wrapInt
  omega

theorem wrapInt_isInt64 (x : Int) : isInt64 (wrapInt x) := by
  unfold isInt64 wrapInt
  omega

theorem addLoop64_wrapped (freq : Int) : ∀ (n i : Nat) (cum : List Int),
    addLoop64 freq n i (cum.map wrapInt) = (addLoop freq n i cum).map (List.map wrapInt) := by
  intro n
  induction n with
  | zero => intro i cum; rfl
  | succ n ih =>
    intro i cum
    unfold addLoop64 addLoop
    rw [List.getElem?_map]
    cases hc : cum[i]? with
    | none => rfl
    | some c =>
      simp only [Option.map_some']
      rw [wrapInt_add_wrapInt, ← List.map_set]
      exact ih (i + 1) _

theorem Add64_wrapped {T : Type} [DecidableEq T] (s : Sampler T) (x : T) (w : Int) :
    s.wrapped.Add64 x w = (s.Add x w).map Sampler.wrapped := by
  unfold Sampler.Add64 Sampler.Add Sampler.wrapped
  simp only [List.length_map]
  cases hx : s.itemToIdxMap x with
  | none =>
    simp only
    by_cases h0 : s.items.length > 0
    · simp only [h0, if_true, List.getElem?_map]
      cases hp : s.cumFreq[s.items.length - 1]? with
      | none => rfl
      | some prev =>
        simp only [Option.map_some']
        by_cases hcap : s.items.length < s.cumFreq.length
        · simp only [hcap, if_true, Except.map, wrapInt_add_wrapInt, List.map_set]
        · simp only [hcap, if_false, Except.map]
    · simp only [h0, if_false]
      by_cases hcap : s.items.length < s.cumFreq.length
      · simp only [hcap, if_true, Except.map, List.map_set]
      · simp only [hcap, if_false, Except.map]
  | some idx =>
    simp only
    rw [addLoop64_wrapped]
    cases addLoop w (s.items.length - idx) idx s.cumFreq with
    | error e => rfl
    | ok cum => rfl

theorem addAll64_wrapped {T : Type} [DecidableEq T] : ∀ (calls : List (T × Int)) (s : Sampler T),
    addAll64 s.wrapped calls = (addAll s calls).map Sampler.wrapped := by
  intro calls
  induction calls with
  | nil => intro s; rfl
  | cons c rest ih =>
    intro s
    unfold addAll64 addAll
    simp only [forEachM]
    rw [Add64_wrapped]
    cases h : s.Add c.1 c.2 with
    | error e => rfl
    | ok s' =>
      simp only [Except.map]
      exact ih s'

theorem wrapped_eq_self {T : Type} (s : Sampler T) (h : ∀ v, v ∈ s.cumFreq → isInt64 v) :
    s.wrapped = s := by
  unfold Sampler.wrapped
  have : s.cumFreq.map wrapInt = s.cumFreq := by
    conv_rhs => rw [← List.map_id s.cumFreq]
    exact List.map_congr_left (fun v hv => wrapInt_of_isInt64 v (h v hv))
  rw [this]

theorem NewSampler_wrapped {T : Type} (cap : Nat) (g : Rand) :
    (NewSampler cap g : Sampler T).wrapped = NewSampler cap g := by
  apply wrapped_eq_self
  intro v hv
  simp only [NewSampler] at hv
  rw [List.mem_replicate] at hv
  rw [hv.2]
  unfold isInt64
  omega

/-- A run of `Add` calls on 64-bit integers is the run on the integers with
every `cumFreq` entry wrapped. -/
theorem reached64_wrapped {T : Type} [DecidableEq T] (cap : Nat) (g : Rand)
    (calls : List (T × Int)) :
    addAll64 (NewSampler cap g) calls =
      (addAll (NewSampler cap g) calls).map Sampler.wrapped := by
  rw [← addAll64_wrapped, NewSampler_wrapped]

theorem reached64_exists {T : Type} [DecidableEq T] (cap : Nat) (g : Rand)
    (calls : List (T × Int)) (s : Sampler T) (h : addAll64 (NewSampler cap g) calls = .ok s) :
    ∃ t, addAll (NewSampler cap g) calls = .ok t ∧ s = t.wrapped := by
  rw [reached64_wrapped] at h
  cases ht : addAll (NewSampler cap g) calls with
  | error e => rw [ht] at h; cases h
  | ok t =>
    rw [ht] at h
    exact ⟨t, rfl, (Except.ok.inj h).symm⟩

theorem Add_bound {T : Type} [DecidableEq T] (s s' : Sampler T) (x : T) (w : Int) (A : Int)
    (hwf : s.WF) (hA : ∀ v, v ∈ s.cumFreq → -A ≤ v ∧ v ≤ A) (h0 : 0 ≤ A)
    (h : s.Add x w = .ok s') :
    ∀ v, v ∈ s'.cumFreq → -(A + (w.natAbs : Int)) ≤ v ∧ v ≤ A + (w.natAbs : Int) := by
  intro v hv
  rcases Add_cases s s' x w hwf h with ⟨_, _, hcap, rfl⟩ | ⟨k, _, _, _, _, _, _, _, hc⟩
  · simp only at hv
    rcases List.mem_or_eq_of_mem_set hv with hv | hv
    · have := hA v hv
      omega
    · have hb : -A ≤ s.cumBefore s.items.length ∧ s.cumBefore s.items.length ≤ A := by
        unfold Sampler.cumBefore
        by_cases hz : s.items.length = 0
        · rw [if_pos hz]; omega
        · rw [if_neg hz]
          have hlt : s.items.length - 1 < s.cumFreq.length := by omega
          exact hA _ (List.getElem?_mem (getElem?_cum s _ hlt))
      omega
  · obtain ⟨j, hj⟩ := List.getElem?_of_mem hv
    rw [hc j] at hj
    cases hu : s.cumFreq[j]? with
    | none => rw [hu] at hj; cases hj
    | some u =>
      rw [hu] at hj
      simp only [Option.map_some', Option.some.injEq] at hj
      have := hA u (List.getElem?_mem hu)
      split at hj <;> omega

theorem absSum_cons {T : Type} (c : T × Int) (rest : List (T × Int)) :
    absSum (c :: rest) = (c.2.natAbs : Int) + absSum rest := by
  simp [absSum]

theorem absSum_nonneg {T : Type} (calls : List (T × Int)) : 0 ≤ absSum calls := by
  induction calls with
  | nil => simp [absSum]
  | cons c rest ih => rw [absSum_cons]; omega

theorem addAll_bound {T : Type} [DecidableEq T] : ∀ (calls : List (T × Int)) (s s' : Sampler T)
    (A : Int), s.WF → (∀ v, v ∈ s.cumFreq → -A ≤ v ∧ v ≤ A) → 0 ≤ A →
    addAll s calls = .ok s' →
    ∀ v, v ∈ s'.cumFreq → -(A + absSum calls) ≤ v ∧ v ≤ A + absSum calls := by
  intro calls
  induction calls with
  | nil =>
    intro s s' A _ hA _ h
    have : s' = s := (Except.ok.inj h).symm
    subst this
    intro v hv
    have := hA v hv
    simp only [absSum, List.map_nil, List.sum_nil]
    omega
  | cons c rest ih =>
    intro s s' A hwf hA h0 h
    unfold addAll at h
    simp only [forEachM] at h
    cases h1 : s.Add c.1 c.2 with
    | error e => rw [h1] at h; cases h
    | ok s1 =>
      rw [h1] at h
      simp only at h
      have hb := Add_bound s s1 c.1 c.2 A hwf hA h0 h1
      have := ih s1 s' (A + (c.2.natAbs : Int)) (Add_wf s s1 c.1 c.2 hwf h1) hb (by omega) h
      intro v hv
      have := this v hv
      rw [absSum_cons]
      omega

theorem reached_bound {T : Type} [DecidableEq T] (cap : Nat) (g : Rand)
    (calls : List (T × Int)) (s : Sampler T) (h : addAll (NewSampler cap g) calls = .ok s) :
    ∀ v, v ∈ s.cumFreq → -absSum calls ≤ v ∧ v ≤ absSum calls := by
  have := addAll_bound calls (NewSampler cap g) s 0 (NewSampler_tracks cap g).wf
    (by
      intro v hv
      simp only [NewSampler] at hv
      rw [List.mem_replicate] at hv
      rw [hv.2]
      omega) (le_refl 0) h
  intro v hv
  have := this v hv
  omega

/-- A run of `Add` calls on 64-bit integers whose weights sum, in absolute
value, to at most `MaxInt64` is the run on the integers. -/
theorem reached64_exact {T : Type} [DecidableEq T] (cap : Nat) (g : Rand)
    (calls : List (T × Int)) (s : Sampler T) (hfit : absSum calls ≤ 9223372036854775807)
    (h : addAll64 (NewSampler cap g) calls = .ok s) :
    addAll (NewSampler cap g) calls = .ok s := by
  obtain ⟨t, ht, hst⟩ := reached64_exists cap g calls s h
  have hb := reached_bound cap g calls t ht
  rw [ht, hst, wrapped_eq_self t (fun v hv => by
    have := hb v hv
    unfold isInt64
    omega)]

theorem absSum_of_pos {T : Type} (calls : List (T × Int)) (hpos : ∀ c, c ∈ calls → 0 < c.2) :
    absSum calls = (calls.map Prod.snd).sum := by
  induction calls with
  | nil => rfl
  | cons c rest ih =>
    rw [absSum_cons, ih (fun c' hc' => hpos c' (List.mem_cons_of_mem _ hc'))]
    have := hpos c (List.mem_cons_self _ _)
    simp only [List.map_cons, List.sum_cons]
    omega

theorem wrapped_cum {T : Type} (t : Sampler T) (i : Nat) (hi : i < t.cumFreq.length) :
    t.wrapped.cum i = wrapInt (t.cum i) := by
  simp [Sampler.wrapped, Sampler.cum, List.getD_eq_getElem?_getD, List.getElem?_eq_getElem hi]

theorem wrapped_wf {T : Type} (t : Sampler T) (h : t.WF) : t.wrapped.WF :=
  ⟨by simpa [Sampler.wrapped] using h.len_le, h.nodup, h.map_iff⟩

theorem Add64_new {T : Type} [DecidableEq T] (s : Sampler T) (x : T) (w : Int)
    (hx : s.itemToIdxMap x = none) (hcap : s.items.length < s.cumFreq.length) :
    s.Add64 x w = .ok
      { itemToIdxMap := Function.update s.itemToIdxMap x (some s.items.length)
        items := s.items ++ [x]
        cumFreq := s.cumFreq.set s.items.length (wrapInt (s.cumBefore s.items.length + w))
        random := s.random } := by
  unfold Sampler.Add64
  simp only [hx]
  by_cases h0 : s.items.length = 0
  · have hc : 0 < s.cumFreq.length := by omega
    have e : (0 : Nat) > 0 ↔ False := by simp
    simp only [h0, Sampler.cumBefore, e, if_false, if_true, hc]
  · have h1 : s.items.length - 1 < s.cumFreq.length := by omega
    have hpos : s.items.length > 0 := by omega
    simp [hpos, Sampler.cumBefore, h0, hcap, getElem?_cum s _ h1]

/-- C3 as stated fails when a sum of weights leaves the range of Go's `int`:
after `Add(1, MaxInt64); Add(2, 1)` the entry `cumFreq[1]` is `MinInt64`, while the
weights added for `items[0..1]` sum to `2^63`. -/
theorem cumFreq_prefix_sums_overflow_counterexample :
    ∃ s : Sampler Nat,
      addAll64 (NewSampler 2 zeroRand) [(1, 9223372036854775807), (2, 1)] = .ok s ∧
      s.items = [1, 2] ∧ s.cumFreq = [9223372036854775807, -9223372036854775808] ∧
      ((s.items.take (1 + 1)).map (weightAdded [(1, 9223372036854775807), (2, 1)])).sum =
        9223372036854775808 ∧
      s.cumFreq[1]? ≠
        some (((s.items.take (1 + 1)).map (weightAdded [(1, 9223372036854775807), (2, 1)])).sum) := by
  refine ⟨_, rfl, rfl, rfl, by decide, by decide⟩

/-- C3 (amended): after any sequence of `Add` calls on an empty sampler whose
weights sum, in absolute value, to at most `MaxInt64` (so that no sum leaves the
range of `int`), for every index `i` of a registered item, `cumFreq[i]` is the
sum over `items[0..i]` of the total weight added so far for each of those items. -/
theorem cumFreq_prefix_sums {T : Type} [DecidableEq T] (cap : Nat) (g : Rand)
    (calls : List (T × Int)) (s : Sampler T) (hfit : absSum calls ≤ 9223372036854775807)
    (h : addAll64 (NewSampler cap g) calls = .ok s) :
    ∀ i, i < s.items.length →
      s.cumFreq[i]? = some (((s.items.take (i + 1)).map (weightAdded calls)).sum) := by
  obtain ⟨ht, _, _, _, _⟩ := reached_tracks cap g calls s (reached64_exact cap g calls s hfit h)
  intro i hi
  rw [getElem?_cum s i (lt_of_lt_of_le hi ht.wf.len_le), ht.prefixSum i hi]

/-- After `Add(1, 2); Add(2, 4); Add(1, 3)` the items are `[1, 2]` and the prefix sums hold. -/
theorem cumFreq_prefix_sums_witness :
    ∃ s : Sampler Nat, addAll64 (NewSampler 3 zeroRand) [(1, 2), (2, 4), (1, 3)] = .ok s ∧
      s.items = [1, 2] ∧
      ∀ i, i < s.items.length →
        s.cumFreq[i]? =
          some (((s.items.take (i + 1)).map (weightAdded [(1, 2), (2, 4), (1, 3)])).sum) := by
  obtain ⟨s, hs⟩ := exists_ok_of_toBool
    (addAll64 (NewSampler 3 zeroRand : Sampler Nat) [(1, 2), (2, 4), (1, 3)]) (by decide)
  refine ⟨s, hs, ?_, cumFreq_prefix_sums 3 zeroRand _ s (by decide) hs⟩
  have : (addAll64 (NewSampler 3 zeroRand : Sampler Nat) [(1, 2), (2, 4), (1, 3)]).toOption.map
      (fun s => s.items) = some [1, 2] := by decide
  rw [hs] at this
  exact Option.some.inj this

/-- Whatever the weights, after a sequence of `Add` calls on an empty sampler
`cumFreq[i]` is the sum over `items[0..i]` of the weights added, reduced to 64
bits. -/
theorem cumFreq_prefix_sums_wrapped {T : Type} [DecidableEq T] (cap : Nat) (g : Rand)
    (calls : List (T × Int)) (s : Sampler T)
    (h : addAll64 (NewSampler cap g) calls = .ok s) :
    ∀ i, i < s.items.length →
      s.cumFreq[i]? = some (wrapInt (((s.items.take (i + 1)).map (weightAdded calls)).sum)) := by
  obtain ⟨t, ht, rfl⟩ := reached64_exists cap g calls s h
  obtain ⟨htr, _, _, _, _⟩ := reached_tracks cap g calls t ht
  intro i hi
  have hi' : i < t.items.length := hi
  have hlt : i < t.cumFreq.length := lt_of_lt_of_le hi' htr.wf.len_le
  have hlt' : i < t.wrapped.cumFreq.length := by simpa [Sampler.wrapped] using hlt
  rw [getElem?_cum t.wrapped i hlt', wrapped_cum t i hlt, htr.prefixSum i hi']
  rfl

/-- C4 as stated fails: the `cumFreq` array has one slot per unit of capacity,
and the slots of items not yet registered hold 0.  After `Add(7, 1)` on
`NewSampler(2)` the array is `[1, 0]`: not non-decreasing, and its last element
is 0, not the weight added. -/
theorem cumFreq_array_padding_counterexample :
    ∃ s : Sampler Nat, addAll64 (NewSampler 2 zeroRand) [(7, 1)] = .ok s ∧
      s.cumFreq = [1, 0] ∧ ¬ List.Pairwise (fun a b => a ≤ b) s.cumFreq ∧
      s.cumFreq.getLast? ≠ some 1 := by
  refine ⟨_, rfl, rfl, by decide, by decide⟩

/-- The registered part of `cumFreq` is not sorted either once the weights sum
past `MaxInt64`: after `Add(1, MaxInt64); Add(2, 1)` it is `[MaxInt64, MinInt64]`. -/
theorem cumFreq_registered_overflow :
    ∃ s : Sampler Nat,
      addAll64 (NewSampler 2 zeroRand) [(1, 9223372036854775807), (2, 1)] = .ok s ∧
      s.cumFreq.take s.items.length = [9223372036854775807, -9223372036854775808] ∧
      ¬ List.Pairwise (fun a b => a ≤ b) (s.cumFreq.take s.items.length) := by
  refine ⟨_, rfl, rfl, by decide⟩

/-- C4 (amended): for any sequence of `Add` calls with positive weights on an
empty sampler, the weights summing to at most `MaxInt64`, after each call the
part of `cumFreq` that belongs to the registered items (its first `len(items)`
entries) is non-decreasing, and its last element, the entry of the last
registered item, is the sum of all weights added so far; the slots after it, up
to the capacity, hold 0. -/
theorem cumFreq_registered_sorted {T : Type} [DecidableEq T] (cap : Nat) (g : Rand)
    (calls : List (T × Int)) (s : Sampler T) (hpos : ∀ c, c ∈ calls → 0 < c.2)
    (hfit : (calls.map Prod.snd).sum ≤ 9223372036854775807)
    (hne : calls ≠ []) (h : addAll64 (NewSampler cap g) calls = .ok s) :
    List.Pairwise (fun a b => a ≤ b) (s.cumFreq.take s.items.length) ∧
      (s.cumFreq.take s.items.length).getLast? = some ((calls.map Prod.snd).sum) ∧
      s.cumFreq.length = cap ∧
      ∀ i, s.items.length ≤ i → i < cap → s.cumFreq[i]? = some 0 := by
  have h := reached64_exact cap g calls s (by rw [absSum_of_pos calls hpos]; exact hfit) h
  obtain ⟨ht, hcaplen, _, hmem, hsum⟩ := reached_tracks cap g calls s h
  have hlen := ht.wf.len_le
  have hp : ∀ x, x ∈ s.items → 0 < weightAdded calls x := fun x hx =>
    weightAdded_pos calls hpos x ((hmem x).mp hx)
  obtain ⟨_, _, hmono, _⟩ := Tracks_cum_mono s _ ht hp
  have hn : 0 < s.items.length := by
    cases calls with
    | nil => exact absurd rfl hne
    | cons c rest =>
      have : c.1 ∈ s.items := (hmem c.1).mpr (by simp)
      exact List.length_pos_of_mem this
  constructor
  · rw [List.pairwise_iff_getElem]
    intro i j hi hj hij
    simp only [List.length_take] at hi hj
    have hi' : i < s.cumFreq.length := by omega
    have hj' : j < s.cumFreq.length := by omega
    have := hmono i j (le_of_lt hij) (by omega)
    simp only [Sampler.cum, List.getD_eq_getElem?_getD, List.getElem?_eq_getElem hi',
      List.getElem?_eq_getElem hj', Option.getD_some] at this
    simpa [List.getElem_take] using this
  · rw [List.getLast?_eq_getElem?, List.length_take, Nat.min_eq_left hlen,
      List.getElem?_take_of_lt (by omega), getElem?_cum s _ (by omega),
      ht.prefixSum _ (by omega)]
    have : s.items.length - 1 + 1 = s.items.length := by omega
    rw [this, List.take_length, hsum]
    refine ⟨rfl, hcaplen, ?_⟩
    intro i hi hic
    rw [getElem?_cum s i (by omega), reached_padding cap g calls s h i hi]

/-- After `Add(1, 2); Add(2, 4); Add(1, 3)` the registered part of `cumFreq` is sorted and
ends in 9. -/
theorem cumFreq_registered_sorted_witness :
    ∃ s : Sampler Nat, addAll64 (NewSampler 3 zeroRand) [(1, 2), (2, 4), (1, 3)] = .ok s ∧
      List.Pairwise (fun a b => a ≤ b) (s.cumFreq.take s.items.length) ∧
      (s.cumFreq.take s.items.length).getLast? = some 9 := by
  obtain ⟨s, hs⟩ := exists_ok_of_toBool
    (addAll64 (NewSampler 3 zeroRand : Sampler Nat) [(1, 2), (2, 4), (1, 3)]) (by decide)
  have h := cumFreq_registered_sorted 3 zeroRand [(1, 2), (2, 4), (1, 3)] s (by decide)
    (by decide) (by decide) hs
  exact ⟨s, hs, h.1, h.2.1⟩

/-- C5 as stated fails on a sampler whose `cumFreq` slots are all taken: after
`Add(7, 1)` on `NewSampler(1)`, item 8 is not registered, and `Add(8, 1)` panics
at the write `s.cumFreq[1]` instead of setting it. -/
theorem add_new_item_full_counterexample :
    ∃ s : Sampler Nat, addAll64 (NewSampler 1 zeroRand) [(7, 1)] = .ok s ∧
      s.itemToIdxMap 8 = none ∧ s.Add64 8 1 = .error .indexOutOfRange := by
  refine ⟨_, rfl, rfl, rfl⟩

/-- With a free slot, `Add` of a new item still misses `cumFreq[idx-1] + weight`
when that sum leaves the range of `int`: after `Add(7, MaxInt64)`, `Add(8, 1)` sets
`cumFreq[1]` to `MinInt64`. -/
theorem add_new_item_overflow :
    ∃ s s' : Sampler Nat, addAll64 (NewSampler 2 zeroRand) [(7, 9223372036854775807)] = .ok s ∧
      s.itemToIdxMap 8 = none ∧ s.Add64 8 1 = .ok s' ∧
      s.cumFreq[0]? = some 9223372036854775807 ∧
      s'.cumFreq[1]? = some (-9223372036854775808) := by
  refine ⟨_, _, rfl, rfl, rfl, rfl, rfl⟩

/-- C5 (amended): for every sampler state that has a free `cumFreq` slot
(fewer items than the capacity) and every item not yet registered, when
`cumFreq[idx-1] + weight` (`weight` alone for the first item) is in the range of
`int`, `Add(item, weight)` returns, appends the item at index `idx = len(items)`,
records that index in the map, sets `cumFreq[idx] = cumFreq[idx-1] + weight` and
leaves all earlier items, all other `cumFreq` entries, all other map entries and
the random source unchanged. -/
theorem add_new_item {T : Type} [DecidableEq T] (s : Sampler T) (item : T) (weight : Int)
    (hnew : s.itemToIdxMap item = none) (hcap : s.items.length < s.cumFreq.length)
    (hrange : isInt64 ((if s.items.length = 0 then 0 else s.cum (s.items.length - 1)) + weight)) :
    ∃ s', s.Add64 item weight = .ok s' ∧
      s'.items = s.items ++ [item] ∧
      s'.itemToIdxMap item = some s.items.length ∧
      (∀ y, y ≠ item → s'.itemToIdxMap y = s.itemToIdxMap y) ∧
      s'.cumFreq[s.items.length]? =
        some ((if s.items.length = 0 then 0 else s.cum (s.items.length - 1)) + weight) ∧
      s'.cumFreq.length = s.cumFreq.length ∧
      (∀ i, i ≠ s.items.length → s'.cumFreq[i]? = s.cumFreq[i]?) ∧
      (∀ i, i < s.items.length → s'.items[i]? = s.items[i]?) ∧
      s'.random = s.random := by
  have hw : wrapInt (s.cumBefore s.items.length + weight) =
      s.cumBefore s.items.length + weight := wrapInt_of_isInt64 _ hrange
  refine ⟨_, Add64_new s item weight hnew hcap, rfl, ?_, ?_, ?_, ?_, ?_, ?_, rfl⟩
  · simp
  · intro y hy; simp [Function.update_noteq hy]
  · rw [hw]
    simp [List.getElem?_set, hcap, Sampler.cumBefore]
  · simp
  · intro i hi
    simp only [List.getElem?_set]
    simp [Ne.symm hi]
  · intro i hi
    simp only
    rw [List.getElem?_append_left hi]

/-- With capacity 2 and item 7 of weight 3 registered, `Add(8, 4)` appends 8 with
`cumFreq[1] = 7`. -/
theorem add_new_item_witness :
    ∃ s s' : Sampler Nat, addAll64 (NewSampler 2 zeroRand) [(7, 3)] = .ok s ∧
      s.itemToIdxMap 8 = none ∧ s.Add64 8 4 = .ok s' ∧ s'.items = [7, 8] ∧
      s'.cumFreq[1]? = some 7 := by
  have hs : addAll64 (NewSampler 2 zeroRand : Sampler Nat) [(7, 3)] =
      .ok ⟨Function.update (fun _ => none) 7 (some 0), [7], [3, 0], zeroRand⟩ := rfl
  obtain ⟨s', h1, h2, _, _, h5, _⟩ :=
    add_new_item (⟨Function.update (fun _ => none) 7 (some 0), [7], [3, 0], zeroRand⟩ :
      Sampler Nat) 8 4 rfl (by decide) (by unfold isInt64; decide)
  exact ⟨_, s', hs, rfl, h1, h2, h5⟩

/-- C6 as stated fails when a raised entry leaves the range of `int`: with item 5
registered at `cumFreq[0] = MaxInt64`, `Add(5, 1)` leaves `cumFreq[0] = MinInt64`, not
`MaxInt64 + 1`. -/
theorem add_existing_item_overflow_counterexample :
    ∃ s s' : Sampler Nat, addAll64 (NewSampler 1 zeroRand) [(5, 9223372036854775807)] = .ok s ∧
      s.itemToIdxMap 5 = some 0 ∧ s.Add64 5 1 = .ok s' ∧
      s.cumFreq[0]? = some 9223372036854775807 ∧
      s'.cumFreq[0]? = some (-9223372036854775808) ∧
      s'.cumFreq[0]? ≠ some (9223372036854775807 + 1) := by
  refine ⟨_, _, rfl, rfl, rfl, rfl, rfl, by decide⟩

/-- C6 (amended): on every sampler reached from an empty one by `Add` calls,
for every item registered at index `k` and every weight such that
`cumFreq[i] + weight` is in the range of `int` for the registered indices
`i >= k`, `Add(item, weight)` returns, increases `cumFreq[i]` by exactly `weight`
for every registered index `i >= k`, leaves `cumFreq[i]` unchanged for every
`i < k` (and for the slots past the registered items), and leaves the item
sequence, the item-to-index map and the random source unchanged. -/
theorem add_existing_item {T : Type} [DecidableEq T] (cap : Nat) (g : Rand)
    (calls : List (T × Int)) (s : Sampler T) (item : T) (weight : Int) (k : Nat)
    (h : addAll64 (NewSampler cap g) calls = .ok s) (hk : s.itemToIdxMap item = some k)
    (hrange : ∀ i, k ≤ i → i < s.items.length → isInt64 (s.cum i + weight)) :
    ∃ s', s.Add64 item weight = .ok s' ∧
      s.items[k]? = some item ∧
      s'.items = s.items ∧ s'.itemToIdxMap = s.itemToIdxMap ∧ s'.random = s.random ∧
      s'.cumFreq.length = s.cumFreq.length ∧
      (∀ i, k ≤ i → i < s.items.length →
        ∃ c, s.cumFreq[i]? = some c ∧ s'.cumFreq[i]? = some (c + weight)) ∧
      (∀ i, i < k → s'.cumFreq[i]? = s.cumFreq[i]?) ∧
      (∀ i, s.items.length ≤ i → s'.cumFreq[i]? = s.cumFreq[i]?) := by
  obtain ⟨t, hreach, rfl⟩ := reached64_exists cap g calls s h
  obtain ⟨ht, _, _, _, _⟩ := reached_tracks cap g calls t hreach
  have hk' : t.itemToIdxMap item = some k := hk
  obtain ⟨hklt, hkx⟩ := WF_lt_of_some t ht.wf item k hk'
  obtain ⟨cum', h1, h2, h3⟩ := Add_existing t item weight k hk' (by omega) ht.wf.len_le
  have hadd : t.wrapped.Add64 item weight =
      .ok (Sampler.wrapped { t with cumFreq := cum' }) := by
    rw [Add64_wrapped, h1]; rfl
  have hget : ∀ i : Nat, (Sampler.wrapped { t with cumFreq := cum' }).cumFreq[i]? =
      (t.cumFreq[i]?).map
        (fun v => wrapInt (if k ≤ i ∧ i < t.items.length then v + weight else v)) := by
    intro i
    simp only [Sampler.wrapped, List.getElem?_map, h3 i, Option.map_map]
    rfl
  have hold : ∀ i : Nat, t.wrapped.cumFreq[i]? = (t.cumFreq[i]?).map wrapInt := by
    intro i
    simp only [Sampler.wrapped, List.getElem?_map]
  refine ⟨_, hadd, hkx, rfl, rfl, rfl, ?_, ?_, ?_, ?_⟩
  · simp [Sampler.wrapped, h2]
  · intro i hki hi
    have hi' : i < t.cumFreq.length := lt_of_lt_of_le hi ht.wf.len_le
    refine ⟨wrapInt t.cumFreq[i], ?_, ?_⟩
    · rw [hold i, List.getElem?_eq_getElem hi']; rfl
    · rw [hget i, List.getElem?_eq_getElem hi']
      have hc : k ≤ i ∧ i < t.items.length := ⟨hki, hi⟩
      simp only [Option.map_some', hc, and_self, if_true]
      have hr := hrange i hki hi
      rw [wrapped_cum t i hi'] at hr
      have hcum : t.cum i = t.cumFreq[i] := by
        simp [Sampler.cum, List.getD_eq_getElem?_getD, List.getElem?_eq_getElem hi']
      rw [hcum] at hr
      rw [← wrapInt_add_wrapInt, wrapInt_of_isInt64 _ hr]
  · intro i hi
    rw [hget i, hold i]
    have : ¬ (k ≤ i ∧ i < t.items.length) := by omega
    simp only [this, if_false]
  · intro i hi
    rw [hget i, hold i]
    have hi' : t.items.length ≤ i := hi
    have : ¬ (k ≤ i ∧ i < t.items.length) := by omega
    simp only [this, if_false]

/-- With `cumFreq = [2, 3, 7]` for the items 5, 6, 7, `Add(6, 10)` raises the entries
from index 1 on by 10. -/
theorem add_existing_item_witness :
    ∃ s s' : Sampler Nat, addAll64 (NewSampler 4 zeroRand) [(5, 2), (6, 1), (7, 4)] = .ok s ∧
      s.itemToIdxMap 6 = some 1 ∧ s.Add64 6 10 = .ok s' ∧ s'.items = s.items ∧
      s.cumFreq = [2, 3, 7, 0] ∧
      (∀ i, 1 ≤ i → i < s.items.length →
        ∃ c, s.cumFreq[i]? = some c ∧ s'.cumFreq[i]? = some (c + 10)) := by
  have hs : addAll64 (NewSampler 4 zeroRand : Sampler Nat) [(5, 2), (6, 1), (7, 4)] =
      .ok ⟨Function.update (Function.update (Function.update (fun _ => none) 5 (some 0)) 6
        (some 1)) 7 (some 2), [5, 6, 7], [2, 3, 7, 0], zeroRand⟩ := rfl
  obtain ⟨s', h1, _, h3, _, _, _, h7, _⟩ :=
    add_existing_item 4 zeroRand [(5, 2), (6, 1), (7, 4)] _ 6 10 1 hs rfl
      (by
        intro i h1 h2
        have h2' : i < 3 := h2
        unfold isInt64
        interval_cases i <;> decide)
  exact ⟨_, s', hs, rfl, h1, h3, rfl, h7⟩

/-- C1 as stated fails when the weights sum past `MaxInt64`: after
`Add(1, MaxInt64); Add(2, 1)`, both weights positive, the total `cumFreq[1]` is
`MinInt64`; there is no draw in `[0, total)`, although item 2 has weight 1, and
`Sample` panics in `Intn` whatever the state of the random source. -/
theorem sample_overflow_counterexample :
    ∃ s : Sampler Nat,
      addAll64 (NewSampler 2 zeroRand) [(1, 9223372036854775807), (2, 1)] = .ok s ∧
      2 ∈ s.items ∧ weightAdded [((1 : Nat), (9223372036854775807 : Int)), (2, 1)] 2 = 1 ∧
      s.cum (s.items.length - 1) = -9223372036854775808 ∧
      (((Finset.range (s.cum (s.items.length - 1)).toNat).filter
        (fun r => s.sampleAt r = some 2)).card : Int) = 0 ∧
      ∀ g : Rand, (Sampler.mk s.itemToIdxMap s.items s.cumFreq g).Sample =
        .error .intnNonPositive := by
  refine ⟨_, rfl, by decide, by decide, by decide, by decide, fun g => rfl⟩

/-- C1 (amended): on every sampler reached from an empty one by `Add` calls with
positive weights that sum to at most `MaxInt64`, for every registered item `x`,
exactly `w` of the integers `r` in `[0, total)` make `Sample` return `x` when `r`
is the random draw, where `w` is the weight accumulated by `x` and `total` the
`cumFreq` of the last registered item; and `Sample` returns what `sampleAt`
gives at its draw. -/
theorem sample_proportional_to_weight {T : Type} [DecidableEq T] (cap : Nat) (g : Rand)
    (calls : List (T × Int)) (s : Sampler T) (x : T) (hpos : ∀ c, c ∈ calls → 0 < c.2)
    (hfit : (calls.map Prod.snd).sum ≤ 9223372036854775807)
    (h : addAll64 (NewSampler cap g) calls = .ok s) (hx : x ∈ s.items) :
    (((Finset.range (s.cum (s.items.length - 1)).toNat).filter
        (fun r => s.sampleAt r = some x)).card : Int) = weightAdded calls x ∧
    ∀ g' : Rand, ({ s with random := g' } : Sampler T).Sample =
      .ok (s.sampleAt ((g'.draws g'.pos : Int) % s.cum (s.items.length - 1)).toNat,
        { s with random := { draws := g'.draws, pos := g'.pos + 1 } }) := by
  have h := reached64_exact cap g calls s (by rw [absSum_of_pos calls hpos]; exact hfit) h
  obtain ⟨ht, _, _, hmem, _⟩ := reached_tracks cap g calls s h
  have hlen := ht.wf.len_le
  have hp : ∀ y, y ∈ s.items → 0 < weightAdded calls y := fun y hy =>
    weightAdded_pos calls hpos y ((hmem y).mp hy)
  obtain ⟨hstep, hcpos, hmono, _⟩ := Tracks_cum_mono s _ ht hp
  have hn : 0 < s.items.length := List.length_pos_of_mem hx
  have htot : 0 < s.cum (s.items.length - 1) := hcpos _ (by omega)
  refine ⟨?_, fun g' => Sample_eq_sampleAt s hn hlen hmono htot g'⟩
  obtain ⟨k, hk⟩ := List.getElem?_of_mem hx
  have hklt : k < s.items.length := by
    by_contra hc
    have : s.items[k]? = none := by simp; omega
    rw [this] at hk; cases hk
  have hslice := Tracks_slice s _ ht k x hk
  have hb0 : 0 ≤ s.cumBefore k := by
    cases k with
    | zero => simp [Sampler.cumBefore]
    | succ k' => rw [cumBefore_succ]; exact le_of_lt (hcpos k' (by omega))
  have hbk := hstep k hklt
  have hktop : s.cum k ≤ s.cum (s.items.length - 1) := hmono k _ (by omega) (by omega)
  have hset : (Finset.range (s.cum (s.items.length - 1)).toNat).filter
      (fun r => s.sampleAt r = some x) =
      Finset.Ico (s.cumBefore k).toNat (s.cum k).toNat := by
    ext r
    simp only [Finset.mem_filter, Finset.mem_range, Finset.mem_Ico]
    constructor
    · rintro ⟨hr, hs⟩
      have hr' : (r : Int) < s.cum (s.items.length - 1) := by omega
      obtain ⟨idx, a1, a2, a3, a4⟩ := sampleAt_owner s hn hlen hmono r hr'
      rw [a4] at hs
      have hidx : idx = k := by
        have e1 : s.items[idx] = x := by
          rw [List.getElem?_eq_getElem a1] at hs; exact Option.some.inj hs
        have e2 : s.items[k] = x := by
          rw [List.getElem?_eq_getElem hklt] at hk; exact Option.some.inj hk
        exact (List.Nodup.getElem_inj_iff ht.wf.nodup).mp (by rw [e1, e2])
      subst hidx
      have := cumBefore_le s (r : Int) (by omega) idx a3
      omega
    · rintro ⟨h1, h2⟩
      have hr' : (r : Int) < s.cum (s.items.length - 1) := by omega
      refine ⟨by omega, ?_⟩
      obtain ⟨idx, a1, a2, a3, a4⟩ := sampleAt_owner s hn hlen hmono r hr'
      have hidx := (owner_unique s s.items.length hmono (r : Int) (by omega) idx a1 a2 a3 k
        hklt).mp ⟨by omega, by omega⟩
      rw [a4, ← hidx, hk]
  rw [hset, Nat.card_Ico]
  omega

/-- After `Add(1, 2); Add(2, 4); Add(1, 3)` the total is 9 and exactly 4 draws return
item 2. -/
theorem sample_proportional_to_weight_witness :
    ∃ s : Sampler Nat, addAll64 (NewSampler 3 zeroRand) [(1, 2), (2, 4), (1, 3)] = .ok s ∧
      2 ∈ s.items ∧ s.cum (s.items.length - 1) = 9 ∧
      (((Finset.range (s.cum (s.items.length - 1)).toNat).filter
        (fun r => s.sampleAt r = some 2)).card : Int) = 4 := by
  have hs : addAll64 (NewSampler 3 zeroRand : Sampler Nat) [(1, 2), (2, 4), (1, 3)] =
      .ok ⟨Function.update (Function.update (fun _ => none) 1 (some 0)) 2 (some 1), [1, 2],
        [5, 9, 0], zeroRand⟩ := rfl
  have h := (sample_proportional_to_weight 3 zeroRand [(1, 2), (2, 4), (1, 3)] _ 2 (by decide)
    (by decide) hs (by decide)).1
  exact ⟨_, hs, by decide, by decide, by rw [h]; decide⟩

/-! ## Lemmas on the word generator -/

/-- A loop whose every step adds `δ a` to the counts held by the state adds
the sum of the `δ a` over the list. -/
theorem forEachM_accum {σ α κ : Type} (Inv : σ → (κ → Int) → Prop)
    (f : σ → α → Except Fault σ) (δ : α → κ → Int) :
    ∀ (l : List α),
      (∀ s N a s', a ∈ l → Inv s N → f s a = .ok s' → Inv s' (fun k => N k + δ a k)) →
      ∀ s N s', Inv s N → forEachM f l s = .ok s' →
        Inv s' (fun k => N k + (l.map (fun a => δ a k)).sum) := by
  intro l
  induction l with
  | nil =>
    intro _ s N s' hinv h
    have : s' = s := (Except.ok.inj h).symm
    subst this
    have hfun : (fun k => N k + (([] : List α).map (fun a => δ a k)).sum) = N := by
      funext k; simp
    rw [hfun]; exact hinv
  | cons a rest ih =>
    intro hstep s N s' hinv h
    simp only [forEachM] at h
    cases h1 : f s a with
    | error e => rw [h1] at h; cases h
    | ok s1 =>
      rw [h1] at h
      have hinv1 := hstep s N a s1 (List.mem_cons_self _ _) hinv h1
      have := ih (fun s N b s' hb => hstep s N b s' (List.mem_cons_of_mem _ hb)) s1 _ s' hinv1 h
      have hfun : (fun k => N k + δ a k + (rest.map (fun a => δ a k)).sum) =
          (fun k => N k + ((a :: rest).map (fun a => δ a k)).sum) := by
        funext k; simp only [List.map_cons, List.sum_cons]; ring
      rw [← hfun]; exact this

/-- A loop whose steps cannot fail while the counts stay within a budget runs to
the end when the final counts are within the budget. -/
theorem forEachM_succeeds {σ α κ : Type} (Inv : σ → (κ → Int) → Prop)
    (Bud : (κ → Int) → Prop) (f : σ → α → Except Fault σ) (δ : α → κ → Int)
    (hδ : ∀ a k, 0 ≤ δ a k)
    (hBud : ∀ N N' : κ → Int, (∀ k, N k ≤ N' k) → Bud N' → Bud N) :
    ∀ (l : List α),
      (∀ s N a s', a ∈ l → Inv s N → f s a = .ok s' → Inv s' (fun k => N k + δ a k)) →
      (∀ s N a, a ∈ l → Inv s N → Bud (fun k => N k + δ a k) → ∃ s', f s a = .ok s') →
      ∀ s N, Inv s N → Bud (fun k => N k + (l.map (fun a => δ a k)).sum) →
        ∃ s', forEachM f l s = .ok s' := by
  intro l
  induction l with
  | nil => intro _ _ s N _ _; exact ⟨s, rfl⟩
  | cons a rest ih =>
    intro hstep hok s N hinv hbud
    have hsum_nonneg : ∀ k, 0 ≤ (rest.map (fun a => δ a k)).sum := by
      intro k
      apply List.sum_nonneg
      intro x hx
      obtain ⟨b, _, rfl⟩ := List.mem_map.mp hx
      exact hδ b k
    have hbud1 : Bud (fun k => N k + δ a k) := by
      apply hBud _ _ _ hbud
      intro k
      simp only [List.map_cons, List.sum_cons]
      have := hsum_nonneg k
      omega
    obtain ⟨s1, h1⟩ := hok s N a (List.mem_cons_self _ _) hinv hbud1
    have hinv1 := hstep s N a s1 (List.mem_cons_self _ _) hinv h1
    have hbud2 : Bud (fun k => N k + δ a k + (rest.map (fun a => δ a k)).sum) := by
      have hfun : (fun k => N k + δ a k + (rest.map (fun a => δ a k)).sum) =
          (fun k => N k + ((a :: rest).map (fun a => δ a k)).sum) := by
        funext k; simp only [List.map_cons, List.sum_cons]; ring
      rw [hfun]; exact hbud
    obtain ⟨s', h'⟩ := ih (fun s N b s' hb => hstep s N b s' (List.mem_cons_of_mem _ hb))
      (fun s N b hb => hok s N b (List.mem_cons_of_mem _ hb)) s1 _ hinv1 hbud2
    refine ⟨s', ?_⟩
    simp only [forEachM, h1]
    exact h'


theorem pairHit_eq (word : GoString) (i j : Nat) (b : Byte) (hb : word[j]? = some b)
    (ctx : GoString) (c : Rune) :
    pairHit word i j (ctx, c) =
      if ctx = (word.drop i).take (j - i) ∧ c = (b.val : Int) then 1 else 0 := by
  unfold pairHit
  simp only [hb, Option.map_some', Option.some.injEq]
  by_cases h : ctx = (word.drop i).take (j - i) ∧ c = (b.val : Int)
  · have h' : (word.drop i).take (j - i) = ctx ∧ (b.val : Int) = c := ⟨h.1.symm, h.2.symm⟩
    rw [if_pos h', if_pos h]
  · have h' : ¬ ((word.drop i).take (j - i) = ctx ∧ (b.val : Int) = c) :=
      fun e => h ⟨e.1.symm, e.2.symm⟩
    rw [if_neg h', if_neg h]

theorem pairHit_nonneg (word : GoString) (i j : Nat) (k : GoString × Rune) :
    0 ≤ pairHit word i j k := by
  unfold pairHit
  split <;> decide

/-- The sampler `addWordAt` works on, whether found or created. -/
theorem Holds_samplerFor (seed : GoString → Rand) (wg : WordGenerator) (N : GoString × Rune → Int)
    (hr : Holds wg N) (ctx : GoString) :
    (wg.samplerFor seed ctx).Tracks (fun c => N (ctx, c)) ∧
    (wg.samplerFor seed ctx).cumFreq.length = 29 ∧
    ∀ c, c ∈ (wg.samplerFor seed ctx).items → 0 < N (ctx, c) := by
  have h := hr.2 ctx
  unfold WordGenerator.samplerFor
  cases hcd : wg.charDist ctx with
  | none =>
    rw [hcd] at h
    simp only at h ⊢
    have hfun : (fun c => N (ctx, c)) = (fun _ => (0 : Int)) := by
      funext c; exact h c
    rw [hfun]
    refine ⟨NewSampler_tracks 29 (seed ctx), by simp [NewSampler], ?_⟩
    intro c hc
    simp [NewSampler] at hc
  | some s =>
    rw [hcd] at h
    simp only at h ⊢
    exact ⟨h.1, h.2.1, h.2.2.2⟩

theorem addWordAt_holds (seed : GoString → Rand) (word : GoString) (i j : Nat)
    (wg wg' : WordGenerator) (N : GoString × Rune → Int) (hr : Holds wg N)
    (h : addWordAt seed word i wg j = .ok wg') :
    Holds wg' (fun k => N k + pairHit word i j k) := by
  unfold addWordAt at h
  simp only at h
  cases hb : word[j]? with
  | none => rw [hb] at h; cases h
  | some b =>
    rw [hb] at h
    simp only at h
    obtain ⟨ht, hcap, hpos⟩ := Holds_samplerFor seed wg N hr ((word.drop i).take (j - i))
    split at h
    · cases h
    · rename_i s1 hadd
      have hwg := (Except.ok.inj h).symm
      subst hwg
      have ht1 := Add_tracks _ s1 _ _ 1 ht hadd
      have hf1 := Add_frame _ s1 _ 1 ht.wf hadd
      refine ⟨hr.1, ?_⟩
      intro ctx
      by_cases hctx : ctx = (word.drop i).take (j - i)
      · subst hctx
        simp only [Function.update_same]
        have hfun : (fun c => N ((word.drop i).take (j - i), c) +
            pairHit word i j ((word.drop i).take (j - i), c)) =
            (fun y => if y = (b.val : Int) then N ((word.drop i).take (j - i), y) + 1
              else N ((word.drop i).take (j - i), y)) := by
          funext c
          rw [pairHit_eq word i j b hb]
          by_cases hc : c = (b.val : Int)
          · simp [hc]
          · simp [hc]
        rw [hfun]
        refine ⟨ht1, by rw [hf1.1, hcap], ?_, ?_⟩
        · have : (b.val : Int) ∈ s1.items := (hf1.2.2.1 _).mpr (Or.inr rfl)
          exact List.ne_nil_of_mem this
        · intro c hc
          rcases (hf1.2.2.1 c).mp hc with hc' | hc'
          · have h1 := hpos c hc'
            have h2 := pairHit_nonneg word i j ((word.drop i).take (j - i), c)
            omega
          · subst hc'
            have h2 : pairHit word i j ((word.drop i).take (j - i), (b.val : Int)) = 1 := by
              rw [pairHit_eq word i j b hb]; simp
            rw [h2]
            by_cases hmem : (b.val : Int) ∈ (wg.samplerFor seed ((word.drop i).take (j - i))).items
            · have := hpos _ hmem; omega
            · have := ht.zero_of_not_mem _ hmem
              simp only at this
              omega
      · simp only [Function.update_noteq hctx]
        have h0 := hr.2 ctx
        have hz : ∀ c, pairHit word i j (ctx, c) = 0 := by
          intro c
          rw [pairHit_eq word i j b hb]
          simp [hctx]
        cases hcd : wg.charDist ctx with
        | none =>
          rw [hcd] at h0
          simp only at h0 ⊢
          intro c; rw [h0 c, hz c]; rfl
        | some s =>
          rw [hcd] at h0
          simp only at h0 ⊢
          have hfun : (fun c => N (ctx, c) + pairHit word i j (ctx, c)) =
              (fun c => N (ctx, c)) := by
            funext c; rw [hz c, add_zero]
          rw [hfun]
          refine ⟨h0.1, h0.2.1, h0.2.2.1, ?_⟩
          intro c hc
          rw [hz c, add_zero]
          exact h0.2.2.2 c hc

theorem Fits_antitone (N N' : GoString × Rune → Int) (hle : ∀ k, N k ≤ N' k) (h : Fits N') :
    Fits N := by
  intro ctx l hnd hpos
  exact h ctx l hnd (fun c hc => lt_of_lt_of_le (hpos c hc) (hle (ctx, c)))

theorem addWordAt_succeeds (seed : GoString → Rand) (word : GoString) (i j : Nat)
    (wg : WordGenerator) (N : GoString × Rune → Int) (hj : j < word.length) (hr : Holds wg N)
    (hfit : Fits (fun k => N k + pairHit word i j k)) :
    ∃ wg', addWordAt seed word i wg j = .ok wg' := by
  have hb : word[j]? = some word[j] := List.getElem?_eq_getElem hj
  obtain ⟨ht, hcap, hpos⟩ := Holds_samplerFor seed wg N hr ((word.drop i).take (j - i))
  have hadd : ∃ s1, (wg.samplerFor seed ((word.drop i).take (j - i))).Add
        ((word[j].val : Nat) : Int) 1 = .ok s1 := by
    cases hx : (wg.samplerFor seed ((word.drop i).take (j - i))).itemToIdxMap
          ((word[j].val : Nat) : Int) with
    | some k =>
      obtain ⟨hk, _⟩ := WF_lt_of_some _ ht.wf _ k hx
      obtain ⟨cum', h1, _, _⟩ := Add_existing _ _ 1 k hx (by omega) ht.wf.len_le
      exact ⟨_, h1⟩
    | none =>
      have hnm := WF_not_mem_of_none _ ht.wf _ hx
      refine ⟨_, Add_new _ _ 1 hx ?_⟩
      rw [hcap]
      have hlen := hfit ((word.drop i).take (j - i))
        ((wg.samplerFor seed ((word.drop i).take (j - i))).items ++
            [((word[j].val : Nat) : Int)])
        (by
          rw [List.nodup_append]
          refine ⟨ht.wf.nodup, by simp, ?_⟩
          intro a ha hb'
          simp at hb'
          subst hb'; exact hnm ha)
        (by
          intro c hc
          simp only
          rcases List.mem_append.mp hc with hc' | hc'
          · have h1 := hpos c hc'
            have h2 := pairHit_nonneg word i j ((word.drop i).take (j - i), c)
            omega
          · have hc'' : c = ((word[j].val : Nat) : Int) := by simpa using hc'
            subst hc''
            have h2 : pairHit word i j ((word.drop i).take (j - i),
                ((word[j].val : Nat) : Int)) = 1 := by
              rw [pairHit_eq word i j word[j] hb]; simp
            have h1 := ht.zero_of_not_mem _ hnm
            simp only at h1
            rw [h2, h1]; decide)
      simp only [List.length_append, List.length_singleton] at hlen
      omega
  obtain ⟨s1, hs1⟩ := hadd
  refine ⟨WordGenerator.mk
    (Function.update wg.charDist ((word.drop i).take (j - i)) (some s1)) wg.contextLength, ?_⟩
  unfold addWordAt
  simp only [hb, hs1]

/-- Sum of `pairHit` over the values of `j` the inner loop visits for `i`. -/
theorem innerRange_lt (K len i j : Nat) (h : j ∈ innerRange K len i) : j < len := by
  unfold innerRange at h
  have := List.mem_takeWhile_imp h
  simpa using this

theorem rowHit_nonneg (word : GoString) (i : Nat) (k : GoString × Rune) : 0 ≤ rowHit word i k := by
  unfold rowHit
  apply List.sum_nonneg
  intro x hx
  obtain ⟨j, _, rfl⟩ := List.mem_map.mp hx
  exact pairHit_nonneg word i j k

theorem wordHit_nonneg (word : GoString) (k : GoString × Rune) : 0 ≤ wordHit word k := by
  unfold wordHit
  apply List.sum_nonneg
  intro x hx
  obtain ⟨i, _, rfl⟩ := List.mem_map.mp hx
  exact rowHit_nonneg word i k

theorem addWord_row_holds (seed : GoString → Rand) (word : GoString) (i : Nat)
    (wg wg' : WordGenerator) (N : GoString × Rune → Int) (hr : Holds wg N)
    (h : forEachM (addWordAt seed word i) (innerRange wg.contextLength word.length i) wg =
      .ok wg') :
    Holds wg' (fun k => N k + rowHit word i k) := by
  rw [hr.1] at h
  exact forEachM_accum Holds (addWordAt seed word i) (fun j => pairHit word i j) _
    (fun s N j s' _ hs hf => addWordAt_holds seed word i j s s' N hs hf) wg N wg' hr h

theorem addWord_row_succeeds (seed : GoString → Rand) (word : GoString) (i : Nat)
    (wg : WordGenerator) (N : GoString × Rune → Int) (hr : Holds wg N)
    (hfit : Fits (fun k => N k + rowHit word i k)) :
    ∃ wg', forEachM (addWordAt seed word i) (innerRange wg.contextLength word.length i) wg =
      .ok wg' := by
  rw [hr.1]
  exact forEachM_succeeds Holds Fits (addWordAt seed word i) (fun j => pairHit word i j)
    (fun j k => pairHit_nonneg word i j k) Fits_antitone _
    (fun s N j s' _ hs hf => addWordAt_holds seed word i j s s' N hs hf)
    (fun s N j hj hs hb =>
      addWordAt_succeeds seed word i j s N (innerRange_lt 3 word.length i j hj) hs hb)
    wg N hr hfit

theorem addWord_holds (seed : GoString → Rand) (word : GoString) (wg wg' : WordGenerator)
    (N : GoString × Rune → Int) (hr : Holds wg N) (h : wg.addWord seed word = .ok wg') :
    Holds wg' (fun k => N k + wordHit word k) := by
  unfold WordGenerator.addWord at h
  exact forEachM_accum Holds _ (fun i => rowHit word i) _
    (fun s N i s' _ hs hf => addWord_row_holds seed word i s s' N hs hf) wg N wg' hr h

theorem addWord_succeeds (seed : GoString → Rand) (word : GoString) (wg : WordGenerator)
    (N : GoString × Rune → Int) (hr : Holds wg N) (hfit : Fits (fun k => N k + wordHit word k)) :
    ∃ wg', wg.addWord seed word = .ok wg' := by
  unfold WordGenerator.addWord
  exact forEachM_succeeds Holds Fits _ (fun i => rowHit word i)
    (fun i k => rowHit_nonneg word i k) Fits_antitone _
    (fun s N i s' _ hs hf => addWord_row_holds seed word i s s' N hs hf)
    (fun s N i _ hs hb => addWord_row_succeeds seed word i s N hs hb)
    wg N hr hfit

theorem NewWordGenerator_holds : Holds NewWordGenerator (fun _ => 0) := by
  refine ⟨rfl, ?_⟩
  intro ctx
  simp [NewWordGenerator]

theorem Build_holds (toLower : GoString → GoString) (seed : GoString → Rand)
    (words : List GoString) (wg wg' : WordGenerator) (N : GoString × Rune → Int)
    (hr : Holds wg N) (h : wg.Build toLower seed words = .ok wg') :
    Holds wg' (fun k => N k + vocabHit toLower words k) := by
  unfold WordGenerator.Build at h
  exact forEachM_accum Holds _ (fun word => wordHit word) _
    (fun s N w s' _ hs hf => addWord_holds seed w s s' N hs hf) wg N wg' hr h

theorem Build_succeeds (toLower : GoString → GoString) (seed : GoString → Rand)
    (words : List GoString) (wg : WordGenerator) (N : GoString × Rune → Int)
    (hr : Holds wg N) (hfit : Fits (fun k => N k + vocabHit toLower words k)) :
    ∃ wg', wg.Build toLower seed words = .ok wg' := by
  unfold WordGenerator.Build
  exact forEachM_succeeds Holds Fits _ (fun word => wordHit word)
    (fun w k => wordHit_nonneg w k) Fits_antitone _
    (fun s N w s' _ hs hf => addWord_holds seed w s s' N hs hf)
    (fun s N w _ hs hb => addWord_succeeds seed w s N hs hb)
    wg N hr hfit

theorem takeWhile_lt_range' (len : Nat) : ∀ (K a : Nat),
    (List.range' a K).takeWhile (fun j => decide (j < len)) = List.range' a (min K (len - a)) := by
  intro K
  induction K with
  | zero => intro a; simp
  | succ K ih =>
    intro a
    rw [List.range'_succ]
    by_cases h : a < len
    · have hmin : min (K + 1) (len - a) = min K (len - (a + 1)) + 1 := by omega
      rw [List.takeWhile_cons_of_pos (by simpa using h), ih (a + 1), hmin, List.range'_succ]
    · have hmin : min (K + 1) (len - a) = 0 := by omega
      rw [List.takeWhile_cons_of_neg (by simpa using h), hmin]
      rfl

theorem innerRange_eq (K len i : Nat) :
    innerRange K len i = List.range' (i + 1) (min K (len - (i + 1))) :=
  takeWhile_lt_range' len K (i + 1)

theorem sum_map_indicator {α : Type} (p : α → Prop) [DecidablePred p] (l : List α) :
    (l.map (fun a => if p a then (1 : Int) else 0)).sum =
      ((l.filter (fun a => decide (p a))).length : Int) := by
  induction l with
  | nil => rfl
  | cons a l ih =>
    by_cases h : p a
    · simp only [List.map_cons, List.sum_cons, h, if_true, ih, List.filter_cons, decide_True,
        List.length_cons]
      push_cast; ring
    · simp only [List.map_cons, List.sum_cons, h, if_false, ih, List.filter_cons, decide_False,
        zero_add]
      rfl

theorem filter_range_window (len i K : Nat) :
    ((List.range len).filter (fun j => decide (i < j ∧ j - i ≤ K ∧ j < len))).Perm
      (List.range' (i + 1) (min K (len - (i + 1)))) := by
  rw [List.perm_ext_iff_of_nodup (List.Nodup.filter _ (List.nodup_range len))
    (List.nodup_range' _ _)]
  intro j
  simp only [List.mem_filter, List.mem_range, decide_eq_true_eq, List.mem_range'_1]
  omega

theorem rowHit_eq (word ctx : GoString) (c : Rune) (i : Nat) :
    rowHit word i (ctx, c) =
      (((List.range word.length).filter (fun j =>
        decide (i < j ∧ j - i ≤ 3 ∧ j < word.length ∧ (word.drop i).take (j - i) = ctx ∧
          (word[j]?).map (fun b => (b.val : Int)) = some c))).length : Int) := by
  unfold rowHit pairHit
  rw [sum_map_indicator, innerRange_eq]
  have hperm := (filter_range_window word.length i 3).filter
    (fun j => decide ((word.drop i).take (j - i) = ctx ∧
      (word[j]?).map (fun b => (b.val : Int)) = some c))
  rw [← hperm.length_eq, List.filter_filter]
  congr 2
  apply List.filter_congr
  intro j _
  simp only [Bool.decide_and, Bool.and_assoc, Bool.and_comm, Bool.and_left_comm]

theorem sum_map_range_pred (g : Nat → Nat) (L : Nat) (h : g (L - 1) = 0) :
    ((List.range L).map g).sum = ((List.range (L - 1)).map g).sum := by
  cases L with
  | zero => rfl
  | succ n =>
    simp only [Nat.add_sub_cancel] at h ⊢
    rw [List.range_succ, List.map_append, List.sum_append]
    simp [h]

theorem wordHit_eq (word ctx : GoString) (c : Rune) :
    wordHit word (ctx, c) = (countPairs word ctx c : Int) := by
  unfold wordHit countPairs
  rw [sum_map_range_pred _ word.length, Nat.cast_list_sum, List.map_map]
  · congr 1
    apply List.map_congr_left
    intro i _
    exact rowHit_eq word ctx c i
  · rw [List.length_eq_zero, List.filter_eq_nil_iff]
    intro j hj
    have := List.mem_range.mp hj
    simp only [decide_eq_true_eq]
    omega

theorem vocabHit_eq (toLower : GoString → GoString) (words : List GoString) (ctx : GoString)
    (c : Rune) : vocabHit toLower words (ctx, c) = (countTriples toLower words ctx c : Int) := by
  unfold vocabHit countTriples
  rw [Nat.cast_list_sum]
  simp only [List.map_map]
  congr 1
  apply List.map_congr_left
  intro w _
  exact wordHit_eq (processWord toLower w) ctx c

theorem exists_pos_of_sum_pos (l : List Nat) (h : 0 < l.sum) : ∃ x, x ∈ l ∧ 0 < x := by
  by_contra hc
  have hz : ∀ x, x ∈ l → x = 0 := by
    intro x hx
    by_contra hne
    exact hc ⟨x, hx, Nat.pos_of_ne_zero hne⟩
  have : l.sum = 0 := List.sum_eq_zero hz
  omega

theorem countPairs_pos (word ctx : GoString) (c : Rune) (h : 0 < countPairs word ctx c) :
    ∃ b : Byte, b ∈ word ∧ (b.val : Int) = c := by
  unfold countPairs at h
  obtain ⟨x, hx, hpos⟩ := exists_pos_of_sum_pos _ h
  obtain ⟨i, _, rfl⟩ := List.mem_map.mp hx
  obtain ⟨j, hj⟩ := List.exists_mem_of_length_pos hpos
  have hj' := (List.mem_filter.mp hj).2
  simp only [decide_eq_true_eq] at hj'
  obtain ⟨_, _, _, _, hb⟩ := hj'
  cases hw : word[j]? with
  | none => rw [hw] at hb; cases hb
  | some b =>
    rw [hw] at hb
    exact ⟨b, List.getElem?_mem hw, Option.some.inj hb⟩

theorem countTriples_pos (toLower : GoString → GoString) (words : List GoString)
    (ctx : GoString) (c : Rune) (h : 0 < countTriples toLower words ctx c) :
    ∃ n : Nat, n < 256 ∧ c = (n : Int) ∧ n ∈ alphabet toLower words := by
  unfold countTriples at h
  obtain ⟨x, hx, hpos⟩ := exists_pos_of_sum_pos _ h
  obtain ⟨word, hword, rfl⟩ := List.mem_map.mp hx
  obtain ⟨b, hb, hbc⟩ := countPairs_pos word ctx c hpos
  refine ⟨b.val, b.isLt, hbc.symm, ?_⟩
  unfold alphabet
  rw [List.mem_dedup]
  exact List.mem_map.mpr ⟨b, List.mem_flatten.mpr ⟨word, hword, hb⟩, rfl⟩

theorem successors_length_le (toLower : GoString → GoString) (words : List GoString)
    (ctx : GoString) : (successors toLower words ctx).length ≤ (alphabet toLower words).length := by
  apply List.Subperm.length_le
  apply List.subperm_of_subset
  · exact List.Nodup.filter _ (List.nodup_range 256)
  · intro n hn
    unfold successors at hn
    have h := (List.mem_filter.mp hn).2
    simp only [decide_eq_true_eq] at h
    obtain ⟨m, _, hm, hmem⟩ := countTriples_pos toLower words ctx _ h
    have : n = m := by exact_mod_cast hm
    rw [this]; exact hmem

theorem fits_of_successors (toLower : GoString → GoString) (words : List GoString)
    (hfit : ∀ ctx, (successors toLower words ctx).length ≤ 29) :
    Fits (fun k => 0 + vocabHit toLower words k) := by
  intro ctx l hnd hpos
  have hsub : ∀ c, c ∈ l →
      c.toNat ∈ successors toLower words ctx ∧ ((c.toNat : Nat) : Int) = c := by
    intro c hc
    have h := hpos c hc
    simp only [zero_add] at h
    rw [vocabHit_eq] at h
    have h' : 0 < countTriples toLower words ctx c := by exact_mod_cast h
    obtain ⟨n, hn, hcn, _⟩ := countTriples_pos toLower words ctx c h'
    subst hcn
    refine ⟨?_, by simp⟩
    unfold successors
    rw [List.mem_filter]
    simp only [Int.toNat_ofNat, List.mem_range, decide_eq_true_eq]
    exact ⟨hn, h'⟩
  have hnd' : (l.map Int.toNat).Nodup := by
    apply List.Nodup.map_on _ hnd
    intro a ha b hb hab
    rw [← (hsub a ha).2, ← (hsub b hb).2, hab]
  have hle : (l.map Int.toNat).length ≤ (successors toLower words ctx).length := by
    apply List.Subperm.length_le
    apply List.subperm_of_subset hnd'
    intro n hn
    obtain ⟨c, hc, rfl⟩ := List.mem_map.mp hn
    exact (hsub c hc).1
  have := hfit ctx
  simp only [List.length_map] at hle
  omega

theorem Holds_weight (wg : WordGenerator) (N : GoString × Rune → Int) (hr : Holds wg N)
    (ctx : GoString) (c : Rune) : wg.weight ctx c = N (ctx, c) := by
  have h := hr.2 ctx
  unfold WordGenerator.weight
  cases hcd : wg.charDist ctx with
  | none =>
    rw [hcd] at h
    simp only at h ⊢
    exact (h c).symm
  | some s =>
    rw [hcd] at h
    simp only at h ⊢
    unfold Sampler.weightOf
    cases hx : s.itemToIdxMap c with
    | none =>
      simp only
      exact (h.1.zero_of_not_mem c (WF_not_mem_of_none s h.1.wf c hx)).symm
    | some i =>
      simp only
      obtain ⟨_, hic⟩ := WF_lt_of_some s h.1.wf c i hx
      exact Tracks_slice s _ h.1 i c hic

theorem Holds_registered (wg : WordGenerator) (N : GoString × Rune → Int) (hr : Holds wg N)
    (ctx : GoString) : (wg.charDist ctx).isSome = true ↔ ∃ c, 0 < N (ctx, c) := by
  have h := hr.2 ctx
  cases hcd : wg.charDist ctx with
  | none =>
    rw [hcd] at h
    simp only at h
    simp only [Option.isSome_none, Bool.false_eq_true, false_iff, not_exists]
    intro c; rw [h c]; exact lt_irrefl 0
  | some s =>
    rw [hcd] at h
    simp only at h
    simp only [Option.isSome_some, true_iff]
    obtain ⟨c, hc⟩ := List.exists_mem_of_ne_nil _ h.2.2.1
    exact ⟨c, h.2.2.2 c hc⟩

/-- C9 as stated fails on vocabularies that give some context more than 29
distinct successors: on the thirty one-letter words `a`..`z`, `0`..`3` every
word contributes its letter as a successor of the context `^` (the count for
`^` followed by `3` is 1), and `Build` panics at the thirtieth distinct `Add` on
the sampler of `^` instead of producing a model. -/
theorem build_thirty_words_counterexample :
    (match NewWordGenerator.Build asciiToLower (fun _ => zeroRand) thirtyWords with
      | .error e => some e
      | .ok _ => none) = some Fault.indexOutOfRange ∧
      thirtyWords.length = 30 ∧ thirtyWords.Nodup ∧
      countTriples asciiToLower thirtyWords [94] 51 = 1 ∧
      (thirtyWords.all (fun w => decide
        (0 < countTriples asciiToLower thirtyWords [94] ((w.headD 0).val : Int)))) = true := by
  refine ⟨by decide, by decide, by decide, by decide, by decide⟩

/-- Whenever `Build` on a fresh generator returns, the weights it leaves are the
counts of triples, and the registered contexts are those with a positive count. -/
theorem Build_counts_of_ok (toLower : GoString → GoString) (seed : GoString → Rand)
    (words : List GoString) (wg : WordGenerator)
    (hwg : NewWordGenerator.Build toLower seed words = .ok wg) :
    (∀ ctx c, wg.weight ctx c = (countTriples toLower words ctx c : Int)) ∧
      (∀ ctx, (wg.charDist ctx).isSome = true ↔ ∃ c, 0 < countTriples toLower words ctx c) := by
  have hr := Build_holds toLower seed words NewWordGenerator wg _ NewWordGenerator_holds hwg
  constructor
  · intro ctx c
    rw [Holds_weight wg _ hr ctx c, zero_add, vocabHit_eq]
  · intro ctx
    rw [Holds_registered wg _ hr ctx]
    constructor
    · rintro ⟨c, hc⟩
      rw [zero_add, vocabHit_eq] at hc
      exact ⟨c, by exact_mod_cast hc⟩
    · rintro ⟨c, hc⟩
      refine ⟨c, ?_⟩
      rw [zero_add, vocabHit_eq]
      exact_mod_cast hc

/-- C9 (amended): for every vocabulary in which no context is followed by more
than 29 distinct byte values, `Build` on a fresh generator returns, and then for
every context `ctx` and rune `c` the weight of `c` in the sampler registered for
`ctx` is the number of triples `(word, i, j)` with `word` an entry of the
normalized vocabulary (`"^" + lowercase(word) + "$"`), `i < j`, `j - i <= 3`,
`j < len(word)`, `word[i:j] = ctx` and `rune(word[j]) = c`; a sampler is
registered for `ctx` exactly when that count is positive for some `c`. -/
theorem build_counts_ngrams (toLower : GoString → GoString) (seed : GoString → Rand)
    (words : List GoString) (hfit : ∀ ctx, (successors toLower words ctx).length ≤ 29) :
    ∃ wg, NewWordGenerator.Build toLower seed words = .ok wg ∧
      (∀ ctx c, wg.weight ctx c = (countTriples toLower words ctx c : Int)) ∧
      (∀ ctx, (wg.charDist ctx).isSome = true ↔ ∃ c, 0 < countTriples toLower words ctx c) := by
  obtain ⟨wg, hwg⟩ := Build_succeeds toLower seed words NewWordGenerator _
    NewWordGenerator_holds (fits_of_successors toLower words hfit)
  exact ⟨wg, hwg, Build_counts_of_ok toLower seed words wg hwg⟩

/-- `Build(["cat", "car", "can"])` gives the context `ca` the items `t`, `r`, `n`, each
with weight 1. -/
theorem build_counts_ngrams_witness :
    ∃ wg, NewWordGenerator.Build asciiToLower (fun _ => zeroRand)
        [str "cat", str "car", str "can"] = .ok wg ∧
      (wg.charDist (str "ca")).map (fun s => s.items) = some [116, 114, 110] ∧
      wg.weight (str "ca") 116 = 1 ∧ wg.weight (str "ca") 114 = 1 ∧
      wg.weight (str "ca") 110 = 1 ∧ wg.weight (str "ca") 97 = 0 := by
  obtain ⟨wg, hwg, hw, _⟩ := build_counts_ngrams asciiToLower (fun _ => zeroRand)
    [str "cat", str "car", str "can"]
    (fun ctx => le_trans (successors_length_le _ _ ctx) (by decide))
  refine ⟨wg, hwg, ?_, ?_, ?_, ?_, ?_⟩
  · have : (NewWordGenerator.Build asciiToLower (fun _ => zeroRand)
        [str "cat", str "car", str "can"]).toOption.bind
        (fun wg => (wg.charDist (str "ca")).map (fun s => s.items)) =
        some [116, 114, 110] := by decide
    rw [hwg] at this
    exact this
  · rw [hw]; decide
  · rw [hw]; decide
  · rw [hw]; decide
  · rw [hw]; decide


theorem utf8AppendRune_charCount (r : Rune) : charCount (utf8AppendRune r) = 1 := by
  unfold utf8AppendRune charCount
  simp only
  split
  · rename_i h
    simp only [List.filter_cons, List.filter_nil, Fin.ofNat, Fin.val_mk]
    have : ¬ ((r % 4294967296).toNat % (255 + 1) / 64 = 2) := by omega
    simp [this]
  · split
    · rename_i h1 h2
      simp only [List.filter_cons, List.filter_nil, Fin.ofNat, Fin.val_mk]
      have a1 : ¬ ((192 + (r % 4294967296).toNat / 64) % (255 + 1) / 64 = 2) := by omega
      have a2 : (128 + (r % 4294967296).toNat % 64) % (255 + 1) / 64 = 2 := by omega
      simp [a1, a2]
    · split
      · decide
      · split
        · rename_i h1 h2 h3 h4
          simp only [List.filter_cons, List.filter_nil, Fin.ofNat, Fin.val_mk]
          have a1 : ¬ ((224 + (r % 4294967296).toNat / 4096) % (255 + 1) / 64 = 2) := by omega
          have a2 : (128 + (r % 4294967296).toNat / 64 % 64) % (255 + 1) / 64 = 2 := by omega
          have a3 : (128 + (r % 4294967296).toNat % 64) % (255 + 1) / 64 = 2 := by omega
          simp [a1, a2, a3]
        · rename_i h1 h2 h3 h4
          simp only [List.filter_cons, List.filter_nil, Fin.ofNat, Fin.val_mk]
          have a0 : ¬ ((240 + (r % 4294967296).toNat / 262144) % (255 + 1) / 64 = 2) := by omega
          have a1 : (128 + (r % 4294967296).toNat / 4096 % 64) % (255 + 1) / 64 = 2 := by omega
          have a2 : (128 + (r % 4294967296).toNat / 64 % 64) % (255 + 1) / 64 = 2 := by omega
          have a3 : (128 + (r % 4294967296).toNat % 64) % (255 + 1) / 64 = 2 := by omega
          simp [a0, a1, a2, a3]

theorem utf8AppendRune_length_pos (r : Rune) : 0 < (utf8AppendRune r).length := by
  unfold utf8AppendRune
  simp only
  split
  · simp
  · split
    · simp
    · split
      · simp
      · split <;> simp

theorem charCount_append (a b : GoString) : charCount (a ++ b) = charCount a + charCount b := by
  simp [charCount, List.filter_append]

theorem charCount_encodeRunes (runes : List Rune) : charCount (encodeRunes runes) = runes.length := by
  induction runes with
  | nil => rfl
  | cons r rest ih =>
    simp only [encodeRunes, charCount_append, utf8AppendRune_charCount, ih, List.length_cons]
    omega

theorem Sample_drawable {T : Type} (s : Sampler T) (hd : s.Drawable) :
    ∃ c, c ∈ s.items ∧ s.Sample =
      .ok (some c, { s with random := { draws := s.random.draws, pos := s.random.pos + 1 } }) := by
  obtain ⟨hn, hlen, htot⟩ := hd
  obtain ⟨idx, h1, _, h3, _, _⟩ := bsearchFuel_ok s.cumFreq
    ((s.random.draws s.random.pos : Int) % s.cum (s.items.length - 1))
    (s.items.length - 1 - 0 + 1) 0 (s.items.length - 1) (Nat.zero_le _) (by omega) (by omega)
  have hidx : idx < s.items.length := by omega
  exact ⟨s.items[idx], List.getElem_mem hidx, Sample_ok s idx hn hlen htot h1 hidx⟩

theorem Holds_allDrawable (wg : WordGenerator) (N : GoString × Rune → Int) (hr : Holds wg N) :
    wg.AllDrawable := by
  intro ctx s hs
  have h := hr.2 ctx
  rw [hs] at h
  simp only at h
  obtain ⟨ht, _, hne, hpos⟩ := h
  have hn : 0 < s.items.length := List.length_pos.mpr hne
  obtain ⟨_, hcpos, _, _⟩ := Tracks_cum_mono s _ ht hpos
  exact ⟨hn, ht.wf.len_le, hcpos _ (by omega)⟩

theorem generateLoop_fuel (maxLength : Int) :
    ∀ (fuel fuel' : Nat) (wg : WordGenerator) (result : GoString) (nextChar : Rune)
      (out : GoString × WordGenerator), fuel ≤ fuel' →
      generateLoop maxLength fuel wg result nextChar = .ok out →
      generateLoop maxLength fuel' wg result nextChar = .ok out := by
  intro fuel
  induction fuel with
  | zero => intro fuel' wg result nextChar out _ h; simp [generateLoop] at h
  | succ fuel ih =>
    intro fuel' wg result nextChar out hle h
    cases fuel' with
    | zero => omega
    | succ fuel' =>
      unfold generateLoop at h ⊢
      by_cases hc : nextChar ≠ 36 ∧ (result.length : Int) < maxLength
      · rw [if_pos hc] at h ⊢
        simp only at h ⊢
        generalize wg.backoff _ = ctx at h ⊢
        cases hcd : wg.charDist ctx with
        | none => rw [hcd] at h; exact h
        | some sampler =>
          rw [hcd] at h
          simp only at h ⊢
          cases hs : sampler.Sample with
          | error e => rw [hs] at h; cases h
          | ok p =>
            obtain ⟨o, s'⟩ := p
            rw [hs] at h
            cases o with
            | none => exact h
            | some c => exact ih fuel' _ _ _ out (by omega) h
      · rw [if_neg hc] at h ⊢
        exact h

theorem AllDrawable_update (wg : WordGenerator) (hd : wg.AllDrawable) (ctx : GoString)
    (s : Sampler Rune) (hs : wg.charDist ctx = some s) (g : Rand) :
    WordGenerator.AllDrawable
      { wg with charDist := Function.update wg.charDist ctx (some { s with random := g }) } := by
  intro ctx' s' hs'
  simp only at hs'
  by_cases hc : ctx' = ctx
  · subst hc
    rw [Function.update_same] at hs'
    have := Option.some.inj hs'
    rw [← this]
    exact hd ctx' s hs
  · rw [Function.update_noteq hc] at hs'
    exact hd ctx' s' hs'

theorem ItemsIn_update (wg : WordGenerator) (A : Rune → Prop) (hA : wg.ItemsIn A)
    (ctx : GoString) (s : Sampler Rune) (hs : wg.charDist ctx = some s) (g : Rand) :
    WordGenerator.ItemsIn
      { wg with charDist := Function.update wg.charDist ctx (some { s with random := g }) } A := by
  intro ctx' s' hs'
  simp only at hs'
  by_cases hc : ctx' = ctx
  · subst hc
    rw [Function.update_same] at hs'
    have := Option.some.inj hs'
    rw [← this]
    exact hA ctx' s hs
  · rw [Function.update_noteq hc] at hs'
    exact hA ctx' s' hs'

theorem Holds_itemsIn (toLower : GoString → GoString) (words : List GoString)
    (wg : WordGenerator) (hr : Holds wg (fun k => 0 + vocabHit toLower words k)) :
    wg.ItemsIn (fun c => ∃ n, n ∈ alphabet toLower words ∧ c = (n : Int)) := by
  intro ctx s hs c hc
  have h := hr.2 ctx
  rw [hs] at h
  simp only at h
  have hpos := h.2.2.2 c hc
  rw [zero_add, vocabHit_eq] at hpos
  obtain ⟨n, _, hcn, hn⟩ := countTriples_pos toLower words ctx c (by exact_mod_cast hpos)
  exact ⟨n, hn, hcn⟩

theorem utf8AppendRune_length_ascii (r : Int) (h0 : 0 ≤ r) (h1 : r < 128) :
    (utf8AppendRune r).length = 1 := by
  unfold utf8AppendRune
  simp only
  rw [if_pos (by omega)]
  rfl

theorem encodeRunes_length_ascii (runes : List Rune)
    (h : ∀ r, r ∈ runes → 0 ≤ r ∧ r < 128) : (encodeRunes runes).length = runes.length := by
  induction runes with
  | nil => rfl
  | cons r rest ih =>
    have hr := h r (List.mem_cons_self _ _)
    rw [encodeRunes, List.length_append, utf8AppendRune_length_ascii r hr.1 hr.2,
      ih (fun x hx => h x (List.mem_cons_of_mem _ hx)), List.length_cons]
    omega

theorem generateLoop_ok (maxLength : Int) (A : Rune → Prop) :
    ∀ (fuel : Nat) (wg : WordGenerator) (result : GoString) (nextChar : Rune),
      wg.AllDrawable → wg.ItemsIn A → (maxLength - (result.length : Int)).toNat < fuel →
      ∃ res wg' runes, generateLoop maxLength fuel wg result nextChar = .ok (res, wg') ∧
        res = result ++ encodeRunes runes ∧
        (runes = [] ∨ (result.length : Int) + (runes.length : Int) ≤ maxLength) ∧
        ∀ r, r ∈ runes → A r := by
  intro fuel
  induction fuel with
  | zero => intro wg result nextChar _ _ h; omega
  | succ fuel ih =>
    intro wg result nextChar hd hA hfuel
    unfold generateLoop
    by_cases hc : nextChar ≠ 36 ∧ (result.length : Int) < maxLength
    · rw [if_pos hc]
      simp only
      generalize wg.backoff _ = ctx
      cases hcd : wg.charDist ctx with
      | none =>
        exact ⟨result, wg, [], rfl, by simp [encodeRunes], Or.inl rfl, by simp⟩
      | some sampler =>
        simp only
        obtain ⟨c, hmem, hs⟩ := Sample_drawable sampler (hd ctx sampler hcd)
        rw [hs]
        simp only
        have hlen := utf8AppendRune_length_pos c
        obtain ⟨res, wg', runes, h1, h2, h3, h4⟩ := ih _ (result ++ utf8AppendRune c) c
          (AllDrawable_update wg hd ctx sampler hcd _) (ItemsIn_update wg A hA ctx sampler hcd _)
          (by simp only [List.length_append]; push_cast; omega)
        refine ⟨res, wg', c :: runes, h1, ?_, Or.inr ?_, ?_⟩
        · rw [h2, encodeRunes, List.append_assoc]
        · simp only [List.length_cons]
          push_cast
          rcases h3 with h3 | h3
          · subst h3
            simp only [List.length_nil, Nat.cast_zero]
            omega
          · simp only [List.length_append] at h3
            push_cast at h3
            omega
        · intro r hr
          rcases List.mem_cons.mp hr with hr' | hr'
          · rw [hr']; exact hA ctx sampler hcd c hmem
          · exact h4 r hr'
    · rw [if_neg hc]
      exact ⟨result, wg, [], rfl, by simp [encodeRunes], Or.inl rfl, by simp⟩

theorem bsearchTrace_fst (cum : List Int) (target : Int) : ∀ (fuel l r : Nat),
    (bsearchTrace cum fuel l r target).1 = bsearchFuel cum fuel l r target := by
  intro fuel
  induction fuel with
  | zero => intro l r; rfl
  | succ fuel ih =>
    intro l r
    unfold bsearchTrace bsearchFuel
    by_cases hlr : l = r
    · simp [hlr]
    · rw [if_neg hlr, if_neg hlr]
      simp only
      cases hm : cum[l + (r - l) / 2]? with
      | none => rfl
      | some c =>
        simp only
        by_cases hc : c > target
        · rw [if_pos hc, if_pos hc]; exact ih _ _
        · rw [if_neg hc, if_neg hc]; exact ih _ _

theorem bsearchTrace_reads (cum : List Int) (target : Int) : ∀ (fuel l r : Nat), l ≤ r →
    (∀ m, m ∈ (bsearchTrace cum fuel l r target).2 → l ≤ m ∧ m < r) ∧
      (bsearchTrace cum fuel l r target).2.length ≤ r - l := by
  intro fuel
  induction fuel with
  | zero => intro l r _; simp [bsearchTrace]
  | succ fuel ih =>
    intro l r hlr
    unfold bsearchTrace
    by_cases heq : l = r
    · simp [heq]
    · rw [if_neg heq]
      simp only
      have hm1 : l ≤ l + (r - l) / 2 := by omega
      have hm2 : l + (r - l) / 2 < r := by omega
      cases hm : cum[l + (r - l) / 2]? with
      | none =>
        simp only [List.mem_singleton, List.length_singleton]
        refine ⟨fun m hmm => by subst hmm; exact ⟨hm1, hm2⟩, by omega⟩
      | some c =>
        simp only
        by_cases hc : c > target
        · rw [if_pos hc]
          obtain ⟨h1, h2⟩ := ih l (l + (r - l) / 2) hm1
          refine ⟨fun m hmm => ?_, ?_⟩
          · rcases List.mem_cons.mp hmm with h | h
            · subst h; exact ⟨hm1, hm2⟩
            · have := h1 m h; omega
          · simp only [List.length_cons]; omega
        · rw [if_neg hc]
          obtain ⟨h1, h2⟩ := ih (l + (r - l) / 2 + 1) r (by omega)
          refine ⟨fun m hmm => ?_, ?_⟩
          · rcases List.mem_cons.mp hmm with h | h
            · subst h; exact ⟨hm1, hm2⟩
            · have := h1 m h; omega
          · simp only [List.length_cons]; omega

/-- C16: the index search is total and stays in bounds.  On a sampler with a
`cumFreq` slot for every registered item (as `NewSampler` and `Add` keep it),
whatever the contents of `cumFreq`, for every target and all `l <= r <
len(items)`: `bsearch(l, r, target)` returns an index `idx` with `l <= idx <= r`
(with any fuel above `r - l`, so the fuel of the embedding never runs out); the
search with a log of its reads returns the same result, reads `cumFreq` only at
indices `m` with `l <= m < r`, and makes at most `r - l` reads; and a call with
`l < r` reads the midpoint `m = l + (r-l)/2`, which lies in `[l, r)`, and calls
itself on `(l, m)` or on `(m+1, r)`, both with a smaller `r - l`. -/
theorem bsearch_total_in_bounds {T : Type} (s : Sampler T) (target : Int) (l r : Nat)
    (hlr : l ≤ r) (hr : r < s.items.length) (hcap : s.items.length ≤ s.cumFreq.length) :
    (∃ idx, s.bsearch l r target = .ok idx ∧ l ≤ idx ∧ idx ≤ r ∧
        ∀ fuel, r - l < fuel → bsearchFuel s.cumFreq fuel l r target = .ok idx) ∧
      (bsearchTrace s.cumFreq (r - l + 1) l r target).1 = s.bsearch l r target ∧
      (∀ m, m ∈ (bsearchTrace s.cumFreq (r - l + 1) l r target).2 → l ≤ m ∧ m < r) ∧
      (bsearchTrace s.cumFreq (r - l + 1) l r target).2.length ≤ r - l ∧
      (l < r → ∀ fuel,
        l ≤ l + (r - l) / 2 ∧ l + (r - l) / 2 < r ∧
        (l + (r - l) / 2) - l < r - l ∧ r - (l + (r - l) / 2 + 1) < r - l ∧
        bsearchFuel s.cumFreq (fuel + 1) l r target =
          if s.cum (l + (r - l) / 2) > target
          then bsearchFuel s.cumFreq fuel l (l + (r - l) / 2) target
          else bsearchFuel s.cumFreq fuel (l + (r - l) / 2 + 1) r target) := by
  obtain ⟨idx, hidx, h1, h2, -, -⟩ :=
    bsearchFuel_ok s.cumFreq target (r - l + 1) l r hlr (by omega) (by omega)
  refine ⟨⟨idx, hidx, h1, h2, fun fuel hf => ?_⟩, bsearchTrace_fst _ _ _ _ _,
    (bsearchTrace_reads _ _ _ _ _ hlr).1, (bsearchTrace_reads _ _ _ _ _ hlr).2, ?_⟩
  · rw [bsearchFuel_fuel s.cumFreq target fuel (r - l + 1) l r hlr hf (by omega)]
    exact hidx
  · intro hl fuel
    refine ⟨by omega, by omega, by omega, by omega, ?_⟩
    have hm : l + (r - l) / 2 < s.cumFreq.length := by omega
    have hne : l ≠ r := by omega
    simp only [bsearchFuel, if_neg hne, Sampler.cum, List.getD_eq_getElem?_getD,
      List.getElem?_eq_getElem hm, Option.getD_some]

set_option maxRecDepth 100000

theorem asciiToLower_idem (w : GoString) : asciiToLower (asciiToLower w) = asciiToLower w := by
  have h : ∀ b : Byte,
      (fun b : Byte => if 65 ≤ b.val ∧ b.val ≤ 90 then b + 32 else b)
        ((fun b : Byte => if 65 ≤ b.val ∧ b.val ≤ 90 then b + 32 else b) b) =
      (fun b : Byte => if 65 ≤ b.val ∧ b.val ≤ 90 then b + 32 else b) b := by decide
  unfold asciiToLower
  rw [List.map_map]
  exact List.map_congr_left (fun b _ => h b)

theorem countPairs_pos_full (word ctx : GoString) (c : Rune) (h : 0 < countPairs word ctx c) :
    ∃ (i j : Nat) (b : Byte), i < j ∧ j - i ≤ 3 ∧ j < word.length ∧
      (word.drop i).take (j - i) = ctx ∧ word[j]? = some b ∧ (b.val : Int) = c := by
  unfold countPairs at h
  obtain ⟨x, hx, hpos⟩ := exists_pos_of_sum_pos _ h
  obtain ⟨i, _, rfl⟩ := List.mem_map.mp hx
  obtain ⟨j, hj⟩ := List.exists_mem_of_length_pos hpos
  have hj' := (List.mem_filter.mp hj).2
  simp only [decide_eq_true_eq] at hj'
  obtain ⟨h1, h2, h3, h4, hb⟩ := hj'
  cases hw : word[j]? with
  | none => rw [hw] at hb; cases hb
  | some b =>
    rw [hw] at hb
    exact ⟨i, j, b, h1, h2, h3, h4, hw, Option.some.inj hb⟩

theorem countTriples_pos_full (toLower : GoString → GoString) (words : List GoString)
    (ctx : GoString) (c : Rune) (h : 0 < countTriples toLower words ctx c) :
    ∃ (word : GoString) (i j : Nat) (b : Byte), word ∈ normalized toLower words ∧
      i < j ∧ j - i ≤ 3 ∧ j < word.length ∧
      (word.drop i).take (j - i) = ctx ∧ word[j]? = some b ∧ (b.val : Int) = c := by
  unfold countTriples at h
  obtain ⟨x, hx, hpos⟩ := exists_pos_of_sum_pos _ h
  obtain ⟨word, hword, rfl⟩ := List.mem_map.mp hx
  obtain ⟨i, j, b, h1⟩ := countPairs_pos_full word ctx c hpos
  exact ⟨word, i, j, b, hword, h1⟩

theorem le_sum_of_mem_nat (l : List Nat) (x : Nat) (h : x ∈ l) : x ≤ l.sum := by
  induction l with
  | nil => cases h
  | cons a rest ih =>
    rw [List.sum_cons]
    rcases List.mem_cons.mp h with h | h
    · omega
    · have := ih h; omega

theorem countPairs_pos_of (word : GoString) (i j : Nat) (b : Byte) (hij : i < j)
    (hk : j - i ≤ 3) (hj : j < word.length) (hb : word[j]? = some b) :
    0 < countPairs word ((word.drop i).take (j - i)) (b.val : Int) := by
  unfold countPairs
  have hmem : j ∈ (List.range word.length).filter (fun j' =>
      decide (i < j' ∧ j' - i ≤ 3 ∧ j' < word.length ∧
        (word.drop i).take (j' - i) = (word.drop i).take (j - i) ∧
        (word[j']?).map (fun b => (b.val : Int)) = some (b.val : Int))) := by
    rw [List.mem_filter]
    refine ⟨List.mem_range.mpr hj, ?_⟩
    rw [decide_eq_true_eq]
    exact ⟨hij, hk, hj, rfl, by rw [hb]; rfl⟩
  have hlen := List.length_pos_of_mem hmem
  refine lt_of_lt_of_le hlen (le_sum_of_mem_nat _ _ ?_)
  exact List.mem_map.mpr ⟨i, List.mem_range.mpr (by omega), rfl⟩

theorem countTriples_pos_of (toLower : GoString → GoString) (words : List GoString)
    (word : GoString) (hword : word ∈ normalized toLower words) (i j : Nat) (b : Byte)
    (hij : i < j) (hk : j - i ≤ 3) (hj : j < word.length) (hb : word[j]? = some b) :
    0 < countTriples toLower words ((word.drop i).take (j - i)) (b.val : Int) := by
  unfold countTriples
  refine lt_of_lt_of_le (countPairs_pos_of word i j b hij hk hj hb) (le_sum_of_mem_nat _ _ ?_)
  exact List.mem_map.mpr ⟨word, hword, rfl⟩

/-- Registered contexts and items of a generator that holds the counts of a
vocabulary, in terms of the counts. -/
theorem Holds_vocab (toLower : GoString → GoString) (words : List GoString)
    (wg : WordGenerator) (hr : Holds wg (fun k => 0 + vocabHit toLower words k))
    (ctx : GoString) (s : Sampler Rune) (hs : wg.charDist ctx = some s) (c : Rune)
    (hc : c ∈ s.items) : 0 < countTriples toLower words ctx c := by
  have h := hr.2 ctx
  rw [hs] at h
  simp only at h
  have hpos := h.2.2.2 c hc
  rw [zero_add, vocabHit_eq] at hpos
  exact_mod_cast hpos

theorem Holds_registered_of_count (toLower : GoString → GoString) (words : List GoString)
    (wg : WordGenerator) (hr : Holds wg (fun k => 0 + vocabHit toLower words k))
    (ctx : GoString) (c : Rune) (hc : 0 < countTriples toLower words ctx c) :
    ∃ s, wg.charDist ctx = some s := by
  have h := (Holds_registered wg _ hr ctx).mpr ⟨c, by
    show 0 < 0 + vocabHit toLower words (ctx, c)
    rw [zero_add, vocabHit_eq]; exact_mod_cast hc⟩
  exact Option.isSome_iff_exists.mp h

/-- The lower-case letters and the two markers. -/
theorem lower_letterOrMarker : ∀ b : Byte, isLetterOrMarker b = true →
    ((if 65 ≤ b.val ∧ b.val ≤ 90 then b + 32 else b : Byte).val ∈
      (List.range 26).map (fun n => 97 + n) ++ [94, 36]) := by
  decide

theorem alphabet_letters (toLower : GoString → GoString) (words : List GoString)
    (hletters : ∀ w, w ∈ words → ∀ b, b ∈ w → isLetterOrMarker b = true)
    (hlower : ∀ w, w ∈ words → toLower w = asciiToLower w) :
    (∀ n, n ∈ alphabet toLower words → n ∈ (List.range 26).map (fun n => 97 + n) ++ [94, 36]) ∧
      (alphabet toLower words).length ≤ 28 := by
  have hsub : ∀ n, n ∈ alphabet toLower words →
      n ∈ (List.range 26).map (fun n => 97 + n) ++ [94, 36] := by
    intro n hn
    unfold alphabet at hn
    rw [List.mem_dedup] at hn
    obtain ⟨b, hb, rfl⟩ := List.mem_map.mp hn
    obtain ⟨word, hword, hbw⟩ := List.mem_flatten.mp hb
    obtain ⟨w, hw, rfl⟩ := List.mem_map.mp hword
    unfold processWord at hbw
    rw [hlower w hw] at hbw
    rcases List.mem_append.mp hbw with hbw | hbw
    · rcases List.mem_append.mp hbw with hbw | hbw
      · rw [List.mem_singleton] at hbw; subst hbw; decide
      · unfold asciiToLower at hbw
        obtain ⟨b0, hb0, rfl⟩ := List.mem_map.mp hbw
        exact lower_letterOrMarker b0 (hletters w hw b0 hb0)
    · rw [List.mem_singleton] at hbw; subst hbw; decide
  refine ⟨hsub, ?_⟩
  have h := List.Subperm.length_le
    (List.subperm_of_subset (List.nodup_dedup _) hsub)
  exact h

/-- The search on the three items with `cumFreq = [1, 3, 6]`: `bsearch(0, 2, 2)` returns
index 1 and reads `cumFreq[1]` and `cumFreq[0]`. -/
theorem bsearch_total_in_bounds_witness :
    ∃ idx, (Sampler.mk (fun _ => none) [7, 8, 9] [1, 3, 6] zeroRand).bsearch 0 2 2 = .ok idx ∧
      idx = 1 ∧
      (bsearchTrace [1, 3, 6] 3 0 2 2).2 = [1, 0] ∧
      ∀ m, m ∈ (bsearchTrace [1, 3, 6] 3 0 2 2).2 → 0 ≤ m ∧ m < 2 := by
  obtain ⟨⟨idx, h1, _, _, _⟩, _, h3, _, _⟩ :=
    bsearch_total_in_bounds (Sampler.mk (fun _ => none) [7, 8, 9] [1, 3, 6] zeroRand) 2 0 2
      (by decide) (by decide) (by decide)
  refine ⟨idx, h1, ?_, by decide, h3⟩
  have h2 : (Sampler.mk (fun _ => none) [7, 8, 9] [1, 3, 6] zeroRand).bsearch 0 2 2 = .ok 1 := rfl
  rw [h2] at h1
  exact (Except.ok.inj h1).symm

/-- C14: when lower-casing a lower-cased word changes nothing (as for
`strings.ToLower`), `Build` on a fresh generator gives the same outcome on a
vocabulary and on the vocabulary with every word lower-cased: both panic alike
or both return the same generator, so the same contexts are registered with the
same items in the same order and the same `cumFreq`; `Build` runs `addWord` on
`"^" + lowercase(word) + "$"` for each word in order. -/
theorem build_case_insensitive (toLower : GoString → GoString) (seed : GoString → Rand)
    (words : List GoString) (hidem : ∀ w, w ∈ words → toLower (toLower w) = toLower w) :
    NewWordGenerator.Build toLower seed (words.map toLower) =
        NewWordGenerator.Build toLower seed words ∧
      (∀ wg wg', NewWordGenerator.Build toLower seed words = .ok wg →
        NewWordGenerator.Build toLower seed (words.map toLower) = .ok wg' →
        wg'.table = wg.table) ∧
      NewWordGenerator.Build toLower seed words =
        forEachM (WordGenerator.addWord seed)
          (words.map (fun w => [94] ++ toLower w ++ [36])) NewWordGenerator := by
  have hmap : (words.map toLower).map (processWord toLower) = words.map (processWord toLower) := by
    rw [List.map_map]
    apply List.map_congr_left
    intro w hw
    simp only [Function.comp, processWord, hidem w hw]
  have h1 : NewWordGenerator.Build toLower seed (words.map toLower) =
      NewWordGenerator.Build toLower seed words := by
    unfold WordGenerator.Build
    rw [hmap]
  refine ⟨h1, ?_, rfl⟩
  intro wg wg' hwg hwg'
  rw [h1, hwg] at hwg'
  rw [Except.ok.inj hwg']

/-- `Build(["Cat", "cAT"])` and `Build(["cat", "cat"])` register the same sampler for
`ca`: the item `t` with cumulative weight 2. -/
theorem build_case_insensitive_witness :
    ∃ wg wg', NewWordGenerator.Build asciiToLower (fun _ => zeroRand)
        [str "Cat", str "cAT"] = .ok wg ∧
      NewWordGenerator.Build asciiToLower (fun _ => zeroRand)
        ([str "Cat", str "cAT"].map asciiToLower) = .ok wg' ∧
      [str "Cat", str "cAT"].map asciiToLower = [str "cat", str "cat"] ∧
      wg'.table = wg.table ∧
      (wg.table (str "ca")).map (fun p => (p.1, p.2.take 1)) = some ([116], [2]) := by
  obtain ⟨wg, hwg⟩ := exists_ok_of_toBool (NewWordGenerator.Build asciiToLower
    (fun _ => zeroRand) [str "Cat", str "cAT"]) (by decide)
  obtain ⟨h1, h2, _⟩ := build_case_insensitive asciiToLower (fun _ => zeroRand)
    [str "Cat", str "cAT"] (fun w _ => asciiToLower_idem w)
  refine ⟨wg, wg, hwg, by rw [h1, hwg], by decide, rfl, ?_⟩
  have : ((NewWordGenerator.Build asciiToLower (fun _ => zeroRand)
      [str "Cat", str "cAT"]).toOption.bind
      (fun wg => (wg.table (str "ca")).map (fun p => (p.1, p.2.take 1)))) =
      some ([116], [2]) := by decide
  rw [hwg] at this
  simpa only [Except.toOption, Option.some_bind] using this

/-- C17: for every vocabulary whose words consist of ASCII letters and the
markers `^` and `$` (on such words `strings.ToLower` is the ASCII lower-casing),
`Build` on a fresh generator returns without a panic, so no write to
`cumFreq[idx]` is out of range; every sampler of the model has distinct items,
at most 28 of them (26 lower-case letters and the two markers), in its 29
`cumFreq` slots. -/
theorem build_ascii_within_capacity (toLower : GoString → GoString) (seed : GoString → Rand)
    (words : List GoString)
    (hletters : ∀ w, w ∈ words → ∀ b, b ∈ w → isLetterOrMarker b = true)
    (hlower : ∀ w, w ∈ words → toLower w = asciiToLower w) :
    ∃ wg, NewWordGenerator.Build toLower seed words = .ok wg ∧
      (∀ ctx, (successors toLower words ctx).length ≤ 28) ∧
      ∀ ctx s, wg.charDist ctx = some s →
        s.items.Nodup ∧ s.items.length ≤ 28 ∧ s.cumFreq.length = 29 ∧
          s.items.length < s.cumFreq.length := by
  have halpha := alphabet_letters toLower words hletters hlower
  have hsucc : ∀ ctx, (successors toLower words ctx).length ≤ 28 := fun ctx =>
    le_trans (successors_length_le toLower words ctx) halpha.2
  obtain ⟨wg, hwg⟩ := Build_succeeds toLower seed words NewWordGenerator _
    NewWordGenerator_holds
    (fits_of_successors toLower words (fun ctx => le_trans (hsucc ctx) (by decide)))
  have hr := Build_holds toLower seed words NewWordGenerator wg _ NewWordGenerator_holds hwg
  refine ⟨wg, hwg, hsucc, ?_⟩
  intro ctx s hs
  have h := hr.2 ctx
  rw [hs] at h
  simp only at h
  obtain ⟨ht, hcap, _, _⟩ := h
  have hitems := Holds_itemsIn toLower words wg hr ctx s hs
  have hlen : s.items.length ≤ 28 := by
    have hnd' : (s.items.map Int.toNat).Nodup := by
      apply List.Nodup.map_on _ ht.wf.nodup
      intro a ha b hb hab
      obtain ⟨n, _, rfl⟩ := hitems a ha
      obtain ⟨m, _, rfl⟩ := hitems b hb
      simp only [Int.toNat_ofNat] at hab
      rw [hab]
    have hle : (s.items.map Int.toNat).length ≤ (alphabet toLower words).length := by
      apply List.Subperm.length_le
      apply List.subperm_of_subset hnd'
      intro n hn
      obtain ⟨c, hc, rfl⟩ := List.mem_map.mp hn
      obtain ⟨m, hm, rfl⟩ := hitems c hc
      simpa only [Int.toNat_ofNat] using hm
    rw [List.length_map] at hle
    exact le_trans hle halpha.2
  exact ⟨ht.wf.nodup, hlen, hcap, by omega⟩

/-- `Build(["Hello", "WORLD", "a^b$"])` returns. -/
theorem build_ascii_within_capacity_witness :
    ∃ wg, NewWordGenerator.Build asciiToLower (fun _ => zeroRand)
        [str "Hello", str "WORLD", str "a^b$"] = .ok wg ∧
      ∀ ctx s, wg.charDist ctx = some s → s.items.length < s.cumFreq.length := by
  obtain ⟨wg, hwg, _, h⟩ := build_ascii_within_capacity asciiToLower (fun _ => zeroRand)
    [str "Hello", str "WORLD", str "a^b$"] (by decide) (fun _ _ => rfl)
  exact ⟨wg, hwg, fun ctx s hs => (h ctx s hs).2.2.2⟩

/-- C18: in every model `Build` produces on a fresh generator, a registered
context has between 1 and 3 bytes, and its sampler has at least one item, a
positive weight for every item and a positive total `cumFreq[len(items)-1]`;
whatever the state of its random source, `Sample` on it returns one of its
items (never `nil`, never a panic) and advances the source. -/
theorem built_contexts_drawable (toLower : GoString → GoString) (seed : GoString → Rand)
    (words : List GoString) (wg : WordGenerator)
    (hbuild : NewWordGenerator.Build toLower seed words = .ok wg)
    (ctx : GoString) (s : Sampler Rune) (hs : wg.charDist ctx = some s) :
    1 ≤ ctx.length ∧ ctx.length ≤ 3 ∧ s.items ≠ [] ∧
      (∀ c, c ∈ s.items → 0 < s.weightOf c) ∧
      0 < s.cum (s.items.length - 1) ∧
      ∀ g : Rand, ∃ c, c ∈ s.items ∧
        (Sampler.mk s.itemToIdxMap s.items s.cumFreq g).Sample =
          .ok (some c, Sampler.mk s.itemToIdxMap s.items s.cumFreq
            { draws := g.draws, pos := g.pos + 1 }) := by
  have hr := Build_holds toLower seed words NewWordGenerator wg _ NewWordGenerator_holds hbuild
  have hd := Holds_allDrawable wg _ hr ctx s hs
  have h := hr.2 ctx
  rw [hs] at h
  simp only at h
  obtain ⟨ht, _, hne, hpos⟩ := h
  obtain ⟨c0, hc0⟩ := List.exists_mem_of_ne_nil _ hne
  obtain ⟨word, i, j, b, _, hij, hk, hj, hctx, _, _⟩ :=
    countTriples_pos_full toLower words ctx c0 (Holds_vocab toLower words wg hr ctx s hs c0 hc0)
  have hlen : ctx.length = j - i := by
    rw [← hctx, List.length_take, List.length_drop]
    omega
  refine ⟨by omega, by omega, hne, ?_, hd.2.2, ?_⟩
  · intro c hc
    have hw := Holds_weight wg _ hr ctx c
    unfold WordGenerator.weight at hw
    rw [hs] at hw
    simp only at hw
    rw [hw]
    exact hpos c hc
  · intro g
    exact Sample_drawable (Sampler.mk s.itemToIdxMap s.items s.cumFreq g) hd

/-- In the model of `["cat"]` the context `ca` has two bytes and its sampler
returns `t` at every draw. -/
theorem built_contexts_drawable_witness :
    ∃ wg s, NewWordGenerator.Build asciiToLower (fun _ => zeroRand) [str "cat"] = .ok wg ∧
      wg.charDist (str "ca") = some s ∧ s.items = [116] ∧
      1 ≤ (str "ca").length ∧ (str "ca").length ≤ 3 ∧ 0 < s.cum (s.items.length - 1) := by
  obtain ⟨wg, hwg⟩ := exists_ok_of_toBool (NewWordGenerator.Build asciiToLower
    (fun _ => zeroRand) [str "cat"]) (by decide)
  have hsome : ((NewWordGenerator.Build asciiToLower (fun _ => zeroRand)
      [str "cat"]).toOption.bind
      (fun wg => (wg.charDist (str "ca")).map (fun s => s.items))) = some [116] := by decide
  rw [hwg] at hsome
  simp only [Except.toOption, Option.some_bind] at hsome
  obtain ⟨s, hs, hitems⟩ := Option.map_eq_some'.mp hsome
  obtain ⟨h1, h2, _, _, h5, _⟩ :=
    built_contexts_drawable asciiToLower (fun _ => zeroRand) [str "cat"] wg hwg (str "ca") s hs
  exact ⟨wg, s, hwg, hs, hitems, h1, h2, h5⟩

theorem Sample_some {T : Type} (s : Sampler T) (c : T) (s' : Sampler T)
    (h : s.Sample = .ok (some c, s')) :
    c ∈ s.items ∧
      s' = { s with random := { draws := s.random.draws, pos := s.random.pos + 1 } } := by
  unfold Sampler.Sample at h
  by_cases h0 : s.items.length = 0
  · rw [if_pos h0] at h
    cases h
  · rw [if_neg h0] at h
    cases hc : s.cumFreq[s.items.length - 1]? with
    | none => rw [hc] at h; cases h
    | some total =>
      rw [hc] at h
      simp only at h
      unfold Rand.Intn at h
      by_cases ht : total ≤ 0
      · rw [if_pos ht] at h; cases h
      · rw [if_neg ht] at h
        simp only at h
        cases hb : s.bsearch 0 (s.items.length - 1)
            ((s.random.draws s.random.pos : Int) % total) with
        | error e => rw [hb] at h; cases h
        | ok idx =>
          rw [hb] at h
          simp only at h
          cases hi : s.items[idx]? with
          | none => rw [hi] at h; cases h
          | some item =>
            rw [hi] at h
            simp only at h
            have h' := Except.ok.inj h
            have h1 : item = c := Option.some.inj (congrArg Prod.fst h')
            have h2 := congrArg Prod.snd h'
            simp only at h2
            subst h1
            exact ⟨List.getElem?_mem hi, h2.symm⟩

theorem Sample_none {T : Type} (s : Sampler T) (s' : Sampler T)
    (h : s.Sample = .ok (none, s')) : s.items = [] := by
  unfold Sampler.Sample at h
  by_cases h0 : s.items.length = 0
  · exact List.length_eq_zero.mp h0
  · rw [if_neg h0] at h
    cases hc : s.cumFreq[s.items.length - 1]? with
    | none => rw [hc] at h; cases h
    | some total =>
      rw [hc] at h
      simp only at h
      unfold Rand.Intn at h
      by_cases ht : total ≤ 0
      · rw [if_pos ht] at h; cases h
      · rw [if_neg ht] at h
        simp only at h
        cases hb : s.bsearch 0 (s.items.length - 1)
            ((s.random.draws s.random.pos : Int) % total) with
        | error e => rw [hb] at h; cases h
        | ok idx =>
          rw [hb] at h
          simp only at h
          cases hi : s.items[idx]? with
          | none => rw [hi] at h; cases h
          | some item =>
            rw [hi] at h
            simp only at h
            have h' := Except.ok.inj h
            have h1 := congrArg Prod.fst h'
            cases h1

/-! ### The loop of `Generate`, one iteration at a time -/

theorem generateLoop_exit (maxLength : Int) (fuel : Nat) (wg : WordGenerator)
    (result : GoString) (nextChar : Rune)
    (hc : ¬ (nextChar ≠ 36 ∧ (result.length : Int) < maxLength)) :
    generateLoop maxLength (fuel + 1) wg result nextChar = .ok (result, wg) := by
  unfold generateLoop
  rw [if_neg hc]

theorem generateLoop_none (maxLength : Int) (fuel : Nat) (wg : WordGenerator)
    (result : GoString) (nextChar : Rune)
    (hc : nextChar ≠ 36 ∧ (result.length : Int) < maxLength)
    (hctx : wg.charDist (wg.backoff (wg.candidate result)) = none) :
    generateLoop maxLength (fuel + 1) wg result nextChar = .ok (result, wg) := by
  unfold generateLoop
  rw [if_pos hc]
  unfold WordGenerator.candidate at hctx
  simp only
  rw [hctx]

theorem generateLoop_sample (maxLength : Int) (fuel : Nat) (wg : WordGenerator)
    (result : GoString) (nextChar : Rune)
    (hc : nextChar ≠ 36 ∧ (result.length : Int) < maxLength)
    (sampler : Sampler Rune)
    (hctx : wg.charDist (wg.backoff (wg.candidate result)) = some sampler) :
    generateLoop maxLength (fuel + 1) wg result nextChar =
      match sampler.Sample with
      | .error e => .error e
      | .ok (none, _) => .ok (result, wg)
      | .ok (some c, sampler') =>
        generateLoop maxLength fuel
          (wg.withSampler (wg.backoff (wg.candidate result)) sampler')
          (result ++ utf8AppendRune c) c := by
  conv_lhs => unfold generateLoop
  rw [if_pos hc]
  unfold WordGenerator.candidate at hctx
  simp only
  rw [hctx]
  simp only
  cases hs : sampler.Sample with
  | error e => rfl
  | ok p =>
    obtain ⟨o, s'⟩ := p
    cases o with
    | none => rfl
    | some c => rfl

theorem generateLoop_continue (maxLength : Int) (fuel : Nat) (wg : WordGenerator)
    (result : GoString) (nextChar : Rune)
    (hc : nextChar ≠ 36 ∧ (result.length : Int) < maxLength)
    (sampler sampler' : Sampler Rune) (c : Rune)
    (hctx : wg.charDist (wg.backoff (wg.candidate result)) = some sampler)
    (hs : sampler.Sample = .ok (some c, sampler')) :
    generateLoop maxLength (fuel + 1) wg result nextChar =
      generateLoop maxLength fuel
        (wg.withSampler (wg.backoff (wg.candidate result)) sampler')
        (result ++ utf8AppendRune c) c := by
  rw [generateLoop_sample maxLength fuel wg result nextChar hc sampler hctx, hs]

theorem generateLoop_empty (maxLength : Int) (fuel : Nat) (wg : WordGenerator)
    (result : GoString) (nextChar : Rune)
    (hc : nextChar ≠ 36 ∧ (result.length : Int) < maxLength)
    (sampler sampler' : Sampler Rune)
    (hctx : wg.charDist (wg.backoff (wg.candidate result)) = some sampler)
    (hs : sampler.Sample = .ok (none, sampler')) :
    generateLoop maxLength (fuel + 1) wg result nextChar = .ok (result, wg) := by
  rw [generateLoop_sample maxLength fuel wg result nextChar hc sampler hctx, hs]

theorem generateLoop_panic (maxLength : Int) (fuel : Nat) (wg : WordGenerator)
    (result : GoString) (nextChar : Rune)
    (hc : nextChar ≠ 36 ∧ (result.length : Int) < maxLength)
    (sampler : Sampler Rune) (e : Fault)
    (hctx : wg.charDist (wg.backoff (wg.candidate result)) = some sampler)
    (hs : sampler.Sample = .error e) :
    generateLoop maxLength (fuel + 1) wg result nextChar = .error e := by
  rw [generateLoop_sample maxLength fuel wg result nextChar hc sampler hctx, hs]

/-- Invariants of the loop of `Generate`: a property of the loop state that
every iteration keeps holds of the state in which the loop is left, and the
loop is left because the loop condition fails, because no sampler is found, or
because the sampler found is empty. -/
theorem generateLoop_induct (maxLength : Int) (I : WordGenerator → GoString → Rune → Prop)
    (hstep : ∀ wg result nextChar sampler c sampler', I wg result nextChar →
      (nextChar ≠ 36 ∧ (result.length : Int) < maxLength) →
      wg.charDist (wg.backoff (wg.candidate result)) = some sampler →
      sampler.Sample = .ok (some c, sampler') →
      I (wg.withSampler (wg.backoff (wg.candidate result)) sampler')
        (result ++ utf8AppendRune c) c) :
    ∀ (fuel : Nat) (wg : WordGenerator) (result : GoString) (nextChar : Rune)
      (res : GoString) (wg' : WordGenerator), I wg result nextChar →
      generateLoop maxLength fuel wg result nextChar = .ok (res, wg') →
      ∃ last, I wg' res last ∧
        (¬ (last ≠ 36 ∧ (res.length : Int) < maxLength) ∨
          wg'.charDist (wg'.backoff (wg'.candidate res)) = none ∨
          ∃ sampler, wg'.charDist (wg'.backoff (wg'.candidate res)) = some sampler ∧
            sampler.items = []) := by
  intro fuel
  induction fuel with
  | zero => intro wg result nextChar res wg' _ h; simp [generateLoop] at h
  | succ fuel ih =>
    intro wg result nextChar res wg' hI h
    by_cases hc : nextChar ≠ 36 ∧ (result.length : Int) < maxLength
    · cases hcd : wg.charDist (wg.backoff (wg.candidate result)) with
      | none =>
        rw [generateLoop_none maxLength fuel wg result nextChar hc hcd] at h
        have h' := Except.ok.inj h
        have h1 : result = res := congrArg Prod.fst h'
        have h2 : wg = wg' := congrArg Prod.snd h'
        subst h1; subst h2
        exact ⟨nextChar, hI, Or.inr (Or.inl hcd)⟩
      | some sampler =>
        cases hs : sampler.Sample with
        | error e =>
          rw [generateLoop_panic maxLength fuel wg result nextChar hc sampler e hcd hs] at h
          cases h
        | ok p =>
          obtain ⟨o, s'⟩ := p
          cases o with
          | none =>
            rw [generateLoop_empty maxLength fuel wg result nextChar hc sampler s' hcd hs] at h
            have h' := Except.ok.inj h
            have h1 : result = res := congrArg Prod.fst h'
            have h2 : wg = wg' := congrArg Prod.snd h'
            subst h1; subst h2
            exact ⟨nextChar, hI, Or.inr (Or.inr ⟨sampler, hcd, Sample_none sampler s' hs⟩)⟩
          | some c =>
            rw [generateLoop_continue maxLength fuel wg result nextChar hc sampler s' c hcd hs]
              at h
            exact ih _ _ _ res wg' (hstep wg result nextChar sampler c s' hI hc hcd hs) h
    · rw [generateLoop_exit maxLength fuel wg result nextChar hc] at h
      have h' := Except.ok.inj h
      have h1 : result = res := congrArg Prod.fst h'
      have h2 : wg = wg' := congrArg Prod.snd h'
      subst h1; subst h2
      exact ⟨nextChar, hI, Or.inl hc⟩

/-! ### Candidate context and backoff -/

theorem candidate_suffix (wg : WordGenerator) (result : GoString) :
    wg.candidate result <:+ result := by
  unfold WordGenerator.candidate
  split
  · exact List.suffix_refl _
  · exact List.drop_suffix _ _

theorem candidate_eq (wg : WordGenerator) (result : GoString) :
    wg.candidate result =
      result.drop (result.length - min wg.contextLength result.length) := by
  unfold WordGenerator.candidate
  split
  · rename_i h
    rw [Nat.min_eq_right (by omega), Nat.sub_self, List.drop_zero]
  · rename_i h
    rw [Nat.min_eq_left (by omega)]

theorem candidate_length (wg : WordGenerator) (result : GoString) :
    (wg.candidate result).length = min wg.contextLength result.length := by
  rw [candidate_eq, List.length_drop]
  omega

theorem suffix_candidate (wg : WordGenerator) (result s : GoString)
    (hs : s <:+ result) (hlen : s.length ≤ wg.contextLength) : s <:+ wg.candidate result := by
  have h1 := candidate_suffix wg result
  have h2 := candidate_length wg result
  have h3 := hs.length_le
  exact List.suffix_of_suffix_length_le hs h1 (by rw [h2]; omega)

theorem backoff_spec (wg : WordGenerator) : ∀ l : GoString,
    wg.backoff l <:+ l ∧ (l ≠ [] → wg.backoff l ≠ []) ∧
      (∀ s, s <:+ l → (wg.backoff l).length < s.length → wg.charDist s = none) ∧
      (wg.charDist (wg.backoff l) = none → ∀ s, s ≠ [] → s <:+ l → wg.charDist s = none) := by
  intro l
  induction l with
  | nil =>
    refine ⟨List.suffix_refl _, fun h => absurd rfl h, ?_, ?_⟩
    · intro s hs hlen
      have := hs.length_le
      simp only [WordGenerator.backoff, List.length_nil] at hlen this
      omega
    · intro _ s hne hs
      exact absurd (List.eq_nil_of_suffix_nil hs) hne
  | cons b rest ih =>
    unfold WordGenerator.backoff
    by_cases h1 : wg.hasContext (b :: rest) = true
    · rw [if_pos h1]
      refine ⟨List.suffix_refl _, fun _ => List.cons_ne_nil _ _, ?_, ?_⟩
      · intro s hs hlen
        have := hs.length_le
        omega
      · intro hnone
        unfold WordGenerator.hasContext at h1
        rw [hnone] at h1
        cases h1
    · rw [if_neg h1]
      have hnone : wg.charDist (b :: rest) = none := by
        unfold WordGenerator.hasContext at h1
        cases hcd : wg.charDist (b :: rest) with
        | none => rfl
        | some s => rw [hcd] at h1; exact absurd rfl h1
      by_cases h2 : (b :: rest).length ≤ 1
      · rw [if_pos h2]
        have hrest : rest = [] := by
          simp only [List.length_cons] at h2
          exact List.length_eq_zero.mp (by omega)
        subst hrest
        refine ⟨List.suffix_refl _, fun _ => List.cons_ne_nil _ _, ?_, ?_⟩
        · intro s hs hlen
          have := hs.length_le
          omega
        · intro _ s hne hs
          rcases List.suffix_cons_iff.mp hs with h | h
          · rw [h]; exact hnone
          · exact absurd (List.eq_nil_of_suffix_nil h) hne
      · rw [if_neg h2]
        obtain ⟨i1, i2, i3, i4⟩ := ih
        have hrne : rest ≠ [] := by
          intro h
          subst h
          simp only [List.length_cons, List.length_nil] at h2
          omega
        refine ⟨i1.trans (List.suffix_cons _ _), fun _ => i2 hrne, ?_, ?_⟩
        · intro s hs hlen
          rcases List.suffix_cons_iff.mp hs with h | h
          · rw [h]; exact hnone
          · exact i3 s h hlen
        · intro hn s hne hs
          rcases List.suffix_cons_iff.mp hs with h | h
          · rw [h]; exact hnone
          · exact i4 hn s hne h

theorem backoff_registered (wg : WordGenerator) (l s : GoString) (hne : s ≠ [])
    (hs : s <:+ l) (hreg : (wg.charDist s).isSome = true) :
    (wg.charDist (wg.backoff l)).isSome = true ∧ s.length ≤ (wg.backoff l).length := by
  obtain ⟨_, _, h3, h4⟩ := backoff_spec wg l
  constructor
  · cases hcd : wg.charDist (wg.backoff l) with
    | none =>
      rw [h4 hcd s hne hs] at hreg
      cases hreg
    | some _ => rfl
  · by_contra hlt
    rw [h3 s hs (by omega)] at hreg
    cases hreg

theorem backoff_eq_of_longest (wg : WordGenerator) (l ctx : GoString) (hne : ctx ≠ [])
    (hs : ctx <:+ l) (hreg : (wg.charDist ctx).isSome = true)
    (hlong : ∀ s, s <:+ l → ctx.length < s.length → wg.charDist s = none) :
    wg.backoff l = ctx := by
  obtain ⟨h1, h2⟩ := backoff_registered wg l ctx hne hs hreg
  obtain ⟨hb, _, _, _⟩ := backoff_spec wg l
  have hle : (wg.backoff l).length ≤ ctx.length := by
    by_contra hlt
    rw [hlong _ hb (by omega)] at h1
    cases h1
  have hlen : (wg.backoff l).length = ctx.length := by omega
  obtain ⟨t1, ht1⟩ := hb
  obtain ⟨t2, ht2⟩ := hs
  have := ht1.trans ht2.symm
  have hl := congrArg List.length this
  simp only [List.length_append] at hl
  exact (List.append_inj' this hlen).2

theorem utf8AppendRune_marker (r : Int) (hr : -2147483648 ≤ r ∧ r < 2147483648) (b : Byte)
    (hb : b ∈ utf8AppendRune r) (h36 : b.val = 36) : r = 36 := by
  unfold utf8AppendRune at hb
  simp only at hb
  split at hb
  · rename_i h
    simp only [List.mem_singleton] at hb
    subst hb
    simp only [Fin.ofNat, Fin.val_mk] at h36
    omega
  · split at hb
    · rename_i h1 h2
      simp only [List.mem_cons, List.mem_singleton, List.not_mem_nil, or_false] at hb
      rcases hb with hb | hb <;> subst hb <;> simp only [Fin.ofNat, Fin.val_mk] at h36 <;> omega
    · split at hb
      · simp only [List.mem_cons, List.mem_singleton, List.not_mem_nil, or_false] at hb
        rcases hb with hb | hb | hb <;> subst hb <;> exact absurd h36 (by decide)
      · split at hb
        · rename_i h1 h2 h3 h4
          simp only [List.mem_cons, List.mem_singleton, List.not_mem_nil, or_false] at hb
          rcases hb with hb | hb | hb <;> subst hb <;>
            simp only [Fin.ofNat, Fin.val_mk] at h36 <;> omega
        · rename_i h1 h2 h3 h4
          simp only [List.mem_cons, List.mem_singleton, List.not_mem_nil, or_false] at hb
          rcases hb with hb | hb | hb | hb <;> subst hb <;>
            simp only [Fin.ofNat, Fin.val_mk] at h36 <;> omega

theorem Sample_never_outOfFuel {T : Type} (s : Sampler T) : s.Sample ≠ .error .outOfFuel := by
  intro h
  unfold Sampler.Sample at h
  by_cases h0 : s.items.length = 0
  · rw [if_pos h0] at h
    cases h
  · rw [if_neg h0] at h
    cases hc : s.cumFreq[s.items.length - 1]? with
    | none => rw [hc] at h; cases h
    | some total =>
      have hlt : s.items.length - 1 < s.cumFreq.length := by
        by_contra hge
        rw [List.getElem?_eq_none (by omega)] at hc
        cases hc
      rw [hc] at h
      simp only at h
      unfold Rand.Intn at h
      by_cases ht : total ≤ 0
      · rw [if_pos ht] at h; cases h
      · rw [if_neg ht] at h
        simp only at h
        obtain ⟨idx, hidx, _, _, _, _⟩ := bsearchFuel_ok s.cumFreq
          ((s.random.draws s.random.pos : Int) % total)
          (s.items.length - 1 - 0 + 1) 0 (s.items.length - 1) (Nat.zero_le _) (by omega) (by omega)
        have hb : s.bsearch 0 (s.items.length - 1)
            ((s.random.draws s.random.pos : Int) % total) = .ok idx := hidx
        rw [hb] at h
        simp only at h
        cases hi : s.items[idx]? with
        | none => rw [hi] at h; cases h
        | some item => rw [hi] at h; cases h

theorem generateLoop_never_outOfFuel (maxLength : Int) :
    ∀ (fuel : Nat) (wg : WordGenerator) (result : GoString) (nextChar : Rune),
      (maxLength - (result.length : Int)).toNat < fuel →
      generateLoop maxLength fuel wg result nextChar ≠ .error .outOfFuel := by
  intro fuel
  induction fuel with
  | zero => intro wg result nextChar h; omega
  | succ fuel ih =>
    intro wg result nextChar hfuel
    by_cases hc : nextChar ≠ 36 ∧ (result.length : Int) < maxLength
    · cases hcd : wg.charDist (wg.backoff (wg.candidate result)) with
      | none =>
        rw [generateLoop_none maxLength fuel wg result nextChar hc hcd]
        intro h; cases h
      | some sampler =>
        cases hs : sampler.Sample with
        | error e =>
          rw [generateLoop_panic maxLength fuel wg result nextChar hc sampler e hcd hs]
          intro h
          have he : e = .outOfFuel := Except.error.inj h
          rw [he] at hs
          exact Sample_never_outOfFuel sampler hs
        | ok p =>
          obtain ⟨o, s'⟩ := p
          cases o with
          | none =>
            rw [generateLoop_empty maxLength fuel wg result nextChar hc sampler s' hcd hs]
            intro h; cases h
          | some c =>
            rw [generateLoop_continue maxLength fuel wg result nextChar hc sampler s' c hcd hs]
            apply ih
            have hlen := utf8AppendRune_length_pos c
            simp only [List.length_append]
            push_cast
            omega
    · rw [generateLoop_exit maxLength fuel wg result nextChar hc]
      intro h; cases h

/-! ### The states `Generate` passes through -/

theorem GenReaches_value (maxLength : Int) (wg0 : WordGenerator) (k : Nat) (wg : WordGenerator)
    (result : GoString) (nextChar : Rune) (h : GenReaches maxLength wg0 k wg result nextChar) :
    ∀ fuel, generateLoop maxLength (fuel + k) wg0 [94] 94 =
      generateLoop maxLength fuel wg result nextChar := by
  induction h with
  | start => intro fuel; rfl
  | step hprev hc hctx hs ih =>
    intro fuel
    rw [← generateLoop_continue maxLength fuel _ _ _ hc _ _ _ hctx hs, ← ih (fuel + 1)]
    congr 1
    omega

theorem GenReaches_length (maxLength : Int) (wg0 : WordGenerator) (k : Nat) (wg : WordGenerator)
    (result : GoString) (nextChar : Rune) (h : GenReaches maxLength wg0 k wg result nextChar) :
    k + 1 ≤ result.length ∧ k ≤ maxLength.toNat := by
  induction h with
  | start => simp
  | step hprev hc hctx hs ih =>
    rename_i c
    have hlen := utf8AppendRune_length_pos c
    simp only [List.length_append]
    omega

theorem GenReaches_generate (maxLength : Int) (wg0 : WordGenerator) (k : Nat)
    (wg : WordGenerator) (result : GoString) (nextChar : Rune)
    (h : GenReaches maxLength wg0 k wg result nextChar) :
    wg0.Generate maxLength = generateLoop maxLength (maxLength.toNat - k + 1) wg result nextChar := by
  have hk := (GenReaches_length maxLength wg0 k wg result nextChar h).2
  rw [← GenReaches_value maxLength wg0 k wg result nextChar h]
  unfold WordGenerator.Generate
  congr 1
  omega

theorem GenReaches_model (maxLength : Int) (wg0 : WordGenerator) (k : Nat) (wg : WordGenerator)
    (result : GoString) (nextChar : Rune) (h : GenReaches maxLength wg0 k wg result nextChar) :
    wg.contextLength = wg0.contextLength ∧ wg.table = wg0.table := by
  induction h with
  | start => exact ⟨rfl, rfl⟩
  | step hprev hc hctx hs ih =>
    rename_i k wg result nextChar sampler sampler' c
    obtain ⟨_, hs'⟩ := Sample_some sampler c sampler' hs
    refine ⟨ih.1, ?_⟩
    rw [← ih.2]
    funext ctx
    unfold WordGenerator.table WordGenerator.withSampler
    simp only
    by_cases hx : ctx = wg.backoff (wg.candidate result)
    · subst hx
      rw [Function.update_same, hctx, hs']
      rfl
    · rw [Function.update_noteq hx]

theorem table_none (wg : WordGenerator) (ctx : GoString) :
    wg.table ctx = none ↔ wg.charDist ctx = none := by
  unfold WordGenerator.table
  cases wg.charDist ctx <;> simp

theorem Generate_no_contexts (wg : WordGenerator) (maxLength : Int)
    (h : ∀ ctx, wg.charDist ctx = none) : wg.Generate maxLength = .ok ([94], wg) := by
  unfold WordGenerator.Generate
  by_cases hc : (94 : Rune) ≠ 36 ∧ ((([94] : GoString).length : Nat) : Int) < maxLength
  · exact generateLoop_none maxLength _ wg [94] 94 hc (h _)
  · exact generateLoop_exit maxLength _ wg [94] 94 hc

/-- C13: a missing context ends `Generate` normally.  Whenever the loop of
`wg0.Generate(maxLength)` is in a state (after `k` iterations, with the result
`result`) in which no suffix of 1 to 3 bytes of `result` is registered in the
model, the call returns exactly `result`, without a panic, and the model is
unchanged (only random sources have advanced).  On a generator with no
registered context `Generate(maxLength)` returns exactly `^` for every
`maxLength`; the fresh generator is one, and so is the generator `Build` leaves
on the empty vocabulary. -/
theorem missing_context_returns_result (wg0 : WordGenerator) (maxLength : Int) (k : Nat)
    (wg : WordGenerator) (result : GoString) (nextChar : Rune)
    (hK : wg0.contextLength = 3)
    (hreach : GenReaches maxLength wg0 k wg result nextChar)
    (hnone : ∀ s, s <:+ result → 1 ≤ s.length → s.length ≤ 3 → wg0.charDist s = none) :
    wg0.Generate maxLength = .ok (result, wg) ∧ wg.table = wg0.table ∧
      (∀ (wg1 : WordGenerator) (m : Int), (∀ ctx, wg1.charDist ctx = none) →
        wg1.Generate m = .ok ([94], wg1)) ∧
      (∀ m : Int, NewWordGenerator.Generate m = .ok ([94], NewWordGenerator)) ∧
      (∀ (toLower : GoString → GoString) (seed : GoString → Rand) (m : Int),
        NewWordGenerator.Build toLower seed [] = .ok NewWordGenerator ∧
        NewWordGenerator.Generate m = .ok ([94], NewWordGenerator)) := by
  obtain ⟨hK', htab⟩ := GenReaches_model maxLength wg0 k wg result nextChar hreach
  have hlen := (GenReaches_length maxLength wg0 k wg result nextChar hreach).1
  refine ⟨?_, htab, fun wg1 m h => Generate_no_contexts wg1 m h,
    fun m => Generate_no_contexts _ m (fun _ => rfl),
    fun _ _ m => ⟨rfl, Generate_no_contexts _ m (fun _ => rfl)⟩⟩
  rw [GenReaches_generate maxLength wg0 k wg result nextChar hreach]
  by_cases hc : nextChar ≠ 36 ∧ (result.length : Int) < maxLength
  · apply generateLoop_none maxLength _ wg result nextChar hc
    obtain ⟨hb1, hb2, _, _⟩ := backoff_spec wg (wg.candidate result)
    have hcl := candidate_length wg result
    have hcne : wg.candidate result ≠ [] := by
      intro h
      rw [h, hK', hK] at hcl
      simp only [List.length_nil] at hcl
      omega
    have hbl := hb1.length_le
    have hbne := hb2 hcne
    have hpos : 1 ≤ (wg.backoff (wg.candidate result)).length := by
      cases hx : wg.backoff (wg.candidate result) with
      | nil => exact absurd hx hbne
      | cons _ _ => simp
    have h0 := hnone _ (hb1.trans (candidate_suffix wg result)) hpos (by
      rw [hK', hK] at hcl
      omega)
    rw [← table_none, htab, table_none]
    exact h0
  · exact generateLoop_exit maxLength _ wg result nextChar hc

/-- In the model whose only context is `^` (followed by `x`), `Generate(10)`
draws `x`, finds no suffix of `^x` registered and returns `^x`. -/
theorem missing_context_returns_result_witness :
    ∃ wg, caretModel.Generate 10 = .ok ([94, 120], wg) ∧
      caretModel.charDist [120] = none ∧ caretModel.charDist [94, 120] = none := by
  have hctx : caretModel.charDist (caretModel.backoff (caretModel.candidate [94])) =
      some (Sampler.mk (fun c => if c = 120 then some 0 else none) [120] [1] zeroRand) := rfl
  have hs : (Sampler.mk (fun c : Rune => if c = 120 then some 0 else none) [120] [1]
      zeroRand).Sample = .ok (some (120 : Rune),
        Sampler.mk (fun c : Rune => if c = 120 then some 0 else none) [120] [1]
          { draws := zeroRand.draws, pos := zeroRand.pos + 1 }) := rfl
  have hc : (94 : Rune) ≠ 36 ∧ ((([94] : GoString).length : Nat) : Int) < 10 := by decide
  have hreach := GenReaches.step (GenReaches.start : GenReaches 10 caretModel 0 caretModel [94] 94)
    hc hctx hs
  have hnone : ∀ s : GoString, s <:+ [94, 120] → 1 ≤ s.length → s.length ≤ 3 →
      caretModel.charDist s = none := by
    intro s hs h1 _
    rcases List.suffix_cons_iff.mp hs with h | h
    · subst h; rfl
    · rcases List.suffix_cons_iff.mp h with h | h
      · subst h; rfl
      · have := List.eq_nil_of_suffix_nil h
        subst this
        simp at h1
  exact ⟨_, (missing_context_returns_result caretModel 10 1 _ [94, 120] 120 rfl hreach hnone).1,
    rfl, rfl⟩

theorem alphabet_lt (toLower : GoString → GoString) (words : List GoString) (n : Nat)
    (h : n ∈ alphabet toLower words) : n < 256 := by
  unfold alphabet at h
  rw [List.mem_dedup] at h
  obtain ⟨b, _, rfl⟩ := List.mem_map.mp h
  exact b.isLt

theorem Build_int32 (toLower : GoString → GoString) (seed : GoString → Rand)
    (words : List GoString) (wg : WordGenerator)
    (hbuild : NewWordGenerator.Build toLower seed words = .ok wg) : wg.ItemsIn isInt32 := by
  have hr := Build_holds toLower seed words NewWordGenerator wg _ NewWordGenerator_holds hbuild
  intro ctx s hs c hc
  obtain ⟨n, hn, rfl⟩ := Holds_itemsIn toLower words wg hr ctx s hs c hc
  have := alphabet_lt toLower words n hn
  show (-2147483648 : Int) ≤ (n : Int) ∧ (n : Int) < 2147483648
  exact ⟨by omega, by omega⟩

theorem ItemsIn_withSampler (wg : WordGenerator) (A : Rune → Prop) (hA : wg.ItemsIn A)
    (ctx : GoString) (s s' : Sampler Rune) (c : Rune) (hs : wg.charDist ctx = some s)
    (hsample : s.Sample = .ok (some c, s')) : (wg.withSampler ctx s').ItemsIn A := by
  rw [(Sample_some s c s' hsample).2]
  exact ItemsIn_update wg A hA ctx s hs _

/-- C12: for every model (its items being values of Go's `rune` type), every
`maxLength` and every state of the random sources, `Generate` never runs out of
fuel, it returns whenever every registered sampler can be drawn from, and every
string it returns begins with `^` and holds the byte `$` at its last position
only. -/
theorem markers_only_at_ends (wg : WordGenerator) (maxLength : Int)
    (hint : wg.ItemsIn isInt32) :
    wg.Generate maxLength ≠ .error .outOfFuel ∧
      (wg.AllDrawable → ∃ res wg', wg.Generate maxLength = .ok (res, wg')) ∧
      ∀ res wg', wg.Generate maxLength = .ok (res, wg') →
        res.head? = some 94 ∧ ∀ i, res[i]? = some 36 → i + 1 = res.length := by
  refine ⟨?_, ?_, ?_⟩
  · apply generateLoop_never_outOfFuel
    simp only [List.length_singleton]
    push_cast
    omega
  · intro hd
    obtain ⟨res, wg', _, h, _⟩ := generateLoop_ok maxLength (fun _ => True)
      (maxLength.toNat + 1) wg [94] 94 hd (fun _ _ _ _ _ => trivial)
      (by simp only [List.length_singleton]; push_cast; omega)
    exact ⟨res, wg', h⟩
  · intro res wg' hgen
    obtain ⟨last, ⟨_, hhead, hmark⟩, _⟩ := generateLoop_induct maxLength
      (fun wg result nextChar => wg.ItemsIn isInt32 ∧ result.head? = some 94 ∧
        ∀ i, result[i]? = some 36 → i + 1 = result.length ∧ nextChar = 36)
      (by
        intro wg result nextChar sampler c sampler' hI hc hctx hs
        obtain ⟨hA, hhead, hmark⟩ := hI
        refine ⟨ItemsIn_withSampler wg _ hA _ sampler sampler' c hctx hs, ?_, ?_⟩
        · cases result with
          | nil => cases hhead
          | cons a rest => exact hhead
        · intro i hi
          by_cases hlt : i < result.length
          · rw [List.getElem?_append_left hlt] at hi
            exact absurd (hmark i hi).2 hc.1
          · rw [List.getElem?_append_right (by omega)] at hi
            have hmem := List.getElem?_mem hi
            have hc36 : c = 36 := utf8AppendRune_marker c
              (hA _ sampler hctx c (Sample_some sampler c sampler' hs).1) _ hmem rfl
            subst hc36
            have henc : utf8AppendRune 36 = [36] := rfl
            rw [henc] at hi ⊢
            have hi0 : i - result.length = 0 := by
              by_contra hne
              rw [List.getElem?_eq_none (by simp only [List.length_singleton]; omega)] at hi
              cases hi
            simp only [List.length_append, List.length_singleton]
            exact ⟨by omega, trivial⟩)
      (maxLength.toNat + 1) wg [94] 94 res wg'
      ⟨hint, rfl, by
        intro i hi
        cases i with
        | zero => simp at hi
        | succ i => simp at hi⟩ hgen
    exact ⟨hhead, fun i hi => (hmark i hi).1⟩

/-- On the model of `["ab"]`, `Generate(10)` returns `^ab$`. -/
theorem markers_only_at_ends_witness :
    ∃ wg res wg', NewWordGenerator.Build asciiToLower (fun _ => zeroRand) [str "ab"] = .ok wg ∧
      wg.Generate 10 = .ok (res, wg') ∧ res = str "^ab$" ∧
      res.head? = some 94 ∧ ∀ i, res[i]? = some 36 → i + 1 = res.length := by
  obtain ⟨wg, hwg⟩ := exists_ok_of_toBool (NewWordGenerator.Build asciiToLower
    (fun _ => zeroRand) [str "ab"]) (by decide)
  have hr := Build_holds asciiToLower (fun _ => zeroRand) [str "ab"] NewWordGenerator wg _
    NewWordGenerator_holds hwg
  obtain ⟨_, hret, hmark⟩ := markers_only_at_ends wg 10
    (Build_int32 asciiToLower (fun _ => zeroRand) [str "ab"] wg hwg)
  obtain ⟨res, wg', hgen⟩ := hret (Holds_allDrawable wg _ hr)
  refine ⟨wg, res, wg', hwg, hgen, ?_, hmark res wg' hgen⟩
  have : ((NewWordGenerator.Build asciiToLower (fun _ => zeroRand)
      [str "ab"]).toOption.bind
      (fun wg => (wg.Generate 10).toOption.map Prod.fst)) = some (str "^ab$") := by decide
  rw [hwg] at this
  simp only [Except.toOption, Option.some_bind, hgen, Option.map_some'] at this
  exact Option.some.inj this

theorem charCount_ascii (s : GoString) (h : ∀ b, b ∈ s → b.val < 128) :
    charCount s = s.length := by
  unfold charCount
  rw [List.filter_eq_self.mpr]
  intro b hb
  have := h b hb
  simp only [decide_eq_true_eq]
  omega

/-- C11: an iteration of the loop of `Generate` (in any state whose loop
condition holds, on a model with `contextLength` 3 whose registered samplers can
all be drawn from, as in every model `Build` produces).  The candidate context is
the last `min(3, len(result))` bytes of the result, which are its last
characters when the result is ASCII.  If no non-empty suffix of the candidate is
registered, the loop ends and `Generate` returns the result.  Otherwise, for the
longest registered suffix `ctx` of the candidate, the iteration draws a
character `c` from the sampler of `ctx`, appends it and goes on to the next
iteration.  One of the two cases always applies, so the iteration ends the
generation only when no suffix of the candidate is registered. -/
theorem backoff_uses_longest_registered_suffix (wg : WordGenerator) (maxLength : Int)
    (fuel : Nat) (result : GoString) (nextChar : Rune)
    (hK : wg.contextLength = 3) (hd : wg.AllDrawable) (hne : result ≠ [])
    (hc : nextChar ≠ 36 ∧ (result.length : Int) < maxLength) :
    wg.candidate result = result.drop (result.length - min 3 result.length) ∧
      ((∀ b, b ∈ result → b.val < 128) →
        charCount (wg.candidate result) = min 3 (charCount result)) ∧
      ((∀ s, s ≠ [] → s <:+ wg.candidate result → wg.charDist s = none) →
        generateLoop maxLength (fuel + 1) wg result nextChar = .ok (result, wg)) ∧
      (∀ ctx sampler, ctx ≠ [] → ctx <:+ wg.candidate result →
        wg.charDist ctx = some sampler →
        (∀ s, s <:+ wg.candidate result → ctx.length < s.length → wg.charDist s = none) →
        ∃ c, c ∈ sampler.items ∧
          sampler.Sample = .ok (some c, Sampler.mk sampler.itemToIdxMap sampler.items
            sampler.cumFreq { draws := sampler.random.draws, pos := sampler.random.pos + 1 }) ∧
          generateLoop maxLength (fuel + 1) wg result nextChar =
            generateLoop maxLength fuel
              (wg.withSampler ctx (Sampler.mk sampler.itemToIdxMap sampler.items
                sampler.cumFreq { draws := sampler.random.draws, pos := sampler.random.pos + 1 }))
              (result ++ utf8AppendRune c) c) ∧
      ((∀ s, s ≠ [] → s <:+ wg.candidate result → wg.charDist s = none) ∨
        ∃ ctx sampler, ctx ≠ [] ∧ ctx <:+ wg.candidate result ∧
          wg.charDist ctx = some sampler ∧
          ∀ s, s <:+ wg.candidate result → ctx.length < s.length → wg.charDist s = none) := by
  have hcand : wg.candidate result = result.drop (result.length - min 3 result.length) := by
    rw [candidate_eq, hK]
  obtain ⟨hb1, hb2, hb3, hb4⟩ := backoff_spec wg (wg.candidate result)
  have hcne : wg.candidate result ≠ [] := by
    intro h
    have hl := candidate_length wg result
    rw [h, hK] at hl
    have : 0 < result.length := List.length_pos.mpr hne
    simp only [List.length_nil] at hl
    omega
  refine ⟨hcand, ?_, ?_, ?_, ?_⟩
  · intro hascii
    rw [charCount_ascii result hascii, charCount_ascii _
      (fun b hb => hascii b ((candidate_suffix wg result).subset hb)), candidate_length, hK]
  · intro hnone
    exact generateLoop_none maxLength fuel wg result nextChar hc
      (hnone _ (hb2 hcne) hb1)
  · intro ctx sampler hctxne hsuf hreg hlong
    have hbo : wg.backoff (wg.candidate result) = ctx :=
      backoff_eq_of_longest wg _ ctx hctxne hsuf (by rw [hreg]; rfl) hlong
    obtain ⟨c, hmem, hs⟩ := Sample_drawable sampler (hd ctx sampler hreg)
    refine ⟨c, hmem, hs, ?_⟩
    rw [generateLoop_continue maxLength fuel wg result nextChar hc sampler _ c
      (by rw [hbo]; exact hreg) hs, hbo]
  · cases hcd : wg.charDist (wg.backoff (wg.candidate result)) with
    | none => exact Or.inl (fun s hs1 hs2 => hb4 hcd s hs1 hs2)
    | some sampler => exact Or.inr ⟨_, sampler, hb2 hcne, hb1, hcd, hb3⟩

/-- In the model of `["yz"]` the context `xyz` is not registered and `yz` is: from
the result `^xyz` the loop draws from the sampler of `yz` (its only item is `$`)
and appends what it drew. -/
theorem backoff_uses_longest_registered_suffix_witness :
    ∃ wg sampler c, NewWordGenerator.Build asciiToLower (fun _ => zeroRand) [str "yz"] = .ok wg ∧
      wg.candidate (str "^xyz") = str "xyz" ∧
      wg.charDist (str "xyz") = none ∧ wg.charDist (str "yz") = some sampler ∧
      sampler.items = [36] ∧ c ∈ sampler.items ∧
      generateLoop 10 2 wg (str "^xyz") 122 =
        generateLoop 10 1
          (wg.withSampler (str "yz") (Sampler.mk sampler.itemToIdxMap sampler.items
            sampler.cumFreq { draws := sampler.random.draws, pos := sampler.random.pos + 1 }))
          (str "^xyz" ++ utf8AppendRune c) c := by
  obtain ⟨wg, hwg⟩ := exists_ok_of_toBool (NewWordGenerator.Build asciiToLower
    (fun _ => zeroRand) [str "yz"]) (by decide)
  have hr := Build_holds asciiToLower (fun _ => zeroRand) [str "yz"] NewWordGenerator wg _
    NewWordGenerator_holds hwg
  have hfacts : ((NewWordGenerator.Build asciiToLower (fun _ => zeroRand)
      [str "yz"]).toOption.map
      (fun wg => ((wg.charDist (str "xyz")).isSome,
        (wg.charDist (str "yz")).map (fun s => s.items)))) = some (false, some [36]) := by
    decide
  rw [hwg] at hfacts
  simp only [Except.toOption, Option.map_some', Option.some.injEq, Prod.mk.injEq] at hfacts
  obtain ⟨hxyz, hyz⟩ := hfacts
  have hxyz' : wg.charDist (str "xyz") = none := by
    cases h : wg.charDist (str "xyz") with
    | none => rfl
    | some _ => rw [h] at hxyz; cases hxyz
  obtain ⟨sampler, hsampler, hitems⟩ := Option.map_eq_some'.mp hyz
  obtain ⟨hcand, _, _, hdraw, _⟩ := backoff_uses_longest_registered_suffix wg 10 1
    (str "^xyz") 122 hr.1 (Holds_allDrawable wg _ hr) (by decide) (by decide)
  have hcand' : wg.candidate (str "^xyz") = str "xyz" := by
    rw [hcand]; decide
  obtain ⟨c, hmem, _, hstep⟩ := hdraw (str "yz") sampler (by decide)
    (by rw [hcand']; decide) hsampler (by
      intro s hs hlen
      have hx : str "xyz" = [120, 121, 122] := by decide
      have h2 : (str "yz").length = 2 := by decide
      rw [hcand', hx] at hs
      rw [h2] at hlen
      rcases List.suffix_cons_iff.mp hs with h | h
      · rw [h, ← hx]; exact hxyz'
      · have := h.length_le
        simp only [List.length_cons, List.length_nil] at this
        omega)
  exact ⟨wg, sampler, c, hwg, hcand', hxyz', hsampler, hitems, hmem, hstep⟩

theorem Holds_withSampler (wg : WordGenerator) (N : GoString × Rune → Int) (hr : Holds wg N)
    (ctx : GoString) (s s' : Sampler Rune) (c : Rune) (hs : wg.charDist ctx = some s)
    (hsample : s.Sample = .ok (some c, s')) : Holds (wg.withSampler ctx s') N := by
  rw [(Sample_some s c s' hsample).2]
  refine ⟨hr.1, ?_⟩
  intro ctx'
  have h := hr.2 ctx'
  unfold WordGenerator.withSampler
  simp only
  by_cases hx : ctx' = ctx
  · subst hx
    rw [Function.update_same]
    rw [hs] at h
    simp only at h ⊢
    obtain ⟨ht, h2, h3, h4⟩ := h
    exact ⟨⟨⟨ht.wf.len_le, ht.wf.nodup, ht.wf.map_iff⟩, ht.zero_of_not_mem, ht.prefixSum⟩,
      h2, h3, h4⟩
  · rw [Function.update_noteq hx]
    exact h

theorem utf8AppendRune_byte (b : Byte) (h : b.val < 128) : utf8AppendRune (b.val : Int) = [b] := by
  unfold utf8AppendRune
  simp only
  have hi : (((b.val : Nat) : Int) % 4294967296).toNat = b.val := by omega
  rw [hi, if_pos (by omega)]
  congr 1
  apply Fin.ext
  simp only [Fin.ofNat, Fin.val_mk]
  omega

theorem take_drop_snoc (word : GoString) (i j : Nat) (b : Byte) (hij : i ≤ j)
    (hb : word[j]? = some b) :
    (word.drop i).take (j - i) ++ [b] = (word.drop i).take (j - i + 1) := by
  rw [List.take_succ, List.getElem?_drop]
  have : i + (j - i) = j := by omega
  rw [this, hb]
  rfl

theorem take_drop_infix (word : GoString) (i n : Nat) : (word.drop i).take n <:+: word :=
  (List.take_prefix _ _).isInfix.trans (List.drop_suffix _ _).isInfix

theorem mem_normalized_alphabet (toLower : GoString → GoString) (words : List GoString)
    (word : GoString) (hword : word ∈ normalized toLower words) (b : Byte) (hb : b ∈ word) :
    b.val ∈ alphabet toLower words := by
  unfold alphabet
  rw [List.mem_dedup]
  exact List.mem_map.mpr ⟨b, List.mem_flatten.mpr ⟨word, hword, hb⟩, rfl⟩

/-- What a draw on a model of a vocabulary gives: the context and the byte drawn
occur together in a normalized word, at the positions `Build` counted. -/
theorem Holds_draw (toLower : GoString → GoString) (words : List GoString)
    (wg : WordGenerator) (hr : Holds wg (fun k => 0 + vocabHit toLower words k))
    (ctx : GoString) (s : Sampler Rune) (hs : wg.charDist ctx = some s) (c : Rune)
    (hc : c ∈ s.items) :
    ∃ (word : GoString) (j : Nat) (b : Byte), word ∈ normalized toLower words ∧
      word[j]? = some b ∧ (b.val : Int) = c ∧ ctx ≠ [] ∧ ctx ++ [b] <:+: word ∧
      b.val ∈ alphabet toLower words := by
  obtain ⟨word, i, j, b, hword, hij, hk, hj, hctx, hb, hbc⟩ :=
    countTriples_pos_full toLower words ctx c (Holds_vocab toLower words wg hr ctx s hs c hc)
  refine ⟨word, j, b, hword, hb, hbc, ?_, ?_,
    mem_normalized_alphabet toLower words word hword b (List.getElem?_mem hb)⟩
  · intro h
    have hl : ctx.length = j - i := by
      rw [← hctx, List.length_take, List.length_drop]
      omega
    rw [h] at hl
    simp only [List.length_nil] at hl
    omega
  · rw [← hctx, take_drop_snoc word i j b (by omega) hb]
    exact take_drop_infix word i _

theorem normalized_last (toLower : GoString → GoString) (words : List GoString)
    (word : GoString) (hword : word ∈ normalized toLower words) :
    2 ≤ word.length ∧ word[0]? = some 94 ∧ word[word.length - 1]? = some 36 := by
  obtain ⟨w, _, rfl⟩ := List.mem_map.mp hword
  unfold processWord
  refine ⟨by simp, by simp, ?_⟩
  rw [List.getElem?_append_right (by simp)]
  simp

/-- The one-byte context of a byte of a normalized word other than its last
byte is registered. -/
theorem Holds_single_registered (toLower : GoString → GoString) (words : List GoString)
    (wg : WordGenerator) (hr : Holds wg (fun k => 0 + vocabHit toLower words k))
    (word : GoString) (hword : word ∈ normalized toLower words) (j : Nat) (b : Byte)
    (hb : word[j]? = some b) (hj : j + 1 < word.length) :
    (wg.charDist [b]).isSome = true := by
  have hj1 : word[j + 1]? = some (word[j + 1]) := List.getElem?_eq_getElem hj
  have hpos := countTriples_pos_of toLower words word hword j (j + 1) _ (by omega) (by omega)
    hj hj1
  have hctx : (word.drop j).take (j + 1 - j) = [b] := by
    have h1 : j + 1 - j = 1 := by omega
    rw [h1, List.take_one, List.head?_drop, hb]
    rfl
  rw [hctx] at hpos
  obtain ⟨s, hs⟩ := Holds_registered_of_count toLower words wg hr [b] _ hpos
  rw [hs]
  rfl

theorem encodeRunes_append (a b : List Rune) :
    encodeRunes (a ++ b) = encodeRunes a ++ encodeRunes b := by
  induction a with
  | nil => rfl
  | cons r rest ih =>
    show utf8AppendRune r ++ encodeRunes (rest ++ b) = _
    rw [ih, encodeRunes, List.append_assoc]

theorem traceResult_snoc (start : GoString) (steps : List (GoString × Rune)) (ctx : GoString)
    (c : Rune) :
    traceResult start (steps ++ [(ctx, c)]) = traceResult start steps ++ utf8AppendRune c := by
  unfold traceResult
  rw [List.map_append, encodeRunes_append]
  simp only [List.map_cons, List.map_nil, encodeRunes, List.append_nil, List.append_assoc]

theorem TraceOK_snoc (P : GoString → Rune → Prop) (steps : List (GoString × Rune)) :
    ∀ (start : GoString) (ctx : GoString) (c : Rune), TraceOK P start steps →
      ctx ≠ [] → ctx <:+ traceResult start steps → P ctx c →
      TraceOK P start (steps ++ [(ctx, c)]) := by
  induction steps with
  | nil =>
    intro start ctx c _ h1 h2 h3
    simp only [traceResult, List.map_nil, encodeRunes, List.append_nil] at h2
    exact ⟨h1, h2, h3, trivial⟩
  | cons p rest ih =>
    intro start ctx c h h1 h2 h3
    obtain ⟨ctx0, c0⟩ := p
    obtain ⟨g1, g2, g3, g4⟩ := h
    refine ⟨g1, g2, g3, ih _ ctx c g4 h1 ?_ h3⟩
    simpa only [traceResult, List.map_cons, encodeRunes, List.append_assoc] using h2

theorem isLetterOrMarker_of_isLetter (b : Byte) (h : isLetter b = true) :
    isLetterOrMarker b = true := by
  unfold isLetterOrMarker
  rw [h]
  rfl

theorem alphabet_ascii_of_letters (toLower : GoString → GoString) (words : List GoString)
    (hletters : ∀ w, w ∈ words → ∀ b, b ∈ w → isLetter b = true)
    (hlower : ∀ w, w ∈ words → toLower w = asciiToLower w) :
    ∀ n, n ∈ alphabet toLower words → n < 128 := by
  intro n hn
  have h := (alphabet_letters toLower words
    (fun w hw b hb => isLetterOrMarker_of_isLetter b (hletters w hw b hb)) hlower).1 n hn
  rcases List.mem_append.mp h with h | h
  · obtain ⟨m, hm, rfl⟩ := List.mem_map.mp h
    have := List.mem_range.mp hm
    omega
  · simp only [List.mem_cons, List.mem_singleton, List.not_mem_nil, or_false] at h
    omega

theorem Build_letters_ok (toLower : GoString → GoString) (seed : GoString → Rand)
    (words : List GoString)
    (hletters : ∀ w, w ∈ words → ∀ b, b ∈ w → isLetter b = true)
    (hlower : ∀ w, w ∈ words → toLower w = asciiToLower w) :
    ∃ wg, NewWordGenerator.Build toLower seed words = .ok wg ∧
      Holds wg (fun k => 0 + vocabHit toLower words k) := by
  have halpha := alphabet_letters toLower words
    (fun w hw b hb => isLetterOrMarker_of_isLetter b (hletters w hw b hb)) hlower
  obtain ⟨wg, hwg⟩ := Build_succeeds toLower seed words NewWordGenerator _
    NewWordGenerator_holds
    (fits_of_successors toLower words (fun ctx =>
      le_trans (le_trans (successors_length_le toLower words ctx) halpha.2) (by decide)))
  exact ⟨wg, hwg, Build_holds toLower seed words NewWordGenerator wg _ NewWordGenerator_holds hwg⟩

theorem suffix_of_getLast? (s : GoString) (b : Byte) (h : s.getLast? = some b) :
    [b] <:+ s ∧ s = s.dropLast ++ [b] := by
  have := List.dropLast_append_getLast? b h
  exact ⟨⟨s.dropLast, this⟩, this.symm⟩

/-- C19: for every non-empty vocabulary of words over ASCII letters (on which
`strings.ToLower` is the ASCII lower-casing), every `maxLength >= 1` and every
state of the random sources, `Build` on a fresh generator returns a model and
`Generate(maxLength)` on it returns a string that ends with `$` or has length
exactly `maxLength`; the string is ASCII, so its length in bytes is its length
in characters. -/
theorem generate_never_stops_early (toLower : GoString → GoString) (seed : GoString → Rand)
    (words : List GoString) (maxLength : Int) (hne : words ≠ [])
    (hletters : ∀ w, w ∈ words → ∀ b, b ∈ w → isLetter b = true)
    (hlower : ∀ w, w ∈ words → toLower w = asciiToLower w) (hmax : 1 ≤ maxLength) :
    ∃ wg res wg', NewWordGenerator.Build toLower seed words = .ok wg ∧
      wg.Generate maxLength = .ok (res, wg') ∧
      (res.getLast? = some 36 ∨ (res.length : Int) = maxLength) ∧
      charCount res = res.length := by
  obtain ⟨wg, hwg, hr⟩ := Build_letters_ok toLower seed words hletters hlower
  have hascii := alphabet_ascii_of_letters toLower words hletters hlower
  obtain ⟨res, wg', _, hgen, _⟩ := generateLoop_ok maxLength (fun _ => True)
    (maxLength.toNat + 1) wg [94] 94 (Holds_allDrawable wg _ hr) (fun _ _ _ _ _ => trivial)
    (by simp only [List.length_singleton]; push_cast; omega)
  have hgen' : wg.Generate maxLength = .ok (res, wg') := hgen
  refine ⟨wg, res, wg', hwg, hgen', ?_⟩
  obtain ⟨w0, hw0⟩ := List.exists_mem_of_ne_nil _ hne
  have hword0 : processWord toLower w0 ∈ normalized toLower words :=
    List.mem_map.mpr ⟨w0, hw0, rfl⟩
  obtain ⟨last, ⟨hr', hlen, hasc, h36, hn36⟩, hexit⟩ := generateLoop_induct maxLength
    (fun wg result nextChar => Holds wg (fun k => 0 + vocabHit toLower words k) ∧
      (result.length : Int) ≤ maxLength ∧ (∀ b, b ∈ result → b.val < 128) ∧
      (nextChar = 36 → result.getLast? = some 36) ∧
      (nextChar ≠ 36 → ∃ b, result.getLast? = some b ∧ (wg.charDist [b]).isSome = true))
    (by
      intro wg result nextChar sampler c sampler' hI hc hctx hs
      obtain ⟨hr, hlen, hasc, _, _⟩ := hI
      obtain ⟨hmem, _⟩ := Sample_some sampler c sampler' hs
      obtain ⟨word, j, b, hword, hb, hbc, _, _, halpha⟩ :=
        Holds_draw toLower words wg hr _ sampler hctx c hmem
      have hb128 := hascii _ halpha
      have henc : utf8AppendRune c = [b] := by
        rw [← hbc]; exact utf8AppendRune_byte b hb128
      have hr' := Holds_withSampler wg _ hr _ sampler sampler' c hctx hs
      rw [henc]
      refine ⟨hr', ?_, ?_, ?_, ?_⟩
      · simp only [List.length_append, List.length_singleton]
        push_cast
        omega
      · intro x hx
        rcases List.mem_append.mp hx with hx | hx
        · exact hasc x hx
        · rw [List.mem_singleton] at hx
          rw [hx]; exact hb128
      · intro hc36
        rw [List.getLast?_append_of_ne_nil _ (List.cons_ne_nil _ _)]
        have : b = 36 := by
          apply Fin.ext
          have h1 : ((b.val : Nat) : Int) = 36 := by rw [hbc]; exact hc36
          have h2 : ((36 : Byte).val : Nat) = 36 := rfl
          omega
        rw [this]
        rfl
      · intro hc36
        refine ⟨b, by rw [List.getLast?_append_of_ne_nil _ (List.cons_ne_nil _ _)]; rfl, ?_⟩
        obtain ⟨_, _, hlast⟩ := normalized_last toLower words word hword
        have hj : j < word.length := by
          by_contra hge
          rw [List.getElem?_eq_none (by omega)] at hb
          cases hb
        have hj1 : j + 1 < word.length := by
          by_contra hge
          have hjeq : j = word.length - 1 := by omega
          rw [hjeq, hlast] at hb
          have hb36 : (36 : Byte) = b := Option.some.inj hb
          apply hc36
          rw [← hbc, ← hb36]
          rfl
        exact Holds_single_registered toLower words _ hr' word hword j b hb hj1)
    (maxLength.toNat + 1) wg [94] 94 res wg'
    ⟨hr, by simp only [List.length_singleton]; push_cast; omega,
      by
        intro b hb
        rw [List.mem_singleton] at hb
        rw [hb]; decide,
      by intro h; exact absurd h (by decide),
      by
        intro _
        refine ⟨94, rfl, ?_⟩
        obtain ⟨h2, h0, _⟩ := normalized_last toLower words _ hword0
        exact Holds_single_registered toLower words wg hr _ hword0 0 94 h0 (by omega)⟩
    hgen
  refine ⟨?_, charCount_ascii res hasc⟩
  by_cases hl : last = 36
  · exact Or.inl (h36 hl)
  · rcases hexit with hex | hex | hex
    · right
      have : ¬ ((res.length : Int) < maxLength) := fun h => hex ⟨hl, h⟩
      omega
    · exfalso
      obtain ⟨b, hb, hreg⟩ := hn36 hl
      have hsuf := (suffix_of_getLast? res b hb).1
      have h1 := backoff_registered wg' (wg'.candidate res) [b] (List.cons_ne_nil _ _)
        (suffix_candidate wg' res [b] hsuf (by rw [hr'.1]; simp)) hreg
      rw [hex] at h1
      exact absurd h1.1 (by simp)
    · exfalso
      obtain ⟨sampler, hs, hitems⟩ := hex
      have h := hr'.2 (wg'.backoff (wg'.candidate res))
      rw [hs] at h
      simp only at h
      exact h.2.2.1 hitems

/-- On the model of `["no", "on"]`, `Generate(3)` returns `^no`, of length 3, and
`Generate(10)` returns `^no$`. -/
theorem generate_never_stops_early_witness :
    ∃ wg res wg', NewWordGenerator.Build asciiToLower (fun _ => zeroRand)
        [str "no", str "on"] = .ok wg ∧
      wg.Generate 3 = .ok (res, wg') ∧ res = str "^no" ∧
      (res.getLast? = some 36 ∨ (res.length : Int) = 3) := by
  obtain ⟨wg, res, wg', hwg, hgen, hend, _⟩ := generate_never_stops_early asciiToLower
    (fun _ => zeroRand) [str "no", str "on"] 3 (by decide) (by decide) (fun _ _ => rfl)
    (by decide)
  refine ⟨wg, res, wg', hwg, hgen, ?_, hend⟩
  have : ((NewWordGenerator.Build asciiToLower (fun _ => zeroRand)
      [str "no", str "on"]).toOption.bind
      (fun wg => (wg.Generate 3).toOption.map Prod.fst)) = some (str "^no") := by decide
  rw [hwg] at this
  simp only [Except.toOption, Option.some_bind, hgen, Option.map_some'] at this
  exact Option.some.inj this

theorem Observed_pair_of_snoc (toLower : GoString → GoString) (words : List GoString)
    (ctx : GoString) (a b : Byte) (hlast : ctx.getLast? = some a)
    (h : Observed toLower words (ctx ++ [b])) : Observed toLower words [a, b] := by
  obtain ⟨word, hword, hin⟩ := h
  refine ⟨word, hword, List.IsInfix.trans ?_ hin⟩
  have hctx := (suffix_of_getLast? ctx a hlast).2
  refine ⟨ctx.dropLast, [], ?_⟩
  rw [List.append_nil]
  conv_rhs => rw [hctx]
  rw [List.append_assoc]
  rfl

/-- C20: for every vocabulary of words over ASCII letters (on which
`strings.ToLower` is the ASCII lower-casing), every `maxLength` and every state
of the random sources, `Build` on a fresh generator returns a model and
`Generate(maxLength)` on it returns a string `res` with a trace of its draws:
`res` is `^` followed by the characters drawn, each step `(ctx, c)` of the trace
drew the character `c`, written as the one byte `b`, for a context `ctx` that is
a non-empty suffix of the result before the step, and `ctx` followed by `b`
occurs in some word of the normalized vocabulary.  Hence every two adjacent
bytes of `res` are adjacent in some normalized word. -/
theorem generated_transitions_observed (toLower : GoString → GoString)
    (seed : GoString → Rand) (words : List GoString) (maxLength : Int)
    (hletters : ∀ w, w ∈ words → ∀ b, b ∈ w → isLetter b = true)
    (hlower : ∀ w, w ∈ words → toLower w = asciiToLower w) :
    ∃ wg res wg' steps, NewWordGenerator.Build toLower seed words = .ok wg ∧
      wg.Generate maxLength = .ok (res, wg') ∧
      res = traceResult [94] steps ∧
      TraceOK (fun ctx c => ∃ b : Byte, (b.val : Int) = c ∧ utf8AppendRune c = [b] ∧
        Observed toLower words (ctx ++ [b])) [94] steps ∧
      (∀ k a b, res[k]? = some a → res[k + 1]? = some b → Observed toLower words [a, b]) ∧
      charCount res = res.length := by
  obtain ⟨wg, hwg, hr⟩ := Build_letters_ok toLower seed words hletters hlower
  have hascii := alphabet_ascii_of_letters toLower words hletters hlower
  obtain ⟨res, wg', _, hgen, _⟩ := generateLoop_ok maxLength (fun _ => True)
    (maxLength.toNat + 1) wg [94] 94 (Holds_allDrawable wg _ hr) (fun _ _ _ _ _ => trivial)
    (by simp only [List.length_singleton]; push_cast; omega)
  have hgen' : wg.Generate maxLength = .ok (res, wg') := hgen
  obtain ⟨last, ⟨_, ⟨steps, hres, htrace⟩, _, hadj, hasc⟩, _⟩ := generateLoop_induct maxLength
    (fun wg result _ => Holds wg (fun k => 0 + vocabHit toLower words k) ∧
      (∃ steps, result = traceResult [94] steps ∧
        TraceOK (fun ctx c => ∃ b : Byte, (b.val : Int) = c ∧ utf8AppendRune c = [b] ∧
          Observed toLower words (ctx ++ [b])) [94] steps) ∧
      result ≠ [] ∧
      (∀ k a b, result[k]? = some a → result[k + 1]? = some b →
        Observed toLower words [a, b]) ∧
      (∀ b, b ∈ result → b.val < 128))
    (by
      intro wg result nextChar sampler c sampler' hI hc hctx hs
      obtain ⟨hr, ⟨steps, hres, htrace⟩, hne, hadj, hasc⟩ := hI
      obtain ⟨hmem, _⟩ := Sample_some sampler c sampler' hs
      obtain ⟨word, j, b, hword, hb, hbc, hctxne, hinfix, halpha⟩ :=
        Holds_draw toLower words wg hr _ sampler hctx c hmem
      have hb128 := hascii _ halpha
      have henc : utf8AppendRune c = [b] := by
        rw [← hbc]; exact utf8AppendRune_byte b hb128
      have hsuf : wg.backoff (wg.candidate result) <:+ result :=
        (backoff_spec wg (wg.candidate result)).1.trans (candidate_suffix wg result)
      have hobs : Observed toLower words (wg.backoff (wg.candidate result) ++ [b]) :=
        ⟨word, hword, hinfix⟩
      refine ⟨Holds_withSampler wg _ hr _ sampler sampler' c hctx hs,
        ⟨steps ++ [(wg.backoff (wg.candidate result), c)], ?_, ?_⟩, ?_, ?_, ?_⟩
      · rw [traceResult_snoc, ← hres]
      · exact TraceOK_snoc _ steps [94] _ c htrace hctxne (by rw [← hres]; exact hsuf)
          ⟨b, hbc, henc, hobs⟩
      · intro h
        exact hne (List.append_eq_nil.mp h).1
      · rw [henc]
        intro k x y hx hy
        by_cases hk : k + 1 < result.length
        · rw [List.getElem?_append_left (by omega)] at hx
          rw [List.getElem?_append_left hk] at hy
          exact hadj k x y hx hy
        · have hk1 : k + 1 = result.length := by
            by_contra hne'
            rw [List.getElem?_eq_none (by
              simp only [List.length_append, List.length_singleton]; omega)] at hy
            cases hy
          rw [List.getElem?_append_left (by omega)] at hx
          rw [List.getElem?_append_right (by omega)] at hy
          have hyb : y = b := by
            have h0 : k + 1 - result.length = 0 := by omega
            rw [h0] at hy
            exact (Option.some.inj hy).symm
          subst hyb
          have hlast : result.getLast? = some x := by
            rw [List.getLast?_eq_getElem?]
            have : result.length - 1 = k := by omega
            rw [this]; exact hx
          obtain ⟨t, ht⟩ := hsuf
          have hclast : (wg.backoff (wg.candidate result)).getLast? = some x := by
            rw [← ht, List.getLast?_append_of_ne_nil _ hctxne] at hlast
            exact hlast
          exact Observed_pair_of_snoc toLower words _ x y hclast hobs
      · rw [henc]
        intro x hx
        rcases List.mem_append.mp hx with hx | hx
        · exact hasc x hx
        · rw [List.mem_singleton] at hx
          rw [hx]; exact hb128)
    (maxLength.toNat + 1) wg [94] 94 res wg'
    ⟨hr, ⟨[], rfl, trivial⟩, List.cons_ne_nil _ _,
      by
        intro k a b _ hb
        simp at hb,
      by
        intro b hb
        rw [List.mem_singleton] at hb
        rw [hb]; decide⟩
    hgen
  exact ⟨wg, res, wg', steps, hwg, hgen', hres, htrace, hadj, charCount_ascii res hasc⟩

/-- On the model of `["no", "on"]`, `Generate(10)` returns `^no$`; its pairs `^n`, `no`
and `o$` all occur in `^no$`. -/
theorem generated_transitions_observed_witness :
    ∃ wg res wg', NewWordGenerator.Build asciiToLower (fun _ => zeroRand)
        [str "no", str "on"] = .ok wg ∧
      wg.Generate 10 = .ok (res, wg') ∧ res = str "^no$" ∧
      ∀ k a b, res[k]? = some a → res[k + 1]? = some b →
        Observed asciiToLower [str "no", str "on"] [a, b] := by
  obtain ⟨wg, res, wg', steps, hwg, hgen, _, _, hadj, _⟩ := generated_transitions_observed
    asciiToLower (fun _ => zeroRand) [str "no", str "on"] 10 (by decide) (fun _ _ => rfl)
  refine ⟨wg, res, wg', hwg, hgen, ?_, hadj⟩
  have : ((NewWordGenerator.Build asciiToLower (fun _ => zeroRand)
      [str "no", str "on"]).toOption.bind
      (fun wg => (wg.Generate 10).toOption.map Prod.fst)) = some (str "^no$") := by decide
  rw [hwg] at this
  simp only [Except.toOption, Option.some_bind, hgen, Option.map_some'] at this
  exact Option.some.inj this

/-! ### Runs that see the same draws -/

theorem Rand_Same_refl (g : Rand) : g.Same g := fun _ => rfl

theorem Sampler_Same_refl {T : Type} (s : Sampler T) : s.Same s :=
  ⟨rfl, rfl, rfl, Rand_Same_refl _⟩

theorem WordGenerator_Same_refl (wg : WordGenerator) : wg.Same wg := by
  refine ⟨rfl, fun ctx => ?_⟩
  cases h : wg.charDist ctx with
  | none => trivial
  | some s => exact Sampler_Same_refl s

theorem Add_same {T : Type} [DecidableEq T] (s s' : Sampler T) (h : s.Same s') (x : T)
    (w : Int) : SameOutcome Sampler.Same (s.Add x w) (s'.Add x w) := by
  obtain ⟨m, it, cf, g⟩ := s
  obtain ⟨m', it', cf', g'⟩ := s'
  obtain ⟨h1, h2, h3, h4⟩ := h
  simp only at h1 h2 h3 h4
  subst h1; subst h2; subst h3
  unfold Sampler.Add
  simp only
  cases hx : m x with
  | none =>
    simp only
    cases hp : (if it.length > 0 then cf[it.length - 1]? else some 0) with
    | none => exact rfl
    | some prev =>
      simp only
      by_cases hlt : it.length < cf.length
      · rw [if_pos hlt, if_pos hlt]
        exact ⟨rfl, rfl, rfl, h4⟩
      · rw [if_neg hlt, if_neg hlt]
        exact rfl
  | some idx =>
    simp only
    cases ha : addLoop w (it.length - idx) idx cf with
    | error e => exact rfl
    | ok cum => exact ⟨rfl, rfl, rfl, h4⟩

theorem Sample_same {T : Type} (s s' : Sampler T) (h : s.Same s') :
    SameOutcome (fun p q => p.1 = q.1 ∧ p.2.Same q.2) s.Sample s'.Sample := by
  obtain ⟨m, it, cf, g⟩ := s
  obtain ⟨m', it', cf', g'⟩ := s'
  obtain ⟨h1, h2, h3, h4⟩ := h
  simp only at h1 h2 h3 h4
  subst h1; subst h2; subst h3
  have hd : g.draws g.pos = g'.draws g'.pos := h4 0
  have hnext : Rand.Same { draws := g.draws, pos := g.pos + 1 }
      { draws := g'.draws, pos := g'.pos + 1 } := by
    intro k
    have := h4 (1 + k)
    simp only [← Nat.add_assoc] at this
    exact this
  unfold Sampler.Sample
  simp only
  by_cases h0 : it.length = 0
  · rw [if_pos h0, if_pos h0]
    exact ⟨rfl, rfl, rfl, rfl, h4⟩
  · rw [if_neg h0, if_neg h0]
    cases hc : cf[it.length - 1]? with
    | none => exact rfl
    | some total =>
      simp only
      unfold Rand.Intn
      by_cases ht : total ≤ 0
      · rw [if_pos ht, if_pos ht]
        exact rfl
      · rw [if_neg ht, if_neg ht]
        simp only
        rw [← hd]
        unfold Sampler.bsearch
        simp only
        cases hb : bsearchFuel cf (it.length - 1 - 0 + 1) 0 (it.length - 1)
            ((g.draws g.pos : Int) % total) with
        | error e => exact rfl
        | ok idx =>
          simp only
          cases hi : it[idx]? with
          | none => exact rfl
          | some item => exact ⟨rfl, rfl, rfl, rfl, hnext⟩

theorem forEachM_same {σ α : Type} (R : σ → σ → Prop) (f f' : σ → α → Except Fault σ)
    (hf : ∀ s s' a, R s s' → SameOutcome R (f s a) (f' s' a)) :
    ∀ (l : List α) (s s' : σ), R s s' → SameOutcome R (forEachM f l s) (forEachM f' l s') := by
  intro l
  induction l with
  | nil => intro s s' h; exact h
  | cons a rest ih =>
    intro s s' h
    have h1 := hf s s' a h
    unfold forEachM
    cases hx : f s a with
    | error e =>
      cases hy : f' s' a with
      | error e' => rw [hx, hy] at h1; exact h1
      | ok t' => rw [hx, hy] at h1; exact h1.elim
    | ok t =>
      cases hy : f' s' a with
      | error e' => rw [hx, hy] at h1; exact h1.elim
      | ok t' =>
        rw [hx, hy] at h1
        exact ih t t' h1

theorem samplerFor_same (seed seed' : GoString → Rand)
    (hseed : ∀ ctx, (seed ctx).Same (seed' ctx)) (wg wg' : WordGenerator) (h : wg.Same wg')
    (ctx : GoString) : (wg.samplerFor seed ctx).Same (wg'.samplerFor seed' ctx) := by
  have h2 := h.2 ctx
  unfold WordGenerator.samplerFor
  cases hx : wg.charDist ctx with
  | none =>
    cases hy : wg'.charDist ctx with
    | none => exact ⟨rfl, rfl, rfl, hseed ctx⟩
    | some t' => rw [hx, hy] at h2; exact h2.elim
  | some t =>
    cases hy : wg'.charDist ctx with
    | none => rw [hx, hy] at h2; exact h2.elim
    | some t' => rw [hx, hy] at h2; exact h2

theorem Same_update (wg wg' : WordGenerator) (h : wg.Same wg') (ctx : GoString)
    (s s' : Sampler Rune) (hs : s.Same s') :
    WordGenerator.Same (wg.withSampler ctx s) (wg'.withSampler ctx s') := by
  refine ⟨h.1, fun ctx' => ?_⟩
  unfold WordGenerator.withSampler
  simp only
  by_cases hx : ctx' = ctx
  · subst hx
    rw [Function.update_same, Function.update_same]
    exact hs
  · rw [Function.update_noteq hx, Function.update_noteq hx]
    exact h.2 ctx'

theorem addWordAt_same (seed seed' : GoString → Rand)
    (hseed : ∀ ctx, (seed ctx).Same (seed' ctx)) (word : GoString) (i : Nat)
    (wg wg' : WordGenerator) (j : Nat) (h : wg.Same wg') :
    SameOutcome WordGenerator.Same (addWordAt seed word i wg j) (addWordAt seed' word i wg' j) := by
  unfold addWordAt
  simp only
  cases hb : word[j]? with
  | none => exact rfl
  | some b =>
    simp only
    have h1 := Add_same _ _ (samplerFor_same seed seed' hseed wg wg' h
      ((word.drop i).take (j - i))) (b.val : Int) 1
    cases hx : (wg.samplerFor seed ((word.drop i).take (j - i))).Add (b.val : Int) 1 with
    | error e =>
      cases hy : (wg'.samplerFor seed' ((word.drop i).take (j - i))).Add (b.val : Int) 1 with
      | error e' => rw [hx, hy] at h1; exact h1
      | ok t' => rw [hx, hy] at h1; exact h1.elim
    | ok t =>
      cases hy : (wg'.samplerFor seed' ((word.drop i).take (j - i))).Add (b.val : Int) 1 with
      | error e' => rw [hx, hy] at h1; exact h1.elim
      | ok t' =>
        rw [hx, hy] at h1
        exact Same_update wg wg' h _ t t' h1

theorem addWord_same (seed seed' : GoString → Rand)
    (hseed : ∀ ctx, (seed ctx).Same (seed' ctx)) (wg wg' : WordGenerator) (word : GoString)
    (h : wg.Same wg') :
    SameOutcome WordGenerator.Same (wg.addWord seed word) (wg'.addWord seed' word) := by
  unfold WordGenerator.addWord
  apply forEachM_same WordGenerator.Same _ _ _ _ wg wg' h
  intro s s' i hs
  rw [hs.1]
  exact forEachM_same WordGenerator.Same _ _
    (fun t t' j ht => addWordAt_same seed seed' hseed word i t t' j ht) _ s s' hs

theorem Build_same (toLower : GoString → GoString) (seed seed' : GoString → Rand)
    (hseed : ∀ ctx, (seed ctx).Same (seed' ctx)) (wg wg' : WordGenerator)
    (words : List GoString) (h : wg.Same wg') :
    SameOutcome WordGenerator.Same (wg.Build toLower seed words)
      (wg'.Build toLower seed' words) := by
  unfold WordGenerator.Build
  exact forEachM_same WordGenerator.Same _ _
    (fun t t' word ht => addWord_same seed seed' hseed t t' word ht) _ wg wg' h

theorem hasContext_same (wg wg' : WordGenerator) (h : wg.Same wg') (ctx : GoString) :
    wg.hasContext ctx = wg'.hasContext ctx := by
  have h2 := h.2 ctx
  unfold WordGenerator.hasContext
  cases hx : wg.charDist ctx with
  | none =>
    cases hy : wg'.charDist ctx with
    | none => rfl
    | some t' => rw [hx, hy] at h2; exact h2.elim
  | some t =>
    cases hy : wg'.charDist ctx with
    | none => rw [hx, hy] at h2; exact h2.elim
    | some t' => rfl

theorem backoff_same (wg wg' : WordGenerator) (h : wg.Same wg') :
    ∀ l : GoString, wg.backoff l = wg'.backoff l := by
  intro l
  induction l with
  | nil => rfl
  | cons b rest ih =>
    unfold WordGenerator.backoff
    rw [hasContext_same wg wg' h, ih]

theorem candidate_same (wg wg' : WordGenerator) (h : wg.Same wg') (result : GoString) :
    wg.candidate result = wg'.candidate result := by
  unfold WordGenerator.candidate
  rw [h.1]

theorem generateLoop_same (maxLength : Int) :
    ∀ (fuel : Nat) (wg wg' : WordGenerator) (result : GoString) (nextChar : Rune),
      wg.Same wg' →
      SameOutcome (fun p q => p.1 = q.1 ∧ p.2.Same q.2)
        (generateLoop maxLength fuel wg result nextChar)
        (generateLoop maxLength fuel wg' result nextChar) := by
  intro fuel
  induction fuel with
  | zero => intro wg wg' result nextChar _; exact rfl
  | succ fuel ih =>
    intro wg wg' result nextChar h
    by_cases hc : nextChar ≠ 36 ∧ (result.length : Int) < maxLength
    · have hctx : wg'.backoff (wg'.candidate result) = wg.backoff (wg.candidate result) := by
        rw [← candidate_same wg wg' h, ← backoff_same wg wg' h]
      have h2 := h.2 (wg.backoff (wg.candidate result))
      cases hx : wg.charDist (wg.backoff (wg.candidate result)) with
      | none =>
        cases hy : wg'.charDist (wg.backoff (wg.candidate result)) with
        | none =>
          rw [generateLoop_none maxLength fuel wg result nextChar hc hx,
            generateLoop_none maxLength fuel wg' result nextChar hc (by rw [hctx]; exact hy)]
          exact ⟨rfl, h⟩
        | some t' => rw [hx, hy] at h2; exact h2.elim
      | some t =>
        cases hy : wg'.charDist (wg.backoff (wg.candidate result)) with
        | none => rw [hx, hy] at h2; exact h2.elim
        | some t' =>
          rw [hx, hy] at h2
          have hy' : wg'.charDist (wg'.backoff (wg'.candidate result)) = some t' := by
            rw [hctx]; exact hy
          have h3 := Sample_same t t' h2
          cases hs : t.Sample with
          | error e =>
            cases hs' : t'.Sample with
            | error e' =>
              rw [hs, hs'] at h3
              rw [generateLoop_panic maxLength fuel wg result nextChar hc t e hx hs,
                generateLoop_panic maxLength fuel wg' result nextChar hc t' e' hy' hs']
              exact h3
            | ok p' => rw [hs, hs'] at h3; exact h3.elim
          | ok p =>
            cases hs' : t'.Sample with
            | error e' => rw [hs, hs'] at h3; exact h3.elim
            | ok p' =>
              rw [hs, hs'] at h3
              obtain ⟨o, u⟩ := p
              obtain ⟨o', u'⟩ := p'
              obtain ⟨ho, hu⟩ := h3
              simp only at ho hu
              subst ho
              cases o with
              | none =>
                rw [generateLoop_empty maxLength fuel wg result nextChar hc t u hx hs,
                  generateLoop_empty maxLength fuel wg' result nextChar hc t' u' hy' hs']
                exact ⟨rfl, h⟩
              | some c =>
                rw [generateLoop_continue maxLength fuel wg result nextChar hc t u c hx hs,
                  generateLoop_continue maxLength fuel wg' result nextChar hc t' u' c hy' hs',
                  hctx]
                exact ih _ _ _ c (Same_update wg wg' h _ u u' hu)
    · rw [generateLoop_exit maxLength fuel wg result nextChar hc,
        generateLoop_exit maxLength fuel wg' result nextChar hc]
      exact ⟨rfl, h⟩

theorem generateWords_same (maxLength : Int) :
    ∀ (count : Nat) (wg wg' : WordGenerator), wg.Same wg' →
      SameOutcome (fun p q => p.1 = q.1 ∧ p.2.Same q.2)
        (generateWords maxLength count wg) (generateWords maxLength count wg') := by
  intro count
  induction count with
  | zero => intro wg wg' h; exact ⟨rfl, h⟩
  | succ count ih =>
    intro wg wg' h
    have h1 : SameOutcome (fun p q => p.1 = q.1 ∧ p.2.Same q.2)
        (wg.Generate maxLength) (wg'.Generate maxLength) :=
      generateLoop_same maxLength _ wg wg' [94] 94 h
    unfold generateWords
    cases hx : wg.Generate maxLength with
    | error e =>
      cases hy : wg'.Generate maxLength with
      | error e' => rw [hx, hy] at h1; exact h1
      | ok p' => rw [hx, hy] at h1; exact h1.elim
    | ok p =>
      cases hy : wg'.Generate maxLength with
      | error e' => rw [hx, hy] at h1; exact h1.elim
      | ok p' =>
        rw [hx, hy] at h1
        obtain ⟨w, t⟩ := p
        obtain ⟨w', t'⟩ := p'
        obtain ⟨hw, ht⟩ := h1
        simp only at hw ht
        subst hw
        simp only
        have h2 := ih t t' ht
        cases hx2 : generateWords maxLength count t with
        | error e =>
          cases hy2 : generateWords maxLength count t' with
          | error e' => rw [hx2, hy2] at h2; exact h2
          | ok q' => rw [hx2, hy2] at h2; exact h2.elim
        | ok q =>
          cases hy2 : generateWords maxLength count t' with
          | error e' => rw [hx2, hy2] at h2; exact h2.elim
          | ok q' =>
            rw [hx2, hy2] at h2
            obtain ⟨ws, v⟩ := q
            obtain ⟨ws', v'⟩ := q'
            obtain ⟨hws, hv⟩ := h2
            simp only at hws hv
            subst hws
            exact ⟨rfl, hv⟩

/-- C15: `Generate` is a function of the model, `maxLength` and the draws to
come.  Two generators with the same model whose random sources produce the same
draws end `Generate(maxLength)` alike: the same panic, or the same string and
generators that again agree.  Hence two runs of the request handler on the same
vocabulary, count and `maxLength`, with random sources seeded to give the same
draws, return the same sequence of strings (or panic alike). -/
theorem generate_reproducible (toLower : GoString → GoString) (seed seed' : GoString → Rand)
    (words : List GoString) (count : Nat) (maxLength : Int)
    (hseed : ∀ ctx, (seed ctx).Same (seed' ctx)) :
    generateWordsHandler toLower seed words count maxLength =
        generateWordsHandler toLower seed' words count maxLength ∧
      (∀ wg wg' : WordGenerator, wg.Same wg' →
        SameOutcome (fun p q => p.1 = q.1 ∧ p.2.Same q.2)
          (wg.Generate maxLength) (wg'.Generate maxLength)) ∧
      SameOutcome WordGenerator.Same (NewWordGenerator.Build toLower seed words)
        (NewWordGenerator.Build toLower seed' words) := by
  have hb := Build_same toLower seed seed' hseed NewWordGenerator NewWordGenerator words
    (WordGenerator_Same_refl _)
  refine ⟨?_, fun wg wg' h => generateLoop_same maxLength _ wg wg' [94] 94 h, hb⟩
  unfold generateWordsHandler
  cases hx : NewWordGenerator.Build toLower seed words with
  | error e =>
    cases hy : NewWordGenerator.Build toLower seed' words with
    | error e' => rw [hx, hy] at hb; rw [show e = e' from hb]
    | ok t' => rw [hx, hy] at hb; exact hb.elim
  | ok t =>
    cases hy : NewWordGenerator.Build toLower seed' words with
    | error e' => rw [hx, hy] at hb; exact hb.elim
    | ok t' =>
      rw [hx, hy] at hb
      simp only
      have h2 := generateWords_same maxLength count t t' hb
      cases hx2 : generateWords maxLength count t with
      | error e =>
        cases hy2 : generateWords maxLength count t' with
        | error e' => rw [hx2, hy2] at h2; rw [show e = e' from h2]
        | ok q' => rw [hx2, hy2] at h2; exact h2.elim
      | ok q =>
        cases hy2 : generateWords maxLength count t' with
        | error e' => rw [hx2, hy2] at h2; exact h2.elim
        | ok q' =>
          rw [hx2, hy2] at h2
          obtain ⟨ws, v⟩ := q
          obtain ⟨ws', v'⟩ := q'
          obtain ⟨hws, _⟩ := h2
          simp only at hws
          subst hws
          rfl

/-- Two runs on `["no", "on"]` whose random sources give the draws 1, 0, 1, 0, ...
(one of them from a later cursor in the same stream) both return `^on$`, `^no$`. -/
theorem generate_reproducible_witness :
    generateWordsHandler asciiToLower (fun _ => { draws := fun n => (n + 1) % 2, pos := 0 })
        [str "no", str "on"] 2 10 =
      generateWordsHandler asciiToLower (fun _ => { draws := fun n => (n + 1) % 2, pos := 2 })
        [str "no", str "on"] 2 10 ∧
    (generateWordsHandler asciiToLower (fun _ => { draws := fun n => (n + 1) % 2, pos := 0 })
        [str "no", str "on"] 2 10).toOption = some [str "^on$", str "^no$"] :=
  ⟨(generate_reproducible asciiToLower _ _ [str "no", str "on"] 2 10
    (fun _ k => by
      show (0 + k + 1) % 2 = (2 + k + 1) % 2
      omega)).1, by decide⟩

theorem utf8AppendRune_length_le_two (r : Int) (h0 : 0 ≤ r) (h1 : r < 2048) :
    (utf8AppendRune r).length ≤ 2 := by
  unfold utf8AppendRune
  simp only
  split
  · simp
  · rw [if_pos (by omega)]
    simp

/-- C10 as stated fails on a vocabulary that is not ASCII: on the model built
from the one word `é` (bytes `C3 A9`, which lower-casing keeps), `Generate(2)`
samples the rune `U+00C3` after `^`, writes it as two bytes and returns `^Ã`: a
string of length 3, two characters in three bytes. -/
theorem generate_exceeds_maxLength_counterexample :
    ((NewWordGenerator.Build (fun w => w) (fun _ => zeroRand) [str "é"]).toOption.bind
      (fun wg => (wg.Generate 2).toOption.map
        (fun out => (out.1, out.1.length, charCount out.1)))) = some ([94, 195, 131], 3, 2) ∧
      ¬ ((3 : Int) ≤ 2) := by
  constructor
  · decide
  · decide

/-- C10 (amended): for every model produced by `Build`, every `maxLength >= 1` and
every random source, `Generate(maxLength)` returns (the loop runs out of no fuel:
any fuel of at least `maxLength` gives the same result); the returned string is
the start marker followed by the UTF-8 text of the sampled runes, each a byte
value of the normalized vocabulary; it has at most `maxLength` characters and at
most `maxLength + 1` bytes; and when the normalized vocabulary is ASCII its
length is at most `maxLength`. -/
theorem generate_terminates_within_maxLength (toLower : GoString → GoString)
    (seed : GoString → Rand) (words : List GoString) (wg : WordGenerator) (maxLength : Int)
    (hbuild : NewWordGenerator.Build toLower seed words = .ok wg) (hmax : 1 ≤ maxLength) :
    ∃ res wg' runes, wg.Generate maxLength = .ok (res, wg') ∧
      (∀ fuel, maxLength.toNat ≤ fuel →
        generateLoop maxLength fuel wg [94] 94 = .ok (res, wg')) ∧
      res = [94] ++ encodeRunes runes ∧
      (∀ r, r ∈ runes → ∃ n, n ∈ alphabet toLower words ∧ r = (n : Int)) ∧
      charCount res = 1 + runes.length ∧
      (charCount res : Int) ≤ maxLength ∧
      (res.length : Int) ≤ maxLength + 1 ∧
      ((∀ n, n ∈ alphabet toLower words → n < 128) → (res.length : Int) ≤ maxLength) := by
  have hr := Build_holds toLower seed words NewWordGenerator wg _ NewWordGenerator_holds hbuild
  have hd := Holds_allDrawable wg _ hr
  have hA := Holds_itemsIn toLower words wg hr
  obtain ⟨res, wg', runes, h1, h2, h3, h4⟩ :=
    generateLoop_ok maxLength _ maxLength.toNat wg [94] 94 hd hA
      (by simp only [List.length_singleton]; push_cast; omega)
  have hcount : charCount res = 1 + runes.length := by
    rw [h2, charCount_append, charCount_encodeRunes]
    rfl
  have hbound : (1 : Int) + (runes.length : Int) ≤ maxLength := by
    rcases h3 with h3 | h3
    · subst h3
      simp only [List.length_nil, Nat.cast_zero]
      omega
    · simp only [List.length_singleton] at h3
      push_cast at h3
      omega
  have hbytes : (res.length : Int) ≤ maxLength + 1 := by
    obtain ⟨_, ⟨_, hlen⟩, _⟩ := generateLoop_induct maxLength
      (fun wg result _ =>
        wg.ItemsIn (fun c => ∃ n, n ∈ alphabet toLower words ∧ c = (n : Int)) ∧
        (result.length : Int) ≤ maxLength + 1)
      (by
        intro wg result nextChar sampler c sampler' hI hc hctx hs
        obtain ⟨hA, _⟩ := hI
        refine ⟨ItemsIn_withSampler wg _ hA _ sampler sampler' c hctx hs, ?_⟩
        obtain ⟨n, hn, hcn⟩ := hA _ sampler hctx c (Sample_some sampler c sampler' hs).1
        have hn256 := alphabet_lt toLower words n hn
        have hle := utf8AppendRune_length_le_two c (by rw [hcn]; omega) (by rw [hcn]; omega)
        simp only [List.length_append]
        push_cast
        omega)
      maxLength.toNat wg [94] 94 res wg'
      ⟨hA, by simp only [List.length_singleton]; push_cast; omega⟩ h1
    exact hlen
  refine ⟨res, wg', runes, ?_, ?_, h2, h4, hcount, ?_, hbytes, ?_⟩
  · exact generateLoop_fuel maxLength _ _ wg [94] 94 _ (by omega) h1
  · intro fuel hfuel
    exact generateLoop_fuel maxLength _ _ wg [94] 94 _ hfuel h1
  · rw [hcount]
    push_cast
    exact hbound
  · intro hascii
    have hrunes : ∀ r, r ∈ runes → 0 ≤ r ∧ r < 128 := by
      intro r hr
      obtain ⟨n, hn, hrn⟩ := h4 r hr
      have := hascii n hn
      subst hrn
      constructor
      · exact Int.ofNat_nonneg n
      · exact_mod_cast this
    rw [h2, List.length_append, encodeRunes_length_ascii runes hrunes]
    simp only [List.length_singleton]
    push_cast
    exact hbound

/-- On the model of `["dog", "dot", "dig"]` with the source that always draws 0,
`Generate(4)` returns `^dog`, of length 4. -/
theorem generate_terminates_within_maxLength_witness :
    ∃ wg res wg', NewWordGenerator.Build asciiToLower (fun _ => zeroRand)
        [str "dog", str "dot", str "dig"] = .ok wg ∧
      wg.Generate 4 = .ok (res, wg') ∧ res = str "^dog" ∧ (res.length : Int) ≤ 4 := by
  obtain ⟨wg, hwg⟩ := exists_ok_of_toBool (NewWordGenerator.Build asciiToLower
    (fun _ => zeroRand) [str "dog", str "dot", str "dig"]) (by decide)
  obtain ⟨res, wg', runes, h1, _, _, _, _, _, _, h7⟩ :=
    generate_terminates_within_maxLength asciiToLower (fun _ => zeroRand)
      [str "dog", str "dot", str "dig"] wg 4 hwg (by decide)
  refine ⟨wg, res, wg', hwg, h1, ?_, h7 (by decide)⟩
  have : ((NewWordGenerator.Build asciiToLower (fun _ => zeroRand)
      [str "dog", str "dot", str "dig"]).toOption.bind
      (fun wg => (wg.Generate 4).toOption.map Prod.fst)) = some (str "^dog") := by decide
  rw [hwg] at this
  simp only [Except.toOption, Option.some_bind, h1, Option.map_some'] at this
  exact Option.some.inj this

end MarkovWordGen
